import Mathlib

/-!
Verification of the Scintilla document engine against its design
specification.  The definitions below are shallow embeddings of the C++
sources: `UndoHistory.cxx`, `Document.cxx`, `RunStyles.cxx`,
`SplitVector.h` and the headers.  Machine integers are modelled as `Nat`
or `Int` (positions are `Sci::Position`, a signed integer; none of the
verified paths overflow), raw byte storage as `List Nat`, and the
parallel C++ vectors (`types`, `positions`, `lengths`) of `UndoActions`
as one record per index.  Components whose implementation file is not
part of the sources (CellBuffer.cxx, Partitioning.h, UniConversion.cxx,
CharClassify.cxx) are modelled from the specification; each such
definition carries a doc comment saying so.
-/

namespace Scintilla

/-! ## UndoHistory (from src/src/UndoHistory.cxx, 2024 scrap-stack version) -/

/-- The four kinds of undo records (`enum class ActionType` in CellBuffer.h). -/
inductive ActionType where
  | insert
  | remove
  | start
  | container
deriving DecidableEq, Repr

/-- One slot of `UndoActions`: the C++ class keeps three parallel vectors
`types` (kind and coalesce bit), `positions` and `lengths`; here the three
entries for one index are combined into a single record. -/
structure UndoSlot where
  act : ActionType
  mayCoalesce : Bool
  position : Nat
  length : Nat
deriving DecidableEq, Repr

/-- `UndoActions::CreateStart` / the trailing record written by
`actions.Create(index, ActionType::start)` with the default arguments
(`position_ = 0`, `lenData_ = 0`, `mayCoalesce_ = true`). -/
def startSlot : UndoSlot := ⟨ActionType.start, true, 0, 0⟩

/-- `ScrapStack`: shared byte stack holding every record's payload.
`current` is the read cursor. -/
structure ScrapStack where
  stack : List Nat
  current : Nat
deriving DecidableEq, Repr

namespace ScrapStack

/-- `ScrapStack::Push`: discard anything above `current`, append the text and
move `current` to the new top. -/
def push (s : ScrapStack) (text : List Nat) : ScrapStack :=
  let stack := if s.current < s.stack.length then s.stack.take s.current else s.stack
  let stack := stack ++ text
  { stack := stack, current := stack.length }

/-- `ScrapStack::MoveForward`. -/
def moveForward (s : ScrapStack) (length : Nat) : ScrapStack :=
  if s.current + length ≤ s.stack.length then { s with current := s.current + length } else s

/-- `ScrapStack::MoveBack`. -/
def moveBack (s : ScrapStack) (length : Nat) : ScrapStack :=
  if length ≤ s.current then { s with current := s.current - length } else s

/-- The `len` bytes ending at `current`: what `UndoHistory::GetUndoStep` reads
through `scraps->CurrentText() - acta.lenData`. -/
def windowBack (s : ScrapStack) (len : Nat) : List Nat :=
  (s.stack.drop (s.current - len)).take len

/-- The `len` bytes starting at `current`: what `UndoHistory::GetRedoStep`
reads through `scraps->CurrentText()`. -/
def windowForward (s : ScrapStack) (len : Nat) : List Nat :=
  (s.stack.drop s.current).take len

end ScrapStack

/-- The record handed out by `GetUndoStep` / `GetRedoStep` (class `Action`
in CellBuffer.h): kind, coalesce bit, position, payload bytes and length. -/
structure Action where
  act : ActionType
  mayCoalesce : Bool
  position : Nat
  data : List Nat
  lenData : Nat
deriving DecidableEq, Repr

/-- `UndoHistory` state.  `actions` is total (`EnsureUndoRoom` only manages
capacity, which a function `Nat → UndoSlot` does not need); `savePoint` and
`tentativePoint` are C++ `int`s that use −1 as a sentinel, so they stay
`Int`; `detach` is the C++ `std::optional<int>` that only ever holds former
`currentAction` values. -/
structure UndoHistory where
  actions : Nat → UndoSlot
  maxAction : Nat
  currentAction : Nat
  undoSequenceDepth : Nat
  savePoint : Int
  tentativePoint : Int
  detach : Option Nat
  scraps : ScrapStack

namespace UndoHistory

/-- Functional update of one slot (`UndoActions::Create`). -/
def writeSlot (f : Nat → UndoSlot) (i : Nat) (v : UndoSlot) : Nat → UndoSlot :=
  fun j => if j = i then v else f j

/-- The fresh history built by `UndoHistory::UndoHistory()`: slot 0 holds a
start record, everything else is the default-constructed slot. -/
def initial : UndoHistory where
  actions := writeSlot (fun _ => ⟨ActionType.insert, false, 0, 0⟩) 0 startSlot
  maxAction := 0
  currentAction := 0
  undoSequenceDepth := 0
  savePoint := 0
  tentativePoint := -1
  detach := none
  scraps := ⟨[], 0⟩

/-- The container-skipping loop of `AppendAction`:
`while ((targetAct > 0) && (types[targetAct].at == container) && types[targetAct].mayCoalesce) targetAct--`. -/
def targetActFrom (h : UndoHistory) : Nat → Nat
  | 0 => 0
  | n + 1 =>
    if (h.actions (n + 1)).act = ActionType.container ∧ (h.actions (n + 1)).mayCoalesce then
      h.targetActFrom n
    else n + 1

/-- The save-point / detach preamble of `AppendAction`: appending past the
save point invalidates it and records the detach point. -/
def appendPre (h : UndoHistory) : UndoHistory :=
  if (h.currentAction : Int) < h.savePoint then
    { h with savePoint := -1,
             detach := if h.detach.isNone then some h.currentAction else h.detach }
  else if h.detach.isSome ∧ (h.detach.getD 0 : Int) > (h.currentAction : Int) then
    { h with detach := some h.currentAction }
  else h

/-- The branch ladder of `AppendAction` deciding the index of the new
record: `currentAction` itself (the incoming action coalesces into the
current user operation, overwriting the trailing start record) or
`currentAction + 1` (a new user operation begins).  `lengthData` is the
payload length of the incoming action. -/
def appendNewCA (h : UndoHistory) (att : ActionType) (position : Nat)
    (lengthData : Nat) (mayCoalesce : Bool) : Nat :=
  let ca := h.currentAction
  if 1 ≤ ca then
    if h.undoSequenceDepth = 0 then
      let targetAct := h.targetActFrom (ca - 1)
      if (ca : Int) = h.savePoint ∨ (ca : Int) = h.tentativePoint then ca + 1
      else if ¬ (h.actions ca).mayCoalesce then ca + 1
      else if ¬ mayCoalesce ∨ ¬ (h.actions targetAct).mayCoalesce then ca + 1
      else if att = ActionType.container ∨ (h.actions ca).act = ActionType.container then ca
      else if att ≠ (h.actions targetAct).act ∧ (h.actions targetAct).act ≠ ActionType.start then
        ca + 1
      else if att = ActionType.insert ∧
          position ≠ (h.actions targetAct).position + (h.actions targetAct).length then
        ca + 1
      else if att = ActionType.remove then
        if lengthData = 1 ∨ lengthData = 2 then
          if position + lengthData = (h.actions targetAct).position then ca
          else if position = (h.actions targetAct).position then ca
          else ca + 1
        else ca + 1
      else ca
    else
      if ¬ (h.actions ca).mayCoalesce then ca + 1 else ca
  else ca + 1

/-- `UndoHistory::AppendAction`.  Returns the new state and `startSequence`.
`lengthData` is `data.length` (callers always pass the length of the buffer
they hand in): the record is written at the index chosen by `appendNewCA`,
the payload is pushed on the scrap stack, and a fresh trailing start record
follows the new record. -/
def appendAction (h : UndoHistory) (att : ActionType) (position : Nat)
    (data : List Nat) (mayCoalesce : Bool) : UndoHistory × Bool :=
  let h := h.appendPre
  let newCA := h.appendNewCA att position data.length mayCoalesce
  let startSequence := h.currentAction ≠ newCA
  let scraps := if data.length ≠ 0 then h.scraps.push data else h.scraps
  let actions := writeSlot h.actions newCA ⟨att, mayCoalesce, position, data.length⟩
  let actions := writeSlot actions (newCA + 1) startSlot
  ({ h with actions := actions, currentAction := newCA + 1, maxAction := newCA + 1,
            scraps := scraps },
   startSequence)

/-- `UndoHistory::BeginUndoAction`. -/
def beginUndoAction (h : UndoHistory) : UndoHistory :=
  if h.undoSequenceDepth = 0 then
    let h :=
      if (h.actions h.currentAction).act ≠ ActionType.start then
        { h with currentAction := h.currentAction + 1,
                 actions := writeSlot h.actions (h.currentAction + 1) startSlot,
                 maxAction := h.currentAction + 1 }
      else h
    let slot := h.actions h.currentAction
    { h with actions := writeSlot h.actions h.currentAction { slot with mayCoalesce := false },
             undoSequenceDepth := h.undoSequenceDepth + 1 }
  else { h with undoSequenceDepth := h.undoSequenceDepth + 1 }

/-- `UndoHistory::EndUndoAction`. -/
def endUndoAction (h : UndoHistory) : UndoHistory :=
  let h := { h with undoSequenceDepth := h.undoSequenceDepth - 1 }
  if h.undoSequenceDepth = 0 then
    let h :=
      if (h.actions h.currentAction).act ≠ ActionType.start then
        { h with currentAction := h.currentAction + 1,
                 actions := writeSlot h.actions (h.currentAction + 1) startSlot,
                 maxAction := h.currentAction + 1 }
      else h
    let slot := h.actions h.currentAction
    { h with actions := writeSlot h.actions h.currentAction { slot with mayCoalesce := false } }
  else h

/-- `UndoHistory::DropUndoSequence`. -/
def dropUndoSequence (h : UndoHistory) : UndoHistory :=
  { h with undoSequenceDepth := 0 }

/-- `UndoHistory::DeleteUndoHistory`: clear the payload lengths of records
1..maxAction−1, reset the cursors, re-create the start record in slot 0,
and reset `savePoint` to 0 and `tentativePoint` to −1. -/
def deleteUndoHistory (h : UndoHistory) : UndoHistory :=
  let actions := fun i =>
    if 1 ≤ i ∧ i < h.maxAction then { h.actions i with length := 0 } else h.actions i
  { h with actions := writeSlot actions 0 startSlot,
           maxAction := 0, currentAction := 0, savePoint := 0, tentativePoint := -1 }

/-- `UndoHistory::SetSavePoint`. -/
def setSavePoint (h : UndoHistory) : UndoHistory :=
  { h with savePoint := (h.currentAction : Int), detach := none }

/-- `UndoHistory::IsSavePoint`. -/
def isSavePoint (h : UndoHistory) : Bool :=
  h.savePoint = (h.currentAction : Int)

/-- `UndoHistory::TentativeStart`. -/
def tentativeStart (h : UndoHistory) : UndoHistory :=
  { h with tentativePoint := (h.currentAction : Int) }

/-- `UndoHistory::TentativeCommit`: clear the tentative point and truncate
the redo range. -/
def tentativeCommit (h : UndoHistory) : UndoHistory :=
  { h with tentativePoint := -1, maxAction := h.currentAction }

/-- `UndoHistory::TentativeSteps`: drop a trailing start record, then report
`currentAction − tentativePoint` (or −1 when no tentative point is set). -/
def tentativeSteps (h : UndoHistory) : Int × UndoHistory :=
  let h :=
    if (h.actions h.currentAction).act = ActionType.start ∧ 0 < h.currentAction then
      { h with currentAction := h.currentAction - 1 }
    else h
  (if 0 ≤ h.tentativePoint then (h.currentAction : Int) - h.tentativePoint else -1, h)

/-- `UndoHistory::CanUndo`. -/
def canUndo (h : UndoHistory) : Bool :=
  0 < h.currentAction ∧ 0 < h.maxAction

/-- The counting loop of `StartUndo`: the largest index `j ≤ n` holding a
start record (slot 0 always stops the loop). -/
def prevStart (h : UndoHistory) : Nat → Nat
  | 0 => 0
  | n + 1 => if (h.actions (n + 1)).act ≠ ActionType.start then h.prevStart n else n + 1

/-- `UndoHistory::StartUndo`: drop a trailing start record, then count the
records back to the previous start.  Returns the step count and the mutated
history. -/
def startUndo (h : UndoHistory) : Nat × UndoHistory :=
  let h :=
    if (h.actions h.currentAction).act = ActionType.start ∧ 0 < h.currentAction then
      { h with currentAction := h.currentAction - 1 }
    else h
  (h.currentAction - h.prevStart h.currentAction, h)

/-- `UndoHistory::GetUndoStep`. -/
def getUndoStep (h : UndoHistory) : Action :=
  let slot := h.actions h.currentAction
  { act := slot.act, mayCoalesce := slot.mayCoalesce, position := slot.position,
    data := if slot.length ≠ 0 then h.scraps.windowBack slot.length else [],
    lenData := slot.length }

/-- `UndoHistory::CompletedUndoStep`. -/
def completedUndoStep (h : UndoHistory) : UndoHistory :=
  { h with scraps := h.scraps.moveBack (h.actions h.currentAction).length,
           currentAction := h.currentAction - 1 }

/-- `UndoHistory::CanRedo`. -/
def canRedo (h : UndoHistory) : Bool :=
  h.currentAction < h.maxAction

/-- The counting loop of `StartRedo`, recursing on the distance left to
`maxAction` (the loop advances `act` by one while `act < maxAction`, so the
first argument is exactly the number of iterations still possible). -/
def nextStartAux (h : UndoHistory) : Nat → Nat → Nat
  | 0, act => act
  | fuel + 1, act =>
    if act < h.maxAction ∧ (h.actions act).act ≠ ActionType.start then
      h.nextStartAux fuel (act + 1)
    else act

/-- The counting loop of `StartRedo`: first index `j ≥ act` that is a start
record or `maxAction`, whichever comes first. -/
def nextStart (h : UndoHistory) (act : Nat) : Nat :=
  h.nextStartAux (h.maxAction - act) act

/-- `UndoHistory::StartRedo`: skip a leading start record, then count the
records up to the next start.  Returns the step count and the mutated
history. -/
def startRedo (h : UndoHistory) : Nat × UndoHistory :=
  let h :=
    if h.currentAction < h.maxAction ∧ (h.actions h.currentAction).act = ActionType.start then
      { h with currentAction := h.currentAction + 1 }
    else h
  (h.nextStart h.currentAction - h.currentAction, h)

/-- `UndoHistory::GetRedoStep`. -/
def getRedoStep (h : UndoHistory) : Action :=
  let slot := h.actions h.currentAction
  { act := slot.act, mayCoalesce := slot.mayCoalesce, position := slot.position,
    data := if slot.length ≠ 0 then h.scraps.windowForward slot.length else [],
    lenData := slot.length }

/-- `UndoHistory::CompletedRedoStep`. -/
def completedRedoStep (h : UndoHistory) : UndoHistory :=
  { h with scraps := h.scraps.moveForward (h.actions h.currentAction).length,
           currentAction := h.currentAction + 1 }

/-- The public mutators of `UndoHistory` other than `SetSavePoint` and
`DeleteUndoHistory` (which are the two operations that re-establish a save
point; see the claims about save-point invalidation). -/
inductive HistOp where
  | append (att : ActionType) (position : Nat) (data : List Nat) (mayCoalesce : Bool)
  | beginGroup
  | endGroup
  | dropSequence
  | tentStart
  | tentCommit
  | tentSteps
  | startUndoOp
  | completedUndo
  | startRedoOp
  | completedRedo

/-- Apply one `HistOp` to an undo history. -/
def applyHistOp (h : UndoHistory) : HistOp → UndoHistory
  | HistOp.append a p dta mc => (h.appendAction a p dta mc).1
  | HistOp.beginGroup => h.beginUndoAction
  | HistOp.endGroup => h.endUndoAction
  | HistOp.dropSequence => h.dropUndoSequence
  | HistOp.tentStart => h.tentativeStart
  | HistOp.tentCommit => h.tentativeCommit
  | HistOp.tentSteps => (h.tentativeSteps).2
  | HistOp.startUndoOp => (h.startUndo).2
  | HistOp.completedUndo => h.completedUndoStep
  | HistOp.startRedoOp => (h.startRedo).2
  | HistOp.completedRedo => h.completedRedoStep

end UndoHistory

/-! ## SplitVector content model and CellBuffer

`CellBuffer.cxx` is not among the sources (only `CellBuffer.h` is), so the
cell-buffer operations are modelled from the specification (§4.4) and from
the contracts documented in `CellBuffer.h`.  The text storage is the
logical content of the `substance` SplitVector: gap position and spare
capacity do not affect any value read through `CharAt`/`GetCharRange`, so
the content is a plain list.  The mutation guards are those of
`SplitVector::InsertFromArray` and `SplitVector::DeleteRange` (SplitVector.h,
which is among the sources). -/

/-- Logical effect of `SplitVector::InsertFromArray`: no-op for an empty
insertion or an out-of-range position. -/
def svInsertList (l : List Nat) (pos : Int) (s : List Nat) : List Nat :=
  if 0 < s.length then
    if pos < 0 ∨ (l.length : Int) < pos then l
    else l.take pos.toNat ++ s ++ l.drop pos.toNat
  else l

/-- Logical effect of `SplitVector::DeleteRange`: no-op when the range is not
inside the buffer. -/
def svDeleteRange (l : List Nat) (pos len : Int) : List Nat :=
  if pos < 0 ∨ (l.length : Int) < pos + len then l
  else if 0 < len then l.take pos.toNat ++ l.drop (pos + len).toNat
  else l

/-- `SplitVector::ValueAt` / `CellBuffer::CharAt`: reads outside the buffer
return 0. -/
def svValueAt (l : List Nat) (pos : Int) : Nat :=
  if pos < 0 then 0 else l.getD pos.toNat 0

/-- `CellBuffer::GetCharRange`-style extraction of `[pos, pos+len)`,
used to capture the text removed by `DeleteChars`. -/
def svRange (l : List Nat) (pos len : Int) : List Nat :=
  (l.drop pos.toNat).take len.toNat

/-- Modelled from the spec: `CellBuffer` (CellBuffer.cxx is not among the
sources).  Only the members that the verified claims touch are kept: the
`substance` byte vector, the read-only flag, the undo-collection flag and
the undo history.  The parallel `style` vector, the line vector (derived
below as a function of the bytes, per the LineVector invariant of §3) and
the per-line observers are not needed by these claims. -/
structure CellBuffer where
  substance : List Nat
  readOnly : Bool
  collectingUndo : Bool
  uh : UndoHistory

namespace CellBuffer

/-- A fresh cell buffer: empty text, writable, collecting undo. -/
def initial : CellBuffer :=
  ⟨[], false, true, UndoHistory.initial⟩

def length (cb : CellBuffer) : Int := (cb.substance.length : Int)

def charAt (cb : CellBuffer) (pos : Int) : Nat := svValueAt cb.substance pos

def isSavePoint (cb : CellBuffer) : Bool := cb.uh.isSavePoint

def setSavePoint (cb : CellBuffer) : CellBuffer := { cb with uh := cb.uh.setSavePoint }

def canUndo (cb : CellBuffer) : Bool := cb.uh.canUndo

def canRedo (cb : CellBuffer) : Bool := cb.uh.canRedo

/-- Modelled from the spec (§4.4): `CellBuffer::InsertString` records an
insert action when collecting undo, then inserts the bytes; it is a no-op
when read-only.  Returns the new buffer and `startSequence`. -/
def insertString (cb : CellBuffer) (position : Int) (s : List Nat) : CellBuffer × Bool :=
  if ¬ cb.readOnly then
    let (uh, startSequence) :=
      if cb.collectingUndo then cb.uh.appendAction ActionType.insert position.toNat s true
      else (cb.uh, false)
    ({ cb with substance := svInsertList cb.substance position s, uh := uh }, startSequence)
  else (cb, false)

/-- Modelled from the spec (§4.4): `CellBuffer::DeleteChars` captures the
removed bytes, records a remove action when collecting undo, then deletes;
no-op when read-only. -/
def deleteChars (cb : CellBuffer) (position len : Int) : CellBuffer × Bool :=
  if ¬ cb.readOnly then
    let removed := svRange cb.substance position len
    let (uh, startSequence) :=
      if cb.collectingUndo then cb.uh.appendAction ActionType.remove position.toNat removed true
      else (cb.uh, false)
    ({ cb with substance := svDeleteRange cb.substance position len, uh := uh }, startSequence)
  else (cb, false)

/-- Modelled from the spec (§4.5): `CellBuffer::PerformUndoStep` inverts the
current record — an insert action deletes its bytes, a remove action
re-inserts its payload — and completes the step. -/
def performUndoStep (cb : CellBuffer) : CellBuffer :=
  let actionStep := cb.uh.getUndoStep
  let substance :=
    if actionStep.act = ActionType.insert then
      svDeleteRange cb.substance (actionStep.position : Int) (actionStep.lenData : Int)
    else if actionStep.act = ActionType.remove then
      svInsertList cb.substance (actionStep.position : Int) actionStep.data
    else cb.substance
  { cb with substance := substance, uh := cb.uh.completedUndoStep }

/-- Modelled from the spec (§4.5): `CellBuffer::PerformRedoStep` re-applies
the current record. -/
def performRedoStep (cb : CellBuffer) : CellBuffer :=
  let actionStep := cb.uh.getRedoStep
  let substance :=
    if actionStep.act = ActionType.insert then
      svInsertList cb.substance (actionStep.position : Int) actionStep.data
    else if actionStep.act = ActionType.remove then
      svDeleteRange cb.substance (actionStep.position : Int) (actionStep.lenData : Int)
    else cb.substance
  { cb with substance := substance, uh := cb.uh.completedRedoStep }

/-- The buffer evolution of the loop of `Document::Undo`: the given number
of `PerformUndoStep` calls. -/
def performUndoSteps : Nat → CellBuffer → CellBuffer
  | 0, cb => cb
  | n + 1, cb => performUndoSteps n cb.performUndoStep

/-- The buffer evolution of the loop of `Document::Redo`: the given number
of `PerformRedoStep` calls. -/
def performRedoSteps : Nat → CellBuffer → CellBuffer
  | 0, cb => cb
  | n + 1, cb => performRedoSteps n cb.performRedoStep

/-- The `currentAction` increment of `UndoHistory::StartRedo` stepping over
the start record at the current position. -/
def bumpCurrent (cb : CellBuffer) : CellBuffer :=
  { cb with uh := { cb.uh with currentAction := cb.uh.currentAction + 1 } }

/-- Decidable history–buffer consistency of the next `n` undo records: each
record sits at a positive index with its payload inside the scrap stack and
describes its edit faithfully — an insert record covers
`[position, position+length)` of the buffer with the scrap window holding
exactly those bytes, a remove record lies inside the buffer.  The records
the `CellBuffer` mutation gateways write always satisfy this. -/
def undoInvertible : CellBuffer → Nat → Bool
  | _, 0 => true
  | cb, n + 1 =>
    (decide (1 ≤ cb.uh.currentAction) &&
     decide ((cb.uh.actions cb.uh.currentAction).length ≤ cb.uh.scraps.current) &&
     ((decide ((cb.uh.actions cb.uh.currentAction).act = ActionType.insert) &&
       decide (((cb.uh.actions cb.uh.currentAction).position : Int) +
         ((cb.uh.actions cb.uh.currentAction).length : Int) ≤
         (cb.substance.length : Int)) &&
       decide (cb.uh.scraps.windowBack (cb.uh.actions cb.uh.currentAction).length =
         svRange cb.substance ((cb.uh.actions cb.uh.currentAction).position : Int)
           ((cb.uh.actions cb.uh.currentAction).length : Int))) ||
      (decide ((cb.uh.actions cb.uh.currentAction).act = ActionType.remove) &&
       decide (((cb.uh.actions cb.uh.currentAction).position : Int) ≤
         (cb.substance.length : Int))))) &&
    undoInvertible cb.performUndoStep n

end CellBuffer

/-- Modelled from the spec (§3, line vector): the offsets one past each line
terminator (LF, CR, or CRLF; the opt-in Unicode separators are not enabled
in any verified scenario), accumulated from byte offset `i`. -/
def lineTermStarts : List Nat → Nat → List Nat
  | [], _ => []
  | 13 :: 10 :: rest, i => (i + 2) :: lineTermStarts rest (i + 2)
  | 13 :: rest, i => (i + 1) :: lineTermStarts rest (i + 1)
  | 10 :: rest, i => (i + 1) :: lineTermStarts rest (i + 1)
  | _ :: rest, i => lineTermStarts rest (i + 1)

/-- Modelled from the spec (§3): the line-start partitioning of a byte
buffer — `starts[0] = 0`, one start after every terminator, and the final
entry equal to the total length. -/
def lineStarts (bytes : List Nat) : List Nat :=
  0 :: (lineTermStarts bytes 0 ++ [bytes.length])

/-! ## Document mutation gateways, undo and redo (from src/src/Document.cxx)

Watchers are modelled as passive recipients: every notification is appended
to an event log.  (No watcher of the model calls back into the document, so
the `enteredReadOnlyCount` guard never observes a nested call and
`ChangeInsertion` is never invoked during `SC_MOD_INSERTCHECK`.)
The performed-by and grouping flag bits carried by `DocModification` are
not represented; each log entry keeps the kind and payload of the event. -/

inductive Notification where
  | modifyAttempt
  | insertCheck (position : Int) (text : List Nat)
  | beforeInsert (position : Int) (text : List Nat)
  | beforeDelete (position : Int) (length : Int)
  | container (token : Nat)
  | insertText (position : Int) (text : List Nat) (linesAdded : Int) (startAction : Bool)
  | deleteText (position : Int) (length : Int) (linesAdded : Int) (startAction : Bool)
  | savePointReached (atSave : Bool)
deriving DecidableEq, Repr

/-! ## UTF-8 helpers

Modelled from the spec: UniConversion.cxx / UniConversion.h are not among
the sources.  §4.7 prescribes validation with `UTF8Classify` and width
lookup through `UTF8BytesOfLead`; these follow the UTF-8 rules the spec
references (lead-byte widths; truncated sequences, stray trail bytes,
overlong encodings, UTF-16 surrogates and values above U+10FFFF are
invalid).  `UTF8Classify` returns `some width` for a valid sequence and
`none` for `UTF8MaskInvalid`. -/

def UTF8MaxBytes : Nat := 4

def UTF8IsAscii (b : Nat) : Bool := b < 0x80

def UTF8IsTrailByte (b : Nat) : Bool := 0x80 ≤ b ∧ b < 0xC0

/-- Modelled from the spec: the per-lead-byte width table
(`UTF8BytesOfLead`); invalid leads give width 1. -/
def UTF8BytesOfLead (b : Nat) : Nat :=
  if 0xF4 < b then 1
  else if 0xF0 ≤ b then 4
  else if 0xE0 ≤ b then 3
  else if 0xC2 ≤ b then 2
  else 1

/-- Modelled from the spec: `UTF8Classify` over the first `us.length`
bytes. -/
def UTF8Classify (us : List Nat) : Option Nat :=
  let b0 := us.getD 0 0
  if b0 < 0x80 then some 1
  else if b0 < 0xC2 then none
  else if b0 < 0xE0 then
    if 2 ≤ us.length ∧ UTF8IsTrailByte (us.getD 1 0) then some 2 else none
  else if b0 < 0xF0 then
    if 3 ≤ us.length ∧ UTF8IsTrailByte (us.getD 1 0) ∧ UTF8IsTrailByte (us.getD 2 0) ∧
        ¬ (b0 = 0xE0 ∧ us.getD 1 0 < 0xA0) ∧ ¬ (b0 = 0xED ∧ 0xA0 ≤ us.getD 1 0) then
      some 3
    else none
  else if b0 ≤ 0xF4 then
    if 4 ≤ us.length ∧ UTF8IsTrailByte (us.getD 1 0) ∧ UTF8IsTrailByte (us.getD 2 0) ∧
        UTF8IsTrailByte (us.getD 3 0) ∧ ¬ (b0 = 0xF0 ∧ us.getD 1 0 < 0x90) ∧
        ¬ (b0 = 0xF4 ∧ 0x8F < us.getD 1 0) then
      some 4
    else none
  else none

/-- Modelled from the spec: `UnicodeFromUTF8`, the standard decode of a
valid sequence. -/
def UnicodeFromUTF8 (us : List Nat) : Nat :=
  let b0 := us.getD 0 0
  if b0 < 0x80 then b0
  else if b0 < 0xE0 then (b0 % 0x20) * 0x40 + us.getD 1 0 % 0x40
  else if b0 < 0xF0 then
    (b0 % 0x10) * 0x1000 + (us.getD 1 0 % 0x40) * 0x40 + us.getD 2 0 % 0x40
  else
    (b0 % 0x8) * 0x40000 + (us.getD 1 0 % 0x40) * 0x1000 + (us.getD 2 0 % 0x40) * 0x40 +
      us.getD 3 0 % 0x40

/-- `SC_CP_UTF8` (Scintilla.h). -/
def SC_CP_UTF8 : Nat := 65001

/-- Search flag bits (Scintilla.h). -/
def SCFIND_WHOLEWORD : Nat := 2

def SCFIND_MATCHCASE : Nat := 4

def SCFIND_WORDSTART : Nat := 0x00100000

def SCFIND_REGEXP : Nat := 0x00200000

/-- `CharClassify::cc`: the four character classes of §3. -/
inductive CharKind where
  | space
  | newLine
  | word
  | punctuation
deriving DecidableEq, Repr

/-- Modelled from the spec (§3, CharClassify.cxx is not among the sources):
the default 256-entry classification table — CR/LF are newline, controls
and blank are space, alphanumerics, `_` and (by default) bytes ≥ 0x80 are
word, the rest punctuation. -/
def defaultCharKind (b : Nat) : CharKind :=
  if b = 13 ∨ b = 10 then CharKind.newLine
  else if b ≤ 0x20 then CharKind.space
  else if (48 ≤ b ∧ b ≤ 57) ∨ (65 ≤ b ∧ b ≤ 90) ∨ (97 ≤ b ∧ b ≤ 122) ∨ b = 95 ∨ 0x80 ≤ b then
    CharKind.word
  else CharKind.punctuation

/-- The Document state for the verified fragment: the cell buffer, the
re-entrancy counters, the insertion-check buffer, the notification log,
the code page, and the search collaborators.  `pcfFold` is the case
folder's `Fold` on a byte string (§3: an opaque function that may expand
or contract bytes); `wordKindTable` is the `CharClassify` table;
`regexFind` stands for the regex engine created by `CreateRegexSearch` —
an arbitrary function of the search arguments returning the result
position and the matched length.  Styling members (`endStyled`,
`styleClock`), per-line data and the lexer interface lie outside the
verified claims and are omitted. -/
structure Document where
  cb : CellBuffer
  enteredModification : Nat
  enteredReadOnlyCount : Nat
  insertionSet : Bool
  insertion : List Nat
  log : List Notification
  dbcsCodePage : Nat
  pcfFold : List Nat → List Nat
  wordKindTable : Nat → CharKind
  regexFind : Int → Int → List Nat → Nat → Int → Int × Int

namespace Document

def initial : Document :=
  ⟨CellBuffer.initial, 0, 0, false, [], [], 0, id, defaultCharKind, fun minPos _ _ _ len =>
    (minPos, len)⟩

def notify (d : Document) (n : Notification) : Document :=
  { d with log := d.log ++ [n] }

def length (d : Document) : Int := d.cb.length

def linesTotal (d : Document) : Int := ((lineStarts d.cb.substance).length : Int) - 1

/-- `Document::CheckReadOnly`: emit `SC_MODIFYATTEMPT` when the buffer is
read-only and the guard counter is clear (the counter is incremented only
around the notification itself, so it nets to its previous value). -/
def checkReadOnly (d : Document) : Document :=
  if d.cb.readOnly ∧ d.enteredReadOnlyCount = 0 then d.notify Notification.modifyAttempt
  else d

/-- `Document::DeleteChars`. -/
def deleteChars (d : Document) (pos len : Int) : Document × Bool :=
  if pos < 0 then (d, false)
  else if len ≤ 0 then (d, false)
  else if d.length < pos + len then (d, false)
  else
    let d := d.checkReadOnly
    if d.enteredModification ≠ 0 then (d, false)
    else if ¬ d.cb.readOnly then
      let d := d.notify (Notification.beforeDelete pos len)
      let prevLinesTotal := d.linesTotal
      let startSavePoint := d.cb.isSavePoint
      let (cb, startSequence) := d.cb.deleteChars pos len
      let d := { d with cb := cb }
      let d :=
        if startSavePoint ∧ cb.collectingUndo then
          d.notify (Notification.savePointReached false)
        else d
      let d := d.notify
        (Notification.deleteText pos len (d.linesTotal - prevLinesTotal) startSequence)
      (d, true)
    else (d, false)

/-- `Document::InsertString`.  Returns the inserted length (0 on
rejection). -/
def insertString (d : Document) (position : Int) (s : List Nat) : Document × Int :=
  if s.length = 0 then (d, 0)
  else
    let d := d.checkReadOnly
    if d.cb.readOnly then (d, 0)
    else if d.enteredModification ≠ 0 then (d, 0)
    else
      let d := { d with insertionSet := false, insertion := [] }
      let d := d.notify (Notification.insertCheck position s)
      let d := d.notify (Notification.beforeInsert position s)
      let prevLinesTotal := d.linesTotal
      let startSavePoint := d.cb.isSavePoint
      let (cb, startSequence) := d.cb.insertString position s
      let d := { d with cb := cb }
      let d :=
        if startSavePoint ∧ cb.collectingUndo then
          d.notify (Notification.savePointReached false)
        else d
      let d := d.notify
        (Notification.insertText position s (d.linesTotal - prevLinesTotal) startSequence)
      (d, (s.length : Int))

/-- One iteration of the loop in `Document::Undo`: notify, perform the step,
notify again with the inverted event kind. -/
def undoStep (d : Document) : Document :=
  let action := d.cb.uh.getUndoStep
  let d :=
    match action.act with
    | ActionType.remove => d.notify (Notification.beforeInsert (action.position : Int) action.data)
    | ActionType.container => d.notify (Notification.container action.position)
    | _ => d.notify (Notification.beforeDelete (action.position : Int) (action.lenData : Int))
  let prevLinesTotal := d.linesTotal
  let d := { d with cb := d.cb.performUndoStep }
  match action.act with
  | ActionType.remove =>
    d.notify (Notification.insertText (action.position : Int) action.data
      (d.linesTotal - prevLinesTotal) false)
  | ActionType.insert =>
    d.notify (Notification.deleteText (action.position : Int) (action.lenData : Int)
      (d.linesTotal - prevLinesTotal) false)
  | _ => d

def undoSteps : Nat → Document → Document
  | 0, d => d
  | n + 1, d => undoSteps n (undoStep d)

/-- `Document::Undo` (Document.cxx): guarded by the re-entrancy counter, the
undo-collection flag and the read-only flag; drives the
`StartUndo`/`GetUndoStep`/`PerformUndoStep` protocol of the cell buffer. -/
def undo (d : Document) : Document :=
  let d := d.checkReadOnly
  if d.enteredModification = 0 ∧ d.cb.collectingUndo then
    if ¬ d.cb.readOnly then
      let startSavePoint := d.cb.isSavePoint
      let (steps, uh) := d.cb.uh.startUndo
      let d := { d with cb := { d.cb with uh := uh } }
      let d := undoSteps steps d
      let endSavePoint := d.cb.isSavePoint
      if startSavePoint ≠ endSavePoint then d.notify (Notification.savePointReached endSavePoint)
      else d
    else d
  else d

/-- One iteration of the loop in `Document::Redo`. -/
def redoStep (d : Document) : Document :=
  let action := d.cb.uh.getRedoStep
  let d :=
    match action.act with
    | ActionType.insert => d.notify (Notification.beforeInsert (action.position : Int) action.data)
    | ActionType.container => d.notify (Notification.container action.position)
    | _ => d.notify (Notification.beforeDelete (action.position : Int) (action.lenData : Int))
  let prevLinesTotal := d.linesTotal
  let d := { d with cb := d.cb.performRedoStep }
  match action.act with
  | ActionType.insert =>
    d.notify (Notification.insertText (action.position : Int) action.data
      (d.linesTotal - prevLinesTotal) false)
  | ActionType.remove =>
    d.notify (Notification.deleteText (action.position : Int) (action.lenData : Int)
      (d.linesTotal - prevLinesTotal) false)
  | _ => d

def redoSteps : Nat → Document → Document
  | 0, d => d
  | n + 1, d => redoSteps n (redoStep d)

/-- `Document::Redo` (Document.cxx). -/
def redo (d : Document) : Document :=
  let d := d.checkReadOnly
  if d.enteredModification = 0 ∧ d.cb.collectingUndo then
    if ¬ d.cb.readOnly then
      let startSavePoint := d.cb.isSavePoint
      let (steps, uh) := d.cb.uh.startRedo
      let d := { d with cb := { d.cb with uh := uh } }
      let d := redoSteps steps d
      let endSavePoint := d.cb.isSavePoint
      if startSavePoint ≠ endSavePoint then d.notify (Notification.savePointReached endSavePoint)
      else d
    else d
  else d

/-! ### Character boundary arithmetic and search (from src/src/Document.cxx) -/

/-- `cb.CharAt` as used throughout Document.cxx. -/
def charAt (d : Document) (pos : Int) : Nat := svValueAt d.cb.substance pos

/-- The `charBytes` array: bytes at `pos`, `pos+1`, … (out-of-range reads
give 0, as with `cb.CharAt`). -/
def readBytes (d : Document) (pos : Int) (width : Nat) : List Nat :=
  (List.range width).map fun b => d.charAt (pos + b)

/-- `Document::IsDBCSLeadByte` (Document.cxx): lead-byte ranges per code
page. -/
def isDBCSLeadByte (d : Document) (uch : Nat) : Bool :=
  if d.dbcsCodePage = 932 then (0x81 ≤ uch ∧ uch ≤ 0x9F) ∨ (0xE0 ≤ uch ∧ uch ≤ 0xFC)
  else if d.dbcsCodePage = 936 then 0x81 ≤ uch ∧ uch ≤ 0xFE
  else if d.dbcsCodePage = 949 then 0x81 ≤ uch ∧ uch ≤ 0xFE
  else if d.dbcsCodePage = 950 then 0x81 ≤ uch ∧ uch ≤ 0xFE
  else if d.dbcsCodePage = 1361 then
    (0x84 ≤ uch ∧ uch ≤ 0xD3) ∨ (0xD8 ≤ uch ∧ uch ≤ 0xDE) ∨ (0xE0 ≤ uch ∧ uch ≤ 0xF9)
  else false

/-- `Document::IsCrLf`. -/
def isCrLf (d : Document) (pos : Int) : Bool :=
  if pos < 0 then false
  else if d.length - 1 ≤ pos then false
  else d.charAt pos = 13 ∧ d.charAt (pos + 1) = 10

/-- Largest index `i` with `starts[i] ≤ pos` (0 when there is none):
the binary search of `Partitioning::PartitionFromPosition`, modelled from
the spec (§4.2), as a scan. -/
def largestStartLE (pos : Int) : List Nat → Nat → Nat → Nat
  | [], _, best => best
  | s :: rest, idx, best =>
    if (s : Int) ≤ pos then largestStartLE pos rest (idx + 1) idx
    else best

/-- `LineVector::LineFromPosition` through the line-start partitioning
(modelled from the spec, §4.2: the partition containing `pos`; at or past
the last start the last partition is returned). -/
def lineOfPosition (d : Document) (pos : Int) : Nat :=
  let starts := lineStarts d.cb.substance
  min (largestStartLE pos starts 0 0) (starts.length - 2)

/-- `Document::PositionLineStart` (`lv.starts.PositionFromPartition`). -/
def positionLineStart (d : Document) (line : Nat) : Int :=
  ((lineStarts d.cb.substance).getD line 0 : Int)

/-- The trail-walking loop of `InGoodUTF8`:
`while ((trail>0) && (pos-trail < UTF8MaxBytes) && UTF8IsTrailByte(cb.CharAt(trail-1))) trail--`
(at most `UTF8MaxBytes` rounds can run, which the first argument counts). -/
def inGoodTrail (d : Document) (pos : Int) : Nat → Int → Int
  | 0, trail => trail
  | fuel + 1, trail =>
    if 0 < trail ∧ pos - trail < (UTF8MaxBytes : Int) ∧ UTF8IsTrailByte (d.charAt (trail - 1))
    then d.inGoodTrail pos fuel (trail - 1)
    else trail

/-- `Document::InGoodUTF8`: `some (start, end)` when `pos` sits inside a
valid multi-byte UTF-8 character. -/
def inGoodUTF8 (d : Document) (pos : Int) : Option (Int × Int) :=
  let trail := d.inGoodTrail pos UTF8MaxBytes pos
  let start := if 0 < trail then trail - 1 else trail
  let leadByte := d.charAt start
  let widthCharBytes := UTF8BytesOfLead leadByte
  if widthCharBytes = 1 then none
  else
    let trailBytes : Int := (widthCharBytes : Int) - 1
    let len := pos - start
    if trailBytes < len then none
    else
      match UTF8Classify (d.readBytes start widthCharBytes) with
      | none => none
      | some _ => some (start, start + (widthCharBytes : Int))

/-- The back-stepping loop of the DBCS branch of `MovePositionOutsideChar`:
`while ((posCheck > posStartLine) && IsDBCSLeadByte(cb.CharAt(posCheck-1))) posCheck--`. -/
def dbcsBackToStart (d : Document) (posStartLine : Int) : Nat → Int → Int
  | 0, p => p
  | fuel + 1, p =>
    if posStartLine < p ∧ d.isDBCSLeadByte (d.charAt (p - 1)) then
      d.dbcsBackToStart posStartLine fuel (p - 1)
    else p

/-- The forward character walk of the DBCS branch of
`MovePositionOutsideChar` (`while (posCheck < pos) …`); falling out of the
loop returns `pos`. -/
def dbcsWalkTo (d : Document) (pos moveDir : Int) : Nat → Int → Int
  | 0, _ => pos
  | fuel + 1, posCheck =>
    if posCheck < pos then
      let mbsize : Int := if d.isDBCSLeadByte (d.charAt posCheck) then 2 else 1
      if posCheck + mbsize = pos then pos
      else if pos < posCheck + mbsize then
        if 0 < moveDir then posCheck + mbsize else posCheck
      else d.dbcsWalkTo pos moveDir fuel (posCheck + mbsize)
    else pos

/-- `Document::MovePositionOutsideChar`. -/
def movePositionOutsideChar (d : Document) (pos : Int) (moveDir : Int)
    (checkLineEnd : Bool) : Int :=
  if pos ≤ 0 then 0
  else if d.length ≤ pos then d.length
  else if checkLineEnd ∧ d.isCrLf (pos - 1) then
    if 0 < moveDir then pos + 1 else pos - 1
  else if d.dbcsCodePage ≠ 0 then
    if d.dbcsCodePage = SC_CP_UTF8 then
      if UTF8IsTrailByte (d.charAt pos) then
        match d.inGoodUTF8 pos with
        | some (startUTF, endUTF) => if 0 < moveDir then endUTF else startUTF
        | none => pos
      else pos
    else
      let posStartLine := d.positionLineStart (d.lineOfPosition pos)
      if pos = posStartLine then pos
      else
        let posCheck := d.dbcsBackToStart posStartLine (pos - posStartLine).toNat pos
        d.dbcsWalkTo pos moveDir (pos - posCheck).toNat posCheck
  else pos

/-- The backward lead-byte scan of the DBCS branch of `NextPosition`:
`posTemp = pos - 1; while (posStartLine <= --posTemp && IsDBCSLeadByte(cb.CharAt(posTemp))) ;`. -/
def dbcsScanBack (d : Document) (posStartLine : Int) : Nat → Int → Int
  | 0, p => p
  | fuel + 1, p =>
    let p1 := p - 1
    if posStartLine ≤ p1 ∧ d.isDBCSLeadByte (d.charAt p1) then
      d.dbcsScanBack posStartLine fuel p1
    else p1

/-- `Document::NextPosition`. -/
def nextPosition (d : Document) (pos moveDir : Int) : Int :=
  let increment : Int := if 0 < moveDir then 1 else -1
  if pos + increment ≤ 0 then 0
  else if d.length ≤ pos + increment then d.length
  else if d.dbcsCodePage ≠ 0 then
    if d.dbcsCodePage = SC_CP_UTF8 then
      if increment = 1 then
        let leadByte := d.charAt pos
        if UTF8IsAscii leadByte then pos + 1
        else
          match UTF8Classify (d.readBytes pos (UTF8BytesOfLead leadByte)) with
          | none => pos + 1
          | some w => pos + (w : Int)
      else
        let p := pos - 1
        if UTF8IsTrailByte (d.charAt p) then
          match d.inGoodUTF8 p with
          | some (startUTF, _) => startUTF
          | none => p
        else p
    else
      if 0 < moveDir then
        let mbsize : Int := if d.isDBCSLeadByte (d.charAt pos) then 2 else 1
        if d.length < pos + mbsize then d.length else pos + mbsize
      else
        let posStartLine := d.positionLineStart (d.lineOfPosition pos)
        if pos - 1 ≤ posStartLine then pos - 1
        else if d.isDBCSLeadByte (d.charAt (pos - 1)) then pos - 2
        else
          let posTemp := d.dbcsScanBack posStartLine (pos - posStartLine).toNat (pos - 1)
          pos - 1 - (pos - posTemp) % 2
  else pos + increment

/-- `Document::NextCharacter`: `some` of the new position when it moved. -/
def nextCharacter (d : Document) (pos moveDir : Int) : Option Int :=
  let posNext := d.nextPosition pos moveDir
  if posNext = pos then none else some posNext

/-- `Document::WordCharClass`: in UTF-8, non-ASCII bytes count as word
characters; otherwise the `CharClassify` table decides. -/
def wordCharKind (d : Document) (ch : Nat) : CharKind :=
  if d.dbcsCodePage = SC_CP_UTF8 ∧ ¬ UTF8IsAscii ch then CharKind.word
  else d.wordKindTable ch

/-- `Document::IsWordStartAt`. -/
def isWordStartAt (d : Document) (pos : Int) : Bool :=
  if 0 < pos then
    let ccPos := d.wordCharKind (d.charAt pos)
    (ccPos = CharKind.word ∨ ccPos = CharKind.punctuation) ∧
      ccPos ≠ d.wordCharKind (d.charAt (pos - 1))
  else true

/-- `Document::IsWordEndAt`. -/
def isWordEndAt (d : Document) (pos : Int) : Bool :=
  if pos < d.length then
    let ccPrev := d.wordCharKind (d.charAt (pos - 1))
    (ccPrev = CharKind.word ∨ ccPrev = CharKind.punctuation) ∧
      ccPrev ≠ d.wordCharKind (d.charAt pos)
  else true

/-- `Document::IsWordAt`. -/
def isWordAt (d : Document) (start end_ : Int) : Bool :=
  start < end_ ∧ d.isWordStartAt start ∧ d.isWordEndAt end_

/-- `Document::MatchesWordOptions`. -/
def matchesWordOptions (d : Document) (word wordStart : Bool) (pos length : Int) : Bool :=
  (¬ word ∧ ¬ wordStart) ∨ (word ∧ d.isWordAt pos (pos + length)) ∨
    (wordStart ∧ d.isWordStartAt pos)

/-- The byte-compare loop of the case-sensitive branch of `FindText`:
all of `search[0..n)` equal the buffer at `pos..`.  (The source tests
index 0 as a prefilter and the loop covers `1..lengthFind`; the combined
condition is the same.) -/
def csMatchSeq (d : Document) (pos : Int) (search : List Nat) : Nat → Bool
  | 0 => true
  | n + 1 => d.csMatchSeq pos search n && decide (d.charAt (pos + n) = search.getD n 0)

/-- The search loop of the case-sensitive branch of `FindText`.  The first
argument bounds the iterations; each round either returns or moves `pos`
one character toward `endSearch`, so any fuel at least the byte span of
the search range is enough. -/
def findCSLoop (d : Document) (forward : Bool) (moveDir endSearch limitPos : Int)
    (search : List Nat) (lengthFind : Int) (word wordStart : Bool) : Nat → Int → Int
  | 0, _ => -1
  | fuel + 1, pos =>
    if (if forward then pos < endSearch else endSearch ≤ pos) then
      let found := decide (d.charAt pos = search.getD 0 0) &&
        decide (pos + lengthFind ≤ limitPos) && d.csMatchSeq pos search lengthFind.toNat
      if found && d.matchesWordOptions word wordStart pos lengthFind then pos
      else
        match d.nextCharacter pos moveDir with
        | some p2 => d.findCSLoop forward moveDir endSearch limitPos search lengthFind word
            wordStart fuel p2
        | none => -1
    else -1

/-- The character-matching inner loop (`for (;;)`) of the case-insensitive
UTF-8 branch of `FindText`.  State: document index, search index, first
character width (0 until set).  Returns
(document index, search index, characterMatches, widthFirstCharacter).
An invalid lead gives `widthChar = 0` exactly as
`UTF8Classify(...) & UTF8MaskWidth` does, in which case the C++ loop does
not progress; the fuel bound then ends the recursion. -/
def u8InsInner (d : Document) (limitPos : Int) (searchThing : List Nat) (lenSearch : Nat) :
    Nat → Int → Nat → Nat → (Int × Nat × Bool × Nat)
  | 0, p, i, w => (p, i, true, w)
  | fuel + 1, p, i, w =>
    let leadByte := d.charAt p
    let widthChar : Nat :=
      if ¬ UTF8IsAscii leadByte then
        match UTF8Classify (d.readBytes p (UTF8BytesOfLead leadByte)) with
        | none => 0
        | some wc => wc
      else 1
    let w := if w = 0 then widthChar else w
    if limitPos < p + (widthChar : Int) then (p, i, true, w)
    else
      let folded := d.pcfFold (d.readBytes p widthChar)
      let lenFlat := folded.length
      if folded ≠ (searchThing.drop i).take lenFlat then (p, i, false, w)
      else
        let p := p + (widthChar : Int)
        let i := i + lenFlat
        if lenSearch ≤ i then (p, i, true, w)
        else d.u8InsInner limitPos searchThing lenSearch fuel p i w

/-- The outer search loop of the case-insensitive UTF-8 branch of
`FindText`.  Returns the match position (or −1) and the matched byte
length. -/
def u8InsLoop (d : Document) (forward : Bool) (moveDir endPos limitPos : Int)
    (searchThing : List Nat) (lenSearch : Nat) (word wordStart : Bool) :
    Nat → Int → Int × Int
  | 0, _ => (-1, 0)
  | fuel + 1, pos =>
    if (if forward then pos < endPos else endPos ≤ pos) then
      let r := d.u8InsInner limitPos searchThing lenSearch
        (lenSearch + (limitPos - pos).toNat + 2) pos 0 0
      if r.2.2.1 ∧ r.2.1 = lenSearch ∧ d.matchesWordOptions word wordStart pos (r.1 - pos) then
        (pos, r.1 - pos)
      else if forward then
        d.u8InsLoop forward moveDir endPos limitPos searchThing lenSearch word wordStart fuel
          (pos + (r.2.2.2 : Int))
      else
        match d.nextCharacter pos moveDir with
        | some p2 => d.u8InsLoop forward moveDir endPos limitPos searchThing lenSearch word
            wordStart fuel p2
        | none => (-1, 0)
    else (-1, 0)

/-- The character-matching inner loop of the case-insensitive DBCS branch
of `FindText`.  State: document offset, search offset.  Returns
(indexDocument, indexSearch, characterMatches). -/
def dbcsInsInner (d : Document) (pos limitPos : Int) (searchThing : List Nat)
    (lenSearch : Nat) : Nat → Nat → Nat → (Nat × Nat × Bool)
  | 0, iD, iS => (iD, iS, true)
  | fuel + 1, iD, iS =>
    if pos + (iD : Int) < limitPos ∧ iS < lenSearch then
      let b0 := d.charAt (pos + iD)
      let widthChar : Nat := if d.isDBCSLeadByte b0 then 2 else 1
      if limitPos < pos + (iD : Int) + widthChar then (iD, iS, true)
      else
        let folded := d.pcfFold (d.readBytes (pos + iD) widthChar)
        let lenFlat := folded.length
        if folded ≠ (searchThing.drop iS).take lenFlat then (iD + widthChar, iS + lenFlat, false)
        else d.dbcsInsInner pos limitPos searchThing lenSearch fuel (iD + widthChar)
          (iS + lenFlat)
    else (iD, iS, true)

/-- The outer search loop of the case-insensitive DBCS branch of
`FindText`. -/
def dbcsInsLoop (d : Document) (forward : Bool) (moveDir endPos limitPos : Int)
    (searchThing : List Nat) (lenSearch : Nat) (word wordStart : Bool) :
    Nat → Int → Int × Int
  | 0, _ => (-1, 0)
  | fuel + 1, pos =>
    if (if forward then pos < endPos else endPos ≤ pos) then
      let r := d.dbcsInsInner pos limitPos searchThing lenSearch
        (lenSearch + (limitPos - pos).toNat + 2) 0 0
      if r.2.2 ∧ r.2.1 = lenSearch ∧ d.matchesWordOptions word wordStart pos (r.1 : Int) then
        (pos, (r.1 : Int))
      else
        match d.nextCharacter pos moveDir with
        | some p2 => d.dbcsInsLoop forward moveDir endPos limitPos searchThing lenSearch word
            wordStart fuel p2
        | none => (-1, 0)
    else (-1, 0)

/-- The byte-fold-compare loop of the single-byte case-insensitive branch
of `FindText`. -/
def sbcsMatchSeq (d : Document) (pos : Int) (searchThing : List Nat) : Nat → Bool
  | 0 => true
  | n + 1 => d.sbcsMatchSeq pos searchThing n &&
      decide ((d.pcfFold [d.charAt (pos + n)]).getD 0 0 = searchThing.getD n 0)

/-- The search loop of the single-byte case-insensitive branch of
`FindText`. -/
def sbcsInsLoop (d : Document) (forward : Bool) (moveDir endSearch limitPos : Int)
    (searchThing : List Nat) (lengthFind : Int) (word wordStart : Bool) : Nat → Int → Int
  | 0, _ => -1
  | fuel + 1, pos =>
    if (if forward then pos < endSearch else endSearch ≤ pos) then
      let found := decide (pos + lengthFind ≤ limitPos) &&
        d.sbcsMatchSeq pos searchThing lengthFind.toNat
      if found && d.matchesWordOptions word wordStart pos lengthFind then pos
      else
        match d.nextCharacter pos moveDir with
        | some p2 => d.sbcsInsLoop forward moveDir endSearch limitPos searchThing lengthFind
            word wordStart fuel p2
        | none => -1
    else -1

/-- Iteration budget for the `FindText` search loops: every iteration
either returns or moves at least one byte through the buffer (except the
stuck invalid-UTF-8 forward case, where the C++ loop does not terminate
at all), so the byte span of the positions involved plus the buffer
length is enough. -/
def findFuel (d : Document) (minPos maxPos : Int) : Nat :=
  d.cb.substance.length + minPos.natAbs + maxPos.natAbs + 4

/-- `Document::FindText` (the non-regex paths in full; the `REGEXP` flag
dispatches to the `regexFind` engine).  Returns the found position (or −1)
and the value left in `*length`. -/
def findText (d : Document) (minPos maxPos : Int) (search : List Nat) (flags : Nat)
    (length : Int) : Int × Int :=
  if length ≤ 0 then (minPos, length)
  else
    let caseSensitive := flags.land SCFIND_MATCHCASE ≠ 0
    let word := flags.land SCFIND_WHOLEWORD ≠ 0
    let wordStart := flags.land SCFIND_WORDSTART ≠ 0
    let regExp := flags.land SCFIND_REGEXP ≠ 0
    if regExp then d.regexFind minPos maxPos search flags length
    else
      let forward := minPos ≤ maxPos
      let increment : Int := if forward then 1 else -1
      let startPos := d.movePositionOutsideChar minPos increment false
      let endPos := d.movePositionOutsideChar maxPos increment false
      let lengthFind := length
      let limitPos := max startPos endPos
      let pos := if ¬ forward then d.nextPosition startPos increment else startPos
      if caseSensitive then
        let endSearch := if startPos ≤ endPos then endPos - lengthFind + 1 else endPos
        (d.findCSLoop forward increment endSearch limitPos search lengthFind word wordStart
          (d.findFuel minPos maxPos) pos, length)
      else if d.dbcsCodePage = SC_CP_UTF8 then
        let cap := lengthFind.toNat * UTF8MaxBytes * 4 + 1
        let folded := d.pcfFold (search.take lengthFind.toNat)
        let searchThing := folded ++ List.replicate (cap - folded.length) 0
        let r := d.u8InsLoop forward increment endPos limitPos searchThing folded.length word
          wordStart (d.findFuel minPos maxPos) pos
        if r.1 = -1 then (-1, length) else r
      else if d.dbcsCodePage ≠ 0 then
        let cap := lengthFind.toNat * 2 * 4 + 1
        let folded := d.pcfFold (search.take lengthFind.toNat)
        let searchThing := folded ++ List.replicate (cap - folded.length) 0
        let r := d.dbcsInsLoop forward increment endPos limitPos searchThing folded.length word
          wordStart (d.findFuel minPos maxPos) pos
        if r.1 = -1 then (-1, length) else r
      else
        let endSearch := if startPos ≤ endPos then endPos - lengthFind + 1 else endPos
        let searchThing := d.pcfFold (search.take lengthFind.toNat)
        (d.sbcsInsLoop forward increment endSearch limitPos searchThing lengthFind word
          wordStart (d.findFuel minPos maxPos) pos, length)

/-- `Document::GetCharacterAndWidth` (Document.cxx): the character code and
its byte width at a position. -/
def getCharacterAndWidth (d : Document) (position : Int) : Nat × Int :=
  if d.dbcsCodePage ≠ 0 then
    let leadByte := d.charAt position
    if d.dbcsCodePage = SC_CP_UTF8 then
      if UTF8IsAscii leadByte then (leadByte, 1)
      else
        let charBytes := d.readBytes position (UTF8BytesOfLead leadByte)
        match UTF8Classify charBytes with
        | none => (0xDC80 + leadByte, 1)
        | some w => (UnicodeFromUTF8 charBytes, (w : Int))
    else
      if d.isDBCSLeadByte leadByte then (leadByte * 256 + d.charAt (position + 1), 2)
      else (leadByte, 1)
  else (d.charAt position, 1)

end Document

/-! ## SplitVector (from src/src/SplitVector.h), including gap and capacity

This is the full gap-buffer model: `body` is the backing allocation
(`new T[size]`; uninitialised cells are represented by 0, and no verified
property reads them), `size` the capacity, `lengthBody` the logical length,
`part1Length` the gap start and `gapLength` the gap width.  The element
type is fixed to `Int`. -/

/-- `memmove(body + dst, body + src, cnt * sizeof(T))` on a list. -/
def memmove (l : List Int) (dst src cnt : Nat) : List Int :=
  l.take dst ++ (l.drop src).take cnt ++ l.drop (dst + cnt)

structure SplitVector where
  body : List Int
  size : Nat
  lengthBody : Nat
  part1Length : Nat
  gapLength : Nat
  growSize : Nat
deriving DecidableEq, Repr

namespace SplitVector

/-- `SplitVector::Init`. -/
def initial : SplitVector :=
  { body := [], size := 0, lengthBody := 0, part1Length := 0, gapLength := 0, growSize := 8 }

/-- `SplitVector::GapTo`. -/
def gapTo (v : SplitVector) (position : Nat) : SplitVector :=
  if position ≠ v.part1Length then
    if position < v.part1Length then
      { v with body := memmove v.body (position + v.gapLength) position (v.part1Length - position),
               part1Length := position }
    else
      { v with body := memmove v.body v.part1Length (v.part1Length + v.gapLength)
                 (position - v.part1Length),
               part1Length := position }
  else v

/-- The doubling loop of `RoomFor`:
`while (growSize < size / 6) growSize *= 2`, recursing on an iteration bound
of `cap` (a positive `growSize` strictly grows each round and stays below
`cap / 6`, so fewer than `cap` rounds ever run).  The `0 < growSize` guard
makes the function total; the C++ loop does not terminate for
`growSize = 0`, a value `growSize` never takes (`Init` sets 8 and doubling
preserves positivity). -/
def growWhileAux (cap : Nat) : Nat → Nat → Nat
  | 0, growSize => growSize
  | fuel + 1, growSize =>
    if 0 < growSize ∧ growSize < cap / 6 then growWhileAux cap fuel (growSize * 2)
    else growSize

def growWhile (growSize cap : Nat) : Nat :=
  growWhileAux cap cap growSize

/-- `SplitVector::ReAllocate`: move the gap to the end, copy the contents
into a fresh allocation of `newSize` cells and widen the gap.  Never
shrinks. -/
def reAllocate (v : SplitVector) (newSize : Nat) : SplitVector :=
  if v.size < newSize then
    let v := v.gapTo v.lengthBody
    { v with body := v.body.take v.lengthBody ++ List.replicate (newSize - v.lengthBody) 0,
             gapLength := v.gapLength + (newSize - v.size),
             size := newSize }
  else v

/-- `SplitVector::RoomFor`. -/
def roomFor (v : SplitVector) (insertionLength : Nat) : SplitVector :=
  if v.gapLength ≤ insertionLength then
    let gs := growWhile v.growSize v.size
    reAllocate { v with growSize := gs } (v.size + insertionLength + gs)
  else v

/-- Overwrite `cnt` cells starting at `start` with `x`
(`std::fill(&body[part1Length], &body[part1Length + insertLength], v)`). -/
def listFill (l : List Int) (start cnt : Nat) (x : Int) : List Int :=
  l.take start ++ List.replicate cnt x ++ l.drop (start + cnt)

/-- Overwrite `cnt` cells starting at `start` with a segment of `s`
(`memmove(body + part1Length, s + positionFrom, ...)`). -/
def listWriteSeg (l : List Int) (start : Nat) (s : List Int) (from_ cnt : Nat) : List Int :=
  l.take start ++ (s.drop from_).take cnt ++ l.drop (start + cnt)

/-- `SplitVector::Insert`. -/
def insertOne (v : SplitVector) (position : Nat) (x : Int) : SplitVector :=
  if position ≤ v.lengthBody then
    let v := v.roomFor 1
    let v := v.gapTo position
    { v with body := v.body.set v.part1Length x,
             lengthBody := v.lengthBody + 1,
             part1Length := v.part1Length + 1,
             gapLength := v.gapLength - 1 }
  else v

/-- `SplitVector::InsertValue`. -/
def insertValue (v : SplitVector) (position insertLength : Nat) (x : Int) : SplitVector :=
  if 0 < insertLength then
    if position ≤ v.lengthBody then
      let v := v.roomFor insertLength
      let v := v.gapTo position
      { v with body := listFill v.body v.part1Length insertLength x,
               lengthBody := v.lengthBody + insertLength,
               part1Length := v.part1Length + insertLength,
               gapLength := v.gapLength - insertLength }
    else v
  else v

/-- `SplitVector::InsertFromArray`. -/
def insertFromArray (v : SplitVector) (positionToInsert : Nat) (s : List Int)
    (positionFrom insertLength : Nat) : SplitVector :=
  if 0 < insertLength then
    if positionToInsert ≤ v.lengthBody then
      let v := v.roomFor insertLength
      let v := v.gapTo positionToInsert
      { v with body := listWriteSeg v.body v.part1Length s positionFrom insertLength,
               lengthBody := v.lengthBody + insertLength,
               part1Length := v.part1Length + insertLength,
               gapLength := v.gapLength - insertLength }
    else v
  else v

/-- `SplitVector::DeleteRange`: deleting the whole content releases the
storage (`delete []body; Init()`); any other in-range deletion only widens
the gap. -/
def deleteRange (v : SplitVector) (position deleteLength : Nat) : SplitVector :=
  if position + deleteLength ≤ v.lengthBody then
    if position = 0 ∧ deleteLength = v.lengthBody then initial
    else if 0 < deleteLength then
      let v := v.gapTo position
      { v with lengthBody := v.lengthBody - deleteLength,
               gapLength := v.gapLength + deleteLength }
    else v
  else v

/-- `SplitVector::DeleteAll`. -/
def deleteAll (v : SplitVector) : SplitVector :=
  v.deleteRange 0 v.lengthBody

/-- The logical content of the vector: prefix before the gap, suffix after
it. -/
def content (v : SplitVector) : List Int :=
  v.body.take v.part1Length ++
    (v.body.drop (v.part1Length + v.gapLength)).take (v.lengthBody - v.part1Length)

end SplitVector

/-! ## Partitioning and RunStyles (from src/src/RunStyles.cxx)

`Partitioning.h` is not among the sources, so the partitioning container is
modelled from the specification (§4.2): a vector of positions
`starts[0..n]`, `PositionFromPartition(i) = starts[i]` (out-of-range reads
give 0, the `SplitVector::ValueAt` contract), `PartitionFromPosition`
returning the partition containing the position (the largest index whose
start is ≤ the position — what the upstream binary search computes —
clamped to the last partition), `InsertText(i, delta)` adding `delta` to
every start after `i`, `InsertPartition` and `RemovePartition`.
`RunStyles.cxx` itself is among the sources and is ported verbatim on top
of this model; the `styles` SplitVector appears as its logical content. -/

/-- `body->Insert(position, v)` (`SplitVector::Insert`): no-op outside
`[0, length]`. -/
def listInsertAt (l : List Int) (i : Nat) (x : Int) : List Int :=
  if i ≤ l.length then l.take i ++ x :: l.drop i else l

/-- `SplitVector<int>::InsertValue`. -/
def svIntInsertValue (l : List Int) (position n : Nat) (x : Int) : List Int :=
  if 0 < n then
    if position ≤ l.length then l.take position ++ List.replicate n x ++ l.drop position else l
  else l

/-- `SplitVector<int>::DeleteRange`. -/
def svIntDeleteRange (l : List Int) (position n : Nat) : List Int :=
  if position + n ≤ l.length then
    if 0 < n then l.take position ++ l.drop (position + n) else l
  else l

/-- `SplitVector<int>::SetValueAt`: out-of-range writes are dropped. -/
def svIntSetValueAt (l : List Int) (position : Nat) (x : Int) : List Int :=
  if position < l.length then l.set position x else l

/-- Add `delta` to every entry with index greater than `i`
(`Partitioning::InsertText`). -/
def shiftAfter (i : Nat) (delta : Int) : List Int → Nat → List Int
  | [], _ => []
  | s :: rest, idx => (if i < idx then s + delta else s) :: shiftAfter i delta rest (idx + 1)

/-- Largest index with entry ≤ `pos` (0 when there is none): the lower
bound the binary search of `PartitionFromPosition` computes on the
monotone start vector. -/
def largestEntryLE (pos : Int) : List Int → Nat → Nat → Nat
  | [], _, best => best
  | s :: rest, idx, best =>
    if s ≤ pos then largestEntryLE pos rest (idx + 1) idx else best

/-- Modelled from the spec (§4.2): the partitioning of a length into
`body.length − 1` runs. -/
structure Partitioning where
  body : List Int
deriving DecidableEq, Repr

namespace Partitioning

def partitions (p : Partitioning) : Nat := p.body.length - 1

def positionFromPartition (p : Partitioning) (i : Nat) : Int := p.body.getD i 0

/-- `Partitioning::PartitionFromPosition`: positions at or past the last
start map to the last partition. -/
def partitionFromPosition (p : Partitioning) (pos : Int) : Nat :=
  if p.body.length ≤ 1 then 0
  else if p.body.getD (p.body.length - 1) 0 ≤ pos then p.body.length - 2
  else largestEntryLE pos p.body 0 0

def insertPartition (p : Partitioning) (i : Nat) (pos : Int) : Partitioning :=
  ⟨listInsertAt p.body i pos⟩

def removePartition (p : Partitioning) (i : Nat) : Partitioning :=
  ⟨p.body.eraseIdx i⟩

def insertText (p : Partitioning) (i : Nat) (delta : Int) : Partitioning :=
  ⟨shiftAfter i delta p.body 0⟩

end Partitioning

/-- `RunStyles`: the start partitioning and the parallel run values
(`styles` has one entry per run plus the unused sentinel value at the
end). -/
structure RunStyles where
  starts : Partitioning
  styles : List Int
deriving DecidableEq, Repr

namespace RunStyles

/-- `RunStyles::RunStyles()`: one empty run, values `[0, 0]`. -/
def initial : RunStyles := ⟨⟨[0, 0]⟩, [0, 0]⟩

/-- `RunStyles::Length`. -/
def Length (rs : RunStyles) : Int :=
  rs.starts.positionFromPartition rs.starts.partitions

/-- `RunStyles::ValueAt`. -/
def ValueAt (rs : RunStyles) (position : Int) : Int :=
  rs.styles.getD (rs.starts.partitionFromPosition position) 0

/-- The duplicate-walking loop of `RunFromPosition`:
`while ((run > 0) && (position == starts->PositionFromPartition(run-1))) run--`. -/
def runWalkBack (rs : RunStyles) (position : Int) : Nat → Nat
  | 0 => 0
  | run + 1 =>
    if position = rs.starts.positionFromPartition run then rs.runWalkBack position run
    else run + 1

/-- `RunStyles::RunFromPosition`: the first run at a position. -/
def RunFromPosition (rs : RunStyles) (position : Int) : Nat :=
  rs.runWalkBack position (rs.starts.partitionFromPosition position)

/-- `RunStyles::SplitRun`: insert a boundary continuing the current style
when the position is not already a boundary.  Returns the run index and
the new state. -/
def SplitRun (rs : RunStyles) (position : Int) : Nat × RunStyles :=
  let run := rs.RunFromPosition position
  let posRun := rs.starts.positionFromPartition run
  if posRun < position then
    let runStyle := rs.ValueAt position
    let run := run + 1
    (run, ⟨rs.starts.insertPartition run position, svIntInsertValue rs.styles run 1 runStyle⟩)
  else (run, rs)

/-- `RunStyles::RemoveRun`. -/
def RemoveRun (rs : RunStyles) (run : Nat) : RunStyles :=
  ⟨rs.starts.removePartition run, svIntDeleteRange rs.styles run 1⟩

/-- `RunStyles::RemoveRunIfEmpty`. -/
def RemoveRunIfEmpty (rs : RunStyles) (run : Nat) : RunStyles :=
  if run < rs.starts.partitions ∧ 1 < rs.starts.partitions then
    if rs.starts.positionFromPartition run = rs.starts.positionFromPartition (run + 1) then
      rs.RemoveRun run
    else rs
  else rs

/-- `RunStyles::RemoveRunIfSameAsPrevious`. -/
def RemoveRunIfSameAsPrevious (rs : RunStyles) (run : Nat) : RunStyles :=
  if 0 < run ∧ run < rs.starts.partitions then
    if rs.styles.getD (run - 1) 0 = rs.styles.getD run 0 then rs.RemoveRun run
    else rs
  else rs

/-- The removal loop of `FillRange` / `DeleteRange`: remove the run at a
fixed index the given number of times. -/
def removeRuns (rs : RunStyles) (run : Nat) : Nat → RunStyles
  | 0 => rs
  | n + 1 => removeRuns (rs.RemoveRun run) run n

/-- The tail of `RunStyles::FillRange` after the end-of-range handling:
trim or split at the start, overwrite the first covered run, drop the
other covered runs, and merge with equal neighbours.  `end_` is the
(possibly trimmed) end position, `runEnd` the run index at the end. -/
def fillCore (rs : RunStyles) (position value end_ : Int) (runEnd : Nat) : Bool × RunStyles :=
  let runStart := rs.RunFromPosition position
  let (runStart, runEnd, rs) :=
    if rs.styles.getD runStart 0 = value then
      (runStart + 1, runEnd, rs)
    else
      if rs.starts.positionFromPartition runStart < position then
        let (runStart, rs) := rs.SplitRun position
        (runStart, runEnd + 1, rs)
      else (runStart, runEnd, rs)
  if runStart < runEnd then
    let rs : RunStyles := ⟨rs.starts, svIntSetValueAt rs.styles runStart value⟩
    let rs := rs.removeRuns (runStart + 1) (runEnd - (runStart + 1))
    let runEnd2 := rs.RunFromPosition end_
    let rs := rs.RemoveRunIfSameAsPrevious runEnd2
    let rs := rs.RemoveRunIfSameAsPrevious runStart
    let runEnd3 := rs.RunFromPosition end_
    let rs := rs.RemoveRunIfEmpty runEnd3
    (true, rs)
  else (false, rs)

/-- `RunStyles::FillRange`.  Returns whether anything changed and the new
state.  (The in/out `position`/`fillLength` parameters only matter to
callers outside the verified fragment.) -/
def FillRange (rs : RunStyles) (position value fillLength : Int) : Bool × RunStyles :=
  if fillLength ≤ 0 then (false, rs)
  else
    let end_ := position + fillLength
    if rs.Length < end_ then (false, rs)
    else
      let runEnd := rs.RunFromPosition end_
      if rs.styles.getD runEnd 0 = value then
        let end2 := rs.starts.positionFromPartition runEnd
        if end2 ≤ position then (false, rs)
        else rs.fillCore position value end2 runEnd
      else
        let (runEnd, rs) := rs.SplitRun end_
        rs.fillCore position value end_ runEnd

/-- `RunStyles::SetValueAt`. -/
def SetValueAt (rs : RunStyles) (position value : Int) : RunStyles :=
  (rs.FillRange position value 1).2

/-- `RunStyles::InsertSpace`. -/
def InsertSpace (rs : RunStyles) (position insertLength : Int) : RunStyles :=
  let runStart := rs.RunFromPosition position
  if rs.starts.positionFromPartition runStart = position then
    let runStyle := rs.ValueAt position
    if runStart = 0 then
      if runStyle ≠ 0 then
        let styles := svIntSetValueAt rs.styles 0 0
        let starts := rs.starts.insertPartition 1 0
        let styles := svIntInsertValue styles 1 1 runStyle
        ⟨(Partitioning.insertText starts 0 insertLength), styles⟩
      else ⟨rs.starts.insertText runStart insertLength, rs.styles⟩
    else
      if runStyle ≠ 0 then ⟨rs.starts.insertText (runStart - 1) insertLength, rs.styles⟩
      else ⟨rs.starts.insertText runStart insertLength, rs.styles⟩
  else ⟨rs.starts.insertText runStart insertLength, rs.styles⟩

/-- `RunStyles::DeleteRange`. -/
def DeleteRange (rs : RunStyles) (position deleteLength : Int) : RunStyles :=
  let end_ := position + deleteLength
  let runStart := rs.RunFromPosition position
  let runEnd := rs.RunFromPosition end_
  if runStart = runEnd then
    let rs : RunStyles := ⟨rs.starts.insertText runStart (-deleteLength), rs.styles⟩
    rs.RemoveRunIfEmpty runStart
  else
    let (runStart, rs) := rs.SplitRun position
    let (runEnd, rs) := rs.SplitRun end_
    let rs : RunStyles := ⟨rs.starts.insertText runStart (-deleteLength), rs.styles⟩
    let rs := rs.removeRuns runStart (runEnd - runStart)
    let rs := rs.RemoveRunIfEmpty runStart
    rs.RemoveRunIfSameAsPrevious runStart

/-- `RunStyles::Runs`. -/
def Runs (rs : RunStyles) : Nat := rs.starts.partitions

end RunStyles

/-- One call of the four RunStyles mutators of the invariant claim, with
the argument validity its callers guarantee (positions inside the length,
positive insertion and deletion lengths, deletions inside the length). -/
inductive RunOp where
  | fill (position value fillLength : Int)
  | setValue (position value : Int)
  | insertSpace (position insertLength : Int)
  | deleteRange (position deleteLength : Int)

/-- Argument validity for a `RunOp` against a state. -/
def RunOpValid (rs : RunStyles) : RunOp → Prop
  | RunOp.fill position _ _ => 0 ≤ position
  | RunOp.setValue position _ => 0 ≤ position
  | RunOp.insertSpace position insertLength =>
      0 ≤ position ∧ position ≤ rs.Length ∧ 0 < insertLength
  | RunOp.deleteRange position deleteLength =>
      0 ≤ position ∧ 0 < deleteLength ∧ position + deleteLength ≤ rs.Length

/-- Apply one `RunOp`. -/
def applyRunOp (rs : RunStyles) : RunOp → RunStyles
  | RunOp.fill position value fillLength => (rs.FillRange position value fillLength).2
  | RunOp.setValue position value => rs.SetValueAt position value
  | RunOp.insertSpace position insertLength => rs.InsertSpace position insertLength
  | RunOp.deleteRange position deleteLength => rs.DeleteRange position deleteLength

/-- The states reachable from a fresh `RunStyles` through valid calls of
the four mutators. -/
inductive RunReachable : RunStyles → Prop
  | init : RunReachable RunStyles.initial
  | step (rs : RunStyles) (op : RunOp) (hr : RunReachable rs) (hv : RunOpValid rs op) :
      RunReachable (applyRunOp rs op)

namespace RunStyles

/-- Start of run `i` (`starts->PositionFromPartition(i)` as a raw read). -/
def sAt (rs : RunStyles) (i : Nat) : Int := rs.starts.body.getD i 0

/-- Value of run `i` (`styles->ValueAt(i)` as a raw read). -/
def vAt (rs : RunStyles) (i : Nat) : Int := rs.styles.getD i 0

/-- Number of entries of the start vector (= partitions + 1). -/
def entries (rs : RunStyles) : Nat := rs.starts.body.length

/-- The inductive invariant of a `RunStyles` in use: at least one run, the
styles vector one longer than the run count, starts beginning at 0 and
non-decreasing, no two equal starts except one final pair (an empty last
run at the past-end position), the unused final style 0, and adjacent runs
carrying different values. -/
def Inv (rs : RunStyles) : Prop :=
  2 ≤ rs.entries ∧
  rs.styles.length = rs.entries ∧
  rs.sAt 0 = 0 ∧
  (∀ i < rs.entries, i + 1 < rs.entries → rs.sAt i ≤ rs.sAt (i + 1)) ∧
  (∀ i < rs.entries, i + 2 < rs.entries → rs.sAt i < rs.sAt (i + 2)) ∧
  rs.vAt (rs.entries - 1) = 0 ∧
  (∀ i < rs.entries, 1 ≤ i → i + 1 < rs.entries → rs.vAt i ≠ rs.vAt (i - 1)) ∧
  (∀ i < rs.entries, i + 1 < rs.entries → rs.sAt i = rs.sAt (i + 1) → i + 2 = rs.entries)

instance (rs : RunStyles) : Decidable rs.Inv := by
  unfold Inv
  exact instDecidableAnd

/-- The part of `Inv` about the start vector alone (the style vector of an
intermediate state inside `FillRange`/`DeleteRange` may briefly hold equal
adjacent values, but the starts always satisfy this). -/
def SInv (rs : RunStyles) : Prop :=
  2 ≤ rs.entries ∧
  rs.sAt 0 = 0 ∧
  (∀ i < rs.entries, i + 1 < rs.entries → rs.sAt i ≤ rs.sAt (i + 1)) ∧
  (∀ i < rs.entries, i + 2 < rs.entries → rs.sAt i < rs.sAt (i + 2)) ∧
  (∀ i < rs.entries, i + 1 < rs.entries → rs.sAt i = rs.sAt (i + 1) → i + 2 = rs.entries)

/-- The state after `SplitRun` inserted a boundary after run `r`: start `p`
and value `v` squeezed in at index `r + 1` of both vectors. -/
def insState (rs : RunStyles) (r : Nat) (p v : Int) : RunStyles :=
  ⟨⟨listInsertAt rs.starts.body (r + 1) p⟩, listInsertAt rs.styles (r + 1) v⟩

/-- The state with run indices `[a, b)` cut out of both vectors: the normal
form of the removal loops of `FillRange` and `DeleteRange`. -/
def cutState (rs : RunStyles) (a b : Nat) : RunStyles :=
  ⟨⟨rs.starts.body.take a ++ rs.starts.body.drop b⟩,
    rs.styles.take a ++ rs.styles.drop b⟩

end RunStyles

/-! ## Concrete scenarios used by the coalesced-typing claim -/

/-- 'a' typed at position 0 of an initially empty document. -/
def typedA : Document := (Document.initial.insertString 0 [97]).1

/-- …then 'b' typed at position 1. -/
def typedAB : Document := (typedA.insertString 1 [98]).1

/-- …then 'c' typed at position 2: three separate `InsertString` calls with
`mayCoalesce = true` and no undo group open. -/
def typedABC : Document := (typedAB.insertString 2 [99]).1

/-- The UTF-8 document "ab\xCE\x93d" (a, b, U+0393 GREEK CAPITAL LETTER
GAMMA, d) of the search scenario. -/
def utf8GammaDoc : Document :=
  { Document.initial with
      cb := { Document.initial.cb with substance := [97, 98, 0xCE, 0x93, 100] },
      dbcsCodePage := SC_CP_UTF8 }

/-- A UTF-8 document starting with a stray trail byte 0x80 (an invalid
sequence). -/
def utf8BadDoc : Document :=
  { Document.initial with
      cb := { Document.initial.cb with substance := [0x80, 97] },
      dbcsCodePage := SC_CP_UTF8 }

/-- A read-only document holding one byte. -/
def roDoc : Document :=
  { Document.initial with
      cb := { Document.initial.cb with substance := [120], readOnly := true } }

/-- A history whose cursor sits strictly before the save point: two separate
user operations are recorded, a save point is set after them, and the second
operation is undone. -/
def histPastSave : UndoHistory :=
  ((((UndoHistory.initial.appendAction ActionType.insert 0 [97] true).1.appendAction
      ActionType.insert 5 [98] false).1.setSavePoint).startUndo).2.completedUndoStep

/-- A history built inside an open `BeginUndoAction` group with a save point
set mid-group: one action recorded at top level, a group opened, one action
recorded inside it, then `SetSavePoint`. -/
def histGroupSave : UndoHistory :=
  ((((UndoHistory.initial.appendAction ActionType.insert 0 [97] true).1.beginUndoAction).appendAction
      ActionType.insert 1 [98] true).1).setSavePoint

/-! ## Helper lemmas about UndoHistory -/

namespace UndoHistory

theorem writeSlot_same (f : Nat → UndoSlot) (i : Nat) (v : UndoSlot) :
    writeSlot f i v i = v := by
  simp [writeSlot]

theorem writeSlot_other (f : Nat → UndoSlot) (i j : Nat) (v : UndoSlot) (hij : j ≠ i) :
    writeSlot f i v j = f j := by
  simp [writeSlot, hij]

theorem appendPre_currentAction (h : UndoHistory) :
    h.appendPre.currentAction = h.currentAction := by
  unfold appendPre
  split_ifs <;> rfl

theorem appendPre_actions (h : UndoHistory) : h.appendPre.actions = h.actions := by
  unfold appendPre
  split_ifs <;> rfl

theorem appendPre_depth (h : UndoHistory) :
    h.appendPre.undoSequenceDepth = h.undoSequenceDepth := by
  unfold appendPre
  split_ifs <;> rfl

theorem appendPre_savePoint_neg (h : UndoHistory) (hsp : h.savePoint = -1) :
    h.appendPre.savePoint = -1 := by
  unfold appendPre
  split_ifs <;> simp [hsp]

theorem appendAction_fst_savePoint (h : UndoHistory) (att : ActionType) (position : Nat)
    (data : List Nat) (mc : Bool) :
    (h.appendAction att position data mc).1.savePoint = h.appendPre.savePoint := rfl

theorem beginUndoAction_savePoint (h : UndoHistory) :
    h.beginUndoAction.savePoint = h.savePoint := by
  unfold beginUndoAction
  split_ifs <;> rfl

theorem endUndoAction_savePoint (h : UndoHistory) :
    h.endUndoAction.savePoint = h.savePoint := by
  unfold endUndoAction
  dsimp only
  split_ifs <;> rfl

theorem tentativeSteps_savePoint (h : UndoHistory) :
    (h.tentativeSteps).2.savePoint = h.savePoint := by
  unfold tentativeSteps
  split_ifs <;> rfl

theorem startUndo_savePoint (h : UndoHistory) : (h.startUndo).2.savePoint = h.savePoint := by
  unfold startUndo
  split_ifs <;> rfl

theorem startRedo_savePoint (h : UndoHistory) : (h.startRedo).2.savePoint = h.savePoint := by
  unfold startRedo
  split_ifs <;> rfl

/-- Among the operations of `HistOp`, only `AppendAction` writes to
`savePoint`, and it can only write −1. -/
theorem applyHistOp_savePoint_neg (h : UndoHistory) (op : HistOp) (hsp : h.savePoint = -1) :
    (applyHistOp h op).savePoint = -1 := by
  cases op with
  | append a p dta mc =>
    rw [applyHistOp, appendAction_fst_savePoint]
    exact appendPre_savePoint_neg h hsp
  | beginGroup => rw [applyHistOp, beginUndoAction_savePoint]; exact hsp
  | endGroup => rw [applyHistOp, endUndoAction_savePoint]; exact hsp
  | dropSequence => exact hsp
  | tentStart => exact hsp
  | tentCommit => exact hsp
  | tentSteps => rw [applyHistOp, tentativeSteps_savePoint]; exact hsp
  | startUndoOp => rw [applyHistOp, startUndo_savePoint]; exact hsp
  | completedUndo => exact hsp
  | startRedoOp => rw [applyHistOp, startRedo_savePoint]; exact hsp
  | completedRedo => exact hsp

theorem foldl_applyHistOp_savePoint_neg (ops : List HistOp) :
    ∀ h : UndoHistory, h.savePoint = -1 → (ops.foldl applyHistOp h).savePoint = -1 := by
  induction ops with
  | nil => intro h hsp; exact hsp
  | cons op rest ih =>
    intro h hsp
    exact ih (applyHistOp h op) (applyHistOp_savePoint_neg h op hsp)

theorem isSavePoint_of_neg (h : UndoHistory) (hsp : h.savePoint = -1) :
    h.isSavePoint = false := by
  simp only [isSavePoint, hsp, decide_eq_false_iff_not]
  omega

/-- The save-point / tentative-point boundary condition survives the
`AppendAction` preamble: the preamble either leaves both points alone or
replaces the save point by −1 in the case where the boundary came from the
tentative point. -/
theorem appendPre_boundary (h : UndoHistory)
    (hpt : (h.currentAction : Int) = h.savePoint ∨ (h.currentAction : Int) = h.tentativePoint) :
    (h.appendPre.currentAction : Int) = h.appendPre.savePoint ∨
      (h.appendPre.currentAction : Int) = h.appendPre.tentativePoint := by
  unfold appendPre
  by_cases h1 : (h.currentAction : Int) < h.savePoint
  · rw [if_pos h1]
    rcases hpt with hpt | hpt
    · exact absurd hpt (by omega)
    · exact Or.inr hpt
  · rw [if_neg h1]
    by_cases h2 : h.detach.isSome = true ∧ (h.detach.getD 0 : Int) > (h.currentAction : Int)
    · rw [if_pos h2]
      exact hpt
    · rw [if_neg h2]
      exact hpt

/-- At the top level, an action appended while `currentAction` sits on the
save point or the tentative point always starts a new user operation. -/
theorem appendNewCA_boundary (h : UndoHistory) (att : ActionType) (position lengthData : Nat)
    (mc : Bool) (hdepth : h.undoSequenceDepth = 0)
    (hpt : (h.currentAction : Int) = h.savePoint ∨ (h.currentAction : Int) = h.tentativePoint) :
    h.appendNewCA att position lengthData mc = h.currentAction + 1 := by
  unfold appendNewCA
  by_cases hca : 1 ≤ h.currentAction
  · rw [if_pos hca, if_pos hdepth, if_pos hpt]
  · rw [if_neg hca]

theorem appendAction_snd (h : UndoHistory) (att : ActionType) (position : Nat)
    (data : List Nat) (mc : Bool) :
    (h.appendAction att position data mc).2 =
      decide (h.appendPre.currentAction ≠
        h.appendPre.appendNewCA att position data.length mc) := rfl

theorem appendAction_fst_actions (h : UndoHistory) (att : ActionType) (position : Nat)
    (data : List Nat) (mc : Bool) :
    (h.appendAction att position data mc).1.actions =
      writeSlot
        (writeSlot h.appendPre.actions (h.appendPre.appendNewCA att position data.length mc)
          ⟨att, mc, position, data.length⟩)
        (h.appendPre.appendNewCA att position data.length mc + 1) startSlot := rfl

end UndoHistory

/-! ## Claim theorems: undo-history coalescing and save points -/

/-- C2, counterexample.  Typing 'a','b','c' as three separate
single-character `InsertString` calls at positions 0, 1, 2 with
`mayCoalesce = true` and no explicit undo group open coalesces them into a
single user operation of three records, so `StartUndo()` returns 3 — not 1
as the claim states. -/
theorem coalescedTyping_startUndo_ne_one :
    (typedABC.cb.uh.startUndo).1 = 3 ∧ (typedABC.cb.uh.startUndo).1 ≠ 1 := by
  refine ⟨rfl, ?_⟩
  intro hcontra
  have h3 : (typedABC.cb.uh.startUndo).1 = 3 := rfl
  omega

/-- C2, amended.  Typing 'a','b','c' as three separate single-character
`InsertString` calls at consecutive positions with `mayCoalesce = true` and
no explicit undo group open coalesces them into one user operation:
`CanUndo()` holds, `StartUndo()` returns 3 (one record per typed character
inside the single coalesced operation), and one `Document::Undo` call
performs those steps and removes all three characters, leaving nothing
further to undo. -/
theorem coalescedTyping_one_user_operation :
    typedABC.cb.canUndo = true ∧
      (typedABC.cb.uh.startUndo).1 = 3 ∧
      (Document.undo typedABC).cb.substance = [] ∧
      (Document.undo typedABC).cb.canUndo = false :=
  ⟨rfl, rfl, rfl, rfl⟩

/-- C3, amended.  Appending an action while `currentAction < savePoint` sets
the save point to −1, and `IsSavePoint()` then returns `false` in every
state reachable through the `UndoHistory` operations other than
`SetSavePoint` and `DeleteUndoHistory` (the two operations that
re-establish a save point). -/
theorem append_past_savePoint_invalidates (h : UndoHistory) (att : ActionType)
    (position : Nat) (data : List Nat) (mc : Bool)
    (hlt : (h.currentAction : Int) < h.savePoint) :
    (h.appendAction att position data mc).1.savePoint = -1 ∧
      ∀ ops : List UndoHistory.HistOp,
        (ops.foldl UndoHistory.applyHistOp
            (h.appendAction att position data mc).1).isSavePoint = false := by
  have hsp : (h.appendAction att position data mc).1.savePoint = -1 := by
    rw [UndoHistory.appendAction_fst_savePoint]
    unfold UndoHistory.appendPre
    rw [if_pos hlt]
  exact ⟨hsp, fun ops =>
    UndoHistory.isSavePoint_of_neg _ (UndoHistory.foldl_applyHistOp_savePoint_neg ops _ hsp)⟩

/-- Witness for the C3 theorem at the concrete state `histPastSave`. -/
theorem append_past_savePoint_invalidates_witness :
    ((histPastSave.currentAction : Int) < histPastSave.savePoint) ∧
      (histPastSave.appendAction ActionType.insert 2 [99] true).1.savePoint = -1 :=
  ⟨by decide,
   (append_past_savePoint_invalidates histPastSave ActionType.insert 2 [99] true
      (by decide)).1⟩

/-- C3, counterexample.  As stated the claim fails: from `histPastSave`
(whose cursor is strictly before its save point) an append invalidates the
save point, but the subsequently reachable state obtained by
`DeleteUndoHistory` — with no intervening `SetSavePoint` — satisfies
`IsSavePoint()` again. -/
theorem savePoint_restored_without_setSavePoint :
    ((histPastSave.currentAction : Int) < histPastSave.savePoint) ∧
      (histPastSave.appendAction ActionType.insert 2 [99] true).1.savePoint = -1 ∧
      (histPastSave.appendAction
          ActionType.insert 2 [99] true).1.deleteUndoHistory.isSavePoint = true := by
  exact ⟨by decide, rfl, rfl⟩

/-- C9, amended.  At the top level (no `BeginUndoAction` group open), an
action appended while `currentAction` equals the save point or the
tentative point is never coalesced into the preceding record:
`startSequence` is reported and the boundary start record at that index is
left untouched, so the save point and tentative point stay on a boundary
between user operations. -/
theorem append_at_boundary_not_coalesced (h : UndoHistory) (att : ActionType)
    (position : Nat) (data : List Nat) (mc : Bool)
    (hdepth : h.undoSequenceDepth = 0)
    (hpt : (h.currentAction : Int) = h.savePoint ∨
      (h.currentAction : Int) = h.tentativePoint) :
    (h.appendAction att position data mc).2 = true ∧
      (h.appendAction att position data mc).1.actions h.currentAction =
        h.actions h.currentAction := by
  have hca : h.appendPre.currentAction = h.currentAction := UndoHistory.appendPre_currentAction h
  have hdep : h.appendPre.undoSequenceDepth = 0 := by
    rw [UndoHistory.appendPre_depth]; exact hdepth
  have hnew : h.appendPre.appendNewCA att position data.length mc = h.currentAction + 1 := by
    rw [UndoHistory.appendNewCA_boundary _ _ _ _ _ hdep (UndoHistory.appendPre_boundary h hpt),
      hca]
  constructor
  · rw [UndoHistory.appendAction_snd, hnew, hca]
    simp
  · rw [UndoHistory.appendAction_fst_actions, hnew,
      UndoHistory.writeSlot_other _ _ _ _ (by omega),
      UndoHistory.writeSlot_other _ _ _ _ (by omega),
      UndoHistory.appendPre_actions]

/-- Witness for the C9 theorem at the fresh history. -/
theorem append_at_boundary_not_coalesced_witness :
    UndoHistory.initial.undoSequenceDepth = 0 ∧
      ((UndoHistory.initial.currentAction : Int) = UndoHistory.initial.savePoint ∨
        (UndoHistory.initial.currentAction : Int) = UndoHistory.initial.tentativePoint) ∧
      (UndoHistory.initial.appendAction ActionType.insert 0 [97] true).2 = true :=
  ⟨by decide, Or.inl (by decide),
   (append_at_boundary_not_coalesced UndoHistory.initial ActionType.insert 0 [97] true
      (by decide) (Or.inl (by decide))).1⟩

/-! ## Claim theorems: read-only rejection (C4), search (C5, C10) and
character decoding (C8) -/

namespace Document

theorem notify_cb (d : Document) (n : Notification) : (d.notify n).cb = d.cb := rfl

theorem checkReadOnly_ro (d : Document) (hro : d.cb.readOnly = true)
    (hcnt : d.enteredReadOnlyCount = 0) :
    d.checkReadOnly = d.notify Notification.modifyAttempt := by
  unfold checkReadOnly
  rw [if_pos (by exact ⟨by rw [hro], hcnt⟩)]

theorem insertString_readOnly (d : Document) (pos : Int) (s : List Nat)
    (hro : d.cb.readOnly = true) (hcnt : d.enteredReadOnlyCount = 0)
    (hs : ¬ s.length = 0) :
    d.insertString pos s = (d.notify Notification.modifyAttempt, 0) := by
  unfold insertString
  rw [if_neg hs, checkReadOnly_ro d hro hcnt]
  rw [if_pos (by rw [notify_cb, hro])]

theorem deleteChars_readOnly_valid (d : Document) (pos len : Int)
    (hro : d.cb.readOnly = true) (hcnt : d.enteredReadOnlyCount = 0)
    (h1 : ¬ pos < 0) (h2 : ¬ len ≤ 0) (h3 : ¬ d.length < pos + len) :
    d.deleteChars pos len = (d.notify Notification.modifyAttempt, false) := by
  unfold deleteChars
  rw [if_neg h1, if_neg h2, if_neg h3, checkReadOnly_ro d hro hcnt]
  by_cases hm : (d.notify Notification.modifyAttempt).enteredModification ≠ 0
  · rw [if_pos hm]
  · rw [if_neg hm, if_neg (by rw [notify_cb, hro]; exact fun hcontra => hcontra rfl)]

theorem checkReadOnly_cb (d : Document) : d.checkReadOnly.cb = d.cb := by
  unfold checkReadOnly
  split_ifs <;> rfl

theorem deleteChars_unchanged (d : Document) (pos len : Int)
    (hro : d.cb.readOnly = true) :
    (d.deleteChars pos len).1.cb.substance = d.cb.substance ∧
      (d.deleteChars pos len).2 = false := by
  unfold deleteChars
  by_cases h1 : pos < 0
  · rw [if_pos h1]
    exact ⟨rfl, rfl⟩
  rw [if_neg h1]
  by_cases h2 : len ≤ 0
  · rw [if_pos h2]
    exact ⟨rfl, rfl⟩
  rw [if_neg h2]
  by_cases h3 : d.length < pos + len
  · rw [if_pos h3]
    exact ⟨rfl, rfl⟩
  rw [if_neg h3]
  dsimp only
  by_cases hm : d.checkReadOnly.enteredModification ≠ 0
  · rw [if_pos hm]
    exact ⟨by rw [checkReadOnly_cb], rfl⟩
  · rw [if_neg hm, if_neg (by rw [checkReadOnly_cb, hro]; exact fun hc => hc rfl)]
    exact ⟨by rw [checkReadOnly_cb], rfl⟩

end Document

/-- C4, amended.  For a document whose cell buffer is read-only (and which
is not inside a re-entrant `CheckReadOnly`), any `InsertString` call with a
positive length and any `DeleteChars` call with a valid range is rejected
with exactly one `MODIFYATTEMPT` notification emitted: the state is the old
one with the notification appended, the buffer content unchanged, and the
return value 0 (insert) or `false` (delete).  Calls that fail the argument
validation (`insertLength ≤ 0`; an invalid delete range) are rejected
without any notification; in every case `DeleteChars` leaves the content
unchanged and returns `false`. -/
theorem readOnly_mutation_rejected (d : Document) (pos len : Int) (s : List Nat)
    (hro : d.cb.readOnly = true) (hcnt : d.enteredReadOnlyCount = 0) :
    (0 < s.length → d.insertString pos s = (d.notify Notification.modifyAttempt, 0)) ∧
      (s.length = 0 → d.insertString pos s = (d, 0)) ∧
      ((0 ≤ pos ∧ 0 < len ∧ pos + len ≤ d.length) →
        d.deleteChars pos len = (d.notify Notification.modifyAttempt, false)) ∧
      ((d.deleteChars pos len).1.cb.substance = d.cb.substance ∧
        (d.deleteChars pos len).2 = false) := by
  refine ⟨fun hs => ?_, fun hs => ?_, fun hv => ?_, Document.deleteChars_unchanged d pos len hro⟩
  · exact Document.insertString_readOnly d pos s hro hcnt (by omega)
  · unfold Document.insertString
    rw [if_pos hs]
  · exact Document.deleteChars_readOnly_valid d pos len hro hcnt (by omega) (by omega) (by omega)

/-- Witness for the C4 theorem at the concrete read-only document. -/
theorem readOnly_mutation_rejected_witness :
    (roDoc.cb.readOnly = true ∧ roDoc.enteredReadOnlyCount = 0) ∧
      roDoc.insertString 0 [97] = (roDoc.notify Notification.modifyAttempt, 0) ∧
      roDoc.deleteChars 0 1 = (roDoc.notify Notification.modifyAttempt, false) :=
  ⟨⟨rfl, rfl⟩,
   (readOnly_mutation_rejected roDoc 0 1 [97] rfl rfl).1 (by decide),
   (readOnly_mutation_rejected roDoc 0 1 [97] rfl rfl).2.2.1 (by decide)⟩

/-- C4, counterexample.  A zero-length `InsertString` (and a zero-length
`DeleteChars`) on a read-only document is rejected by the argument checks
before `CheckReadOnly` runs, so contrary to the claim no `MODIFYATTEMPT`
notification is emitted for such calls: the state is returned entirely
unchanged, with an empty notification log. -/
theorem readOnly_zero_length_no_modifyAttempt :
    roDoc.cb.readOnly = true ∧
      roDoc.insertString 0 [] = (roDoc, 0) ∧
      roDoc.deleteChars 0 0 = (roDoc, false) ∧
      roDoc.log = [] :=
  ⟨rfl, rfl, rfl, rfl⟩

/-- C5.  In the UTF-8 document "ab\xCE\x93d", case-sensitive `FindText`
finds "b" at 1 both forwards (0→5) and backwards (5→0); "\xCE\x93" is
found at 2 in the range 0→4; and the range 0→2 excludes the two-byte
character, so the search returns −1. -/
theorem utf8_search_character_not_byte :
    (utf8GammaDoc.findText 0 5 [98] SCFIND_MATCHCASE 1).1 = 1 ∧
      (utf8GammaDoc.findText 5 0 [98] SCFIND_MATCHCASE 1).1 = 1 ∧
      (utf8GammaDoc.findText 0 4 [0xCE, 0x93] SCFIND_MATCHCASE 2).1 = 2 ∧
      (utf8GammaDoc.findText 0 2 [0xCE, 0x93] SCFIND_MATCHCASE 2).1 = -1 :=
  ⟨rfl, rfl, rfl, rfl⟩

/-- C8.  In a UTF-8 document, `GetCharacterAndWidth` reports
`0xDC80 + leadByte` with width 1 whenever the byte sequence led by a
non-ASCII lead byte is classified invalid by `UTF8Classify`; a valid
sequence yields the decoded code point with the sequence's byte width (an
ASCII lead byte is itself a valid one-byte sequence). -/
theorem utf8_invalid_reported_as_surrogate (d : Document) (pos : Int)
    (hcp : d.dbcsCodePage = SC_CP_UTF8) :
    (¬ UTF8IsAscii (d.charAt pos) →
      UTF8Classify (d.readBytes pos (UTF8BytesOfLead (d.charAt pos))) = none →
      d.getCharacterAndWidth pos = (0xDC80 + d.charAt pos, 1)) ∧
    (∀ w : Nat, ¬ UTF8IsAscii (d.charAt pos) →
      UTF8Classify (d.readBytes pos (UTF8BytesOfLead (d.charAt pos))) = some w →
      d.getCharacterAndWidth pos =
        (UnicodeFromUTF8 (d.readBytes pos (UTF8BytesOfLead (d.charAt pos))), (w : Int))) ∧
    (UTF8IsAscii (d.charAt pos) → d.getCharacterAndWidth pos = (d.charAt pos, 1)) := by
  have hne : d.dbcsCodePage ≠ 0 := by rw [hcp]; exact fun hc => by simp [SC_CP_UTF8] at hc
  refine ⟨fun hna hcl => ?_, fun w hna hcl => ?_, fun ha => ?_⟩ <;>
    unfold Document.getCharacterAndWidth <;> rw [if_pos hne, if_pos hcp]
  · rw [if_neg (by simpa using hna)]
    dsimp only
    rw [hcl]
  · rw [if_neg (by simpa using hna)]
    dsimp only
    rw [hcl]
  · rw [if_pos ha]

/-- Witness for the C8 theorem: the stray trail byte 0x80 is invalid and
reported as 0xDC80 + 0x80 = 0xDD00 with width 1; the valid two-byte
sequence CE 93 in the gamma document decodes to U+0393 with width 2. -/
theorem utf8_invalid_reported_as_surrogate_witness :
    utf8BadDoc.getCharacterAndWidth 0 = (0xDD00, 1) ∧
      utf8GammaDoc.getCharacterAndWidth 2 = (0x393, 2) :=
  ⟨(utf8_invalid_reported_as_surrogate utf8BadDoc 0 rfl).1 (by decide) (by decide),
   (utf8_invalid_reported_as_surrogate utf8GammaDoc 2 rfl).2.1 2 (by decide) (by decide)⟩

/-- C10.  For every document, search text and flag combination (including
the regex flags), a `FindText` call whose `*length` argument is ≤ 0
returns `minPos` immediately and leaves `*length` unchanged; no search is
performed (the result does not depend on the buffer, the flags or the
range). -/
theorem findText_nonpositive_length (d : Document) (minPos maxPos : Int)
    (search : List Nat) (flags : Nat) (length : Int) (hlen : length ≤ 0) :
    d.findText minPos maxPos search flags length = (minPos, length) := by
  unfold Document.findText
  rw [if_pos hlen]

/-- Witness for the C10 theorem on a concrete document. -/
theorem findText_nonpositive_length_witness :
    utf8GammaDoc.findText 3 1 [99] SCFIND_REGEXP 0 = (3, 0) :=
  findText_nonpositive_length utf8GammaDoc 3 1 [99] SCFIND_REGEXP 0 (by omega)

/-! ## Claim theorems: SplitVector growth policy (C7) -/

namespace SplitVector

theorem gapTo_size (v : SplitVector) (p : Nat) : (v.gapTo p).size = v.size := by
  unfold gapTo
  split_ifs <;> rfl

theorem reAllocate_size (v : SplitVector) (ns : Nat) :
    (v.reAllocate ns).size = if v.size < ns then ns else v.size := by
  unfold reAllocate
  split_ifs <;> rfl

theorem roomFor_size (v : SplitVector) (n : Nat) (hn : 0 < n) :
    (v.roomFor n).size =
      if v.gapLength ≤ n then v.size + n + growWhile v.growSize v.size else v.size := by
  unfold roomFor
  split_ifs with hg
  · rw [reAllocate_size]
    exact if_pos (by show v.size < v.size + n + growWhile v.growSize v.size; omega)
  · rfl

theorem insertValue_size (v : SplitVector) (position n : Nat) (x : Int) (hn : 0 < n)
    (hpos : position ≤ v.lengthBody) :
    (v.insertValue position n x).size = (v.roomFor n).size := by
  unfold insertValue
  rw [if_pos hn, if_pos hpos]
  exact gapTo_size _ _

theorem insertFromArray_size (v : SplitVector) (position : Nat) (s : List Int)
    (from_ n : Nat) (hn : 0 < n) (hpos : position ≤ v.lengthBody) :
    (v.insertFromArray position s from_ n).size = (v.roomFor n).size := by
  unfold insertFromArray
  rw [if_pos hn, if_pos hpos]
  exact gapTo_size _ _

theorem insertOne_size (v : SplitVector) (position : Nat) (x : Int)
    (hpos : position ≤ v.lengthBody) :
    (v.insertOne position x).size = (v.roomFor 1).size := by
  unfold insertOne
  rw [if_pos hpos]
  exact gapTo_size _ _

theorem deleteRange_size (v : SplitVector) (pos len : Nat) :
    (v.deleteRange pos len).size =
      if pos + len ≤ v.lengthBody ∧ pos = 0 ∧ len = v.lengthBody then 0 else v.size := by
  unfold deleteRange
  by_cases h1 : pos + len ≤ v.lengthBody
  · rw [if_pos h1]
    by_cases h2 : pos = 0 ∧ len = v.lengthBody
    · rw [if_pos h2, if_pos ⟨h1, h2.1, h2.2⟩]
      rfl
    · have hr : ¬ (pos + len ≤ v.lengthBody ∧ pos = 0 ∧ len = v.lengthBody) := by tauto
      rw [if_neg h2, if_neg hr]
      by_cases h3 : 0 < len
      · rw [if_pos h3]
        exact gapTo_size _ _
      · rw [if_neg h3]
  · have hr : ¬ (pos + len ≤ v.lengthBody ∧ pos = 0 ∧ len = v.lengthBody) := by tauto
    rw [if_neg h1, if_neg hr]

end SplitVector

/-- C7, counterexample.  The growth test in `SplitVector::RoomFor` is
`gapLength <= insertionLength`, not a strict comparison: after a single
element is inserted into a fresh vector the gap holds exactly 8 free cells
(capacity 9), and inserting 8 more elements — a required count that does
NOT exceed the gap length — still reallocates, to capacity
9 + 8 + 8 = 25. -/
theorem splitVector_grows_at_equal_need :
    ((SplitVector.initial.insertOne 0 7).gapLength = 8) ∧
      ((SplitVector.initial.insertOne 0 7).size = 9) ∧
      (((SplitVector.initial.insertOne 0 7).insertValue 1 8 3).size = 25) := by
  refine ⟨rfl, rfl, rfl⟩

/-- C7, amended.  For every SplitVector, an in-range insertion of `n > 0`
elements grows the allocation exactly when the required element count is at
least (not: exceeds) the current gap length; the new capacity is the old
capacity plus the insertion length plus `growSize` after `growSize` has
been doubled while it was less than capacity/6; no deletion changes the
capacity except deleting the entire content (`DeleteAll`), which releases
the storage. -/
theorem splitVector_capacity (v : SplitVector) (position n : Nat) (x : Int) (s : List Int)
    (from_ : Nat) (hn : 0 < n) (hpos : position ≤ v.lengthBody) :
    ((v.insertValue position n x).size =
      if v.gapLength ≤ n then v.size + n + SplitVector.growWhile v.growSize v.size
      else v.size) ∧
    ((v.insertFromArray position s from_ n).size =
      if v.gapLength ≤ n then v.size + n + SplitVector.growWhile v.growSize v.size
      else v.size) ∧
    ((v.insertOne position x).size =
      if v.gapLength ≤ 1 then v.size + 1 + SplitVector.growWhile v.growSize v.size
      else v.size) ∧
    (∀ pos len : Nat, (v.deleteRange pos len).size =
      if pos + len ≤ v.lengthBody ∧ pos = 0 ∧ len = v.lengthBody then 0 else v.size) ∧
    (v.deleteAll.size = 0 ∧ v.deleteAll.body = []) := by
  refine ⟨?_, ?_, ?_, fun pos len => SplitVector.deleteRange_size v pos len, ?_, ?_⟩
  · rw [SplitVector.insertValue_size v position n x hn hpos, SplitVector.roomFor_size v n hn]
  · rw [SplitVector.insertFromArray_size v position s from_ n hn hpos,
      SplitVector.roomFor_size v n hn]
  · rw [SplitVector.insertOne_size v position x hpos, SplitVector.roomFor_size v 1 (by omega)]
  · show (v.deleteRange 0 v.lengthBody).size = 0
    rw [SplitVector.deleteRange_size]
    exact if_pos (by omega)
  · show (v.deleteRange 0 v.lengthBody).body = []
    unfold SplitVector.deleteRange
    rw [if_pos (by omega), if_pos (by exact ⟨rfl, rfl⟩)]
    rfl

/-- Witness for the C7 theorem at the fresh vector. -/
theorem splitVector_capacity_witness :
    (0 < 1 ∧ 0 ≤ SplitVector.initial.lengthBody) ∧
      ((SplitVector.initial.insertValue 0 1 5).size =
        if SplitVector.initial.gapLength ≤ 1 then
          SplitVector.initial.size + 1 +
            SplitVector.growWhile SplitVector.initial.growSize SplitVector.initial.size
        else SplitVector.initial.size) :=
  ⟨⟨by omega, by omega⟩,
   (splitVector_capacity SplitVector.initial 0 1 5 [] 0 (by omega) (by omega)).1⟩

/-- C9, counterexample.  Inside an open `BeginUndoAction` group the
save-point guard is not consulted: from `histGroupSave`, where
`currentAction` equals the save point, the next append coalesces
(`startSequence = false`) and overwrites the start record at the save
point with an insert record, so the save point no longer lies on an
operation boundary. -/
theorem append_at_savePoint_coalesced_in_group :
    ((histGroupSave.currentAction : Int) = histGroupSave.savePoint) ∧
      (histGroupSave.actions histGroupSave.currentAction).act = ActionType.start ∧
      (histGroupSave.appendAction ActionType.insert 2 [99] true).2 = false ∧
      ((histGroupSave.appendAction ActionType.insert 2 [99] true).1.actions
          histGroupSave.currentAction).act = ActionType.insert := by
  exact ⟨by decide, rfl, rfl, rfl⟩

/-! ## Claim C6: the RunStyles invariants

The proof works pointwise on the start and style vectors: each list
surgery (`insert`, `eraseIdx`, `set`, `shiftAfter`) gets a `getD`
characterisation, `PartitionFromPosition`/`RunFromPosition` get exact
descriptions on invariant-respecting start vectors, and each mutator is
executed symbolically. -/

theorem listGetD_append (l₁ l₂ : List Int) (i : Nat) :
    (l₁ ++ l₂).getD i 0 = if i < l₁.length then l₁.getD i 0 else l₂.getD (i - l₁.length) 0 := by
  induction l₁ generalizing i with
  | nil => simp
  | cons x xs ih =>
    cases i with
    | zero => simp
    | succ i => simpa [Nat.succ_lt_succ_iff] using ih i

theorem listGetD_take (l : List Int) (k i : Nat) :
    (l.take k).getD i 0 = if i < k then l.getD i 0 else 0 := by
  induction l generalizing k i with
  | nil => simp
  | cons x xs ih =>
    cases k with
    | zero => simp
    | succ k =>
      cases i with
      | zero => simp
      | succ i => simpa [Nat.succ_lt_succ_iff] using ih k i

theorem listGetD_drop (l : List Int) (k i : Nat) :
    (l.drop k).getD i 0 = l.getD (k + i) 0 := by
  induction l generalizing k with
  | nil => simp
  | cons x xs ih =>
    cases k with
    | zero => simp
    | succ k => simp [Nat.succ_add, ih k]

theorem listGetD_eraseIdx (l : List Int) (p i : Nat) :
    (l.eraseIdx p).getD i 0 = if i < p then l.getD i 0 else l.getD (i + 1) 0 := by
  induction l generalizing p i with
  | nil => simp
  | cons x xs ih =>
    cases p with
    | zero => simp
    | succ p =>
      cases i with
      | zero => simp
      | succ i => simpa [Nat.succ_lt_succ_iff] using ih p i

theorem listGetD_set (l : List Int) (p i : Nat) (x : Int) :
    (l.set p x).getD i 0 = if i = p ∧ p < l.length then x else l.getD i 0 := by
  induction l generalizing p i with
  | nil => simp
  | cons y xs ih =>
    cases p with
    | zero =>
      cases i with
      | zero => simp
      | succ i => simp
    | succ p =>
      cases i with
      | zero => simp
      | succ i => simpa [Nat.succ_lt_succ_iff] using ih p i

theorem shiftAfter_length (i : Nat) (delta : Int) (l : List Int) (base : Nat) :
    (shiftAfter i delta l base).length = l.length := by
  induction l generalizing base with
  | nil => rfl
  | cons x xs ih => simpa [shiftAfter] using ih (base + 1)

theorem shiftAfter_getD (i : Nat) (delta : Int) (l : List Int) (base j : Nat) :
    (shiftAfter i delta l base).getD j 0 =
      if i < base + j ∧ j < l.length then l.getD j 0 + delta else l.getD j 0 := by
  induction l generalizing base j with
  | nil => simp [shiftAfter]
  | cons x xs ih =>
    cases j with
    | zero =>
      simp only [shiftAfter, List.getD_cons_zero, List.length_cons, Nat.add_zero]
      split_ifs with h1 h2 h2 <;> omega
    | succ j =>
      have := ih (base + 1) j
      simp only [shiftAfter, List.getD_cons_succ, List.length_cons]
      rw [this]
      have harith : (i < base + 1 + j ∧ j < xs.length) ↔
          (i < base + (j + 1) ∧ j + 1 < xs.length + 1) := by omega
      by_cases h : i < base + 1 + j ∧ j < xs.length
      · rw [if_pos h, if_pos (harith.mp h)]
      · rw [if_neg h, if_neg (fun hc => h (harith.mpr hc))]

theorem getD_zone (y mid : List Int) (a c i : Nat) (ha : a ≤ y.length) :
    (y.take a ++ mid ++ y.drop c).getD i 0 =
      if i < a then y.getD i 0
      else if i < a + mid.length then mid.getD (i - a) 0
      else y.getD (c + (i - a - mid.length)) 0 := by
  rw [List.append_assoc, listGetD_append, listGetD_take, List.length_take]
  have hta : min a y.length = a := by omega
  rw [hta]
  by_cases h1 : i < a
  · rw [if_pos h1, if_pos h1, if_pos h1]
  · rw [if_neg h1, if_neg h1, listGetD_append]
    by_cases h2 : i - a < mid.length
    · rw [if_pos h2, if_pos (by omega)]
    · rw [if_neg h2, if_neg (by omega), listGetD_drop]

theorem listGetD_oob (l : List Int) (i : Nat) (h : l.length ≤ i) : l.getD i 0 = 0 := by
  induction l generalizing i with
  | nil => simp
  | cons x xs ih =>
    cases i with
    | zero => simp at h
    | succ i => simpa using ih i (by simpa using h)

namespace RunStyles

theorem sInv_of_inv (rs : RunStyles) (h : rs.Inv) : rs.SInv :=
  ⟨h.1, h.2.2.1, h.2.2.2.1, h.2.2.2.2.1, h.2.2.2.2.2.2.2⟩

theorem mono_le (rs : RunStyles) (hs : rs.SInv) (i j : Nat) (hij : i ≤ j)
    (hj : j < rs.entries) : rs.sAt i ≤ rs.sAt j := by
  induction j with
  | zero =>
    have hi0 : i = 0 := by omega
    rw [hi0]
  | succ j ih =>
    rcases Nat.lt_or_ge i (j + 1) with h | h
    · exact le_trans (ih (by omega) (by omega)) (hs.2.2.1 j (by omega) hj)
    · have hi : i = j + 1 := by omega
      rw [hi]

theorem strict_lt (rs : RunStyles) (hs : rs.SInv) (i j : Nat) (hij : i + 2 ≤ j)
    (hj : j < rs.entries) : rs.sAt i < rs.sAt j :=
  lt_of_lt_of_le (hs.2.2.2.1 i (by omega) (by omega)) (mono_le rs hs (i + 2) j hij hj)

theorem sAt_nonneg (rs : RunStyles) (hs : rs.SInv) (i : Nat) : 0 ≤ rs.sAt i := by
  by_cases h : i < rs.entries
  · have := mono_le rs hs 0 i (Nat.zero_le i) h
    rw [hs.2.1] at this
    exact this
  · have : rs.sAt i = 0 := listGetD_oob rs.starts.body i (by
      have he : rs.entries = rs.starts.body.length := rfl
      omega)
    omega

theorem length_eq_sAt (rs : RunStyles) : rs.Length = rs.sAt (rs.entries - 1) := rfl

theorem sAt_le_length (rs : RunStyles) (hs : rs.SInv) (i : Nat) (hi : i < rs.entries) :
    rs.sAt i ≤ rs.Length := by
  rw [length_eq_sAt]
  exact mono_le rs hs i (rs.entries - 1) (by omega) (by omega)

theorem largestEntryLE_none (p : Int) (l : List Int) :
    ∀ (base best : Nat), (∀ j, j < l.length → ¬ l.getD j 0 ≤ p) →
    largestEntryLE p l base best = best := by
  induction l with
  | nil => intro base best _; rfl
  | cons x xs ih =>
    intro base best h
    have hx : ¬ x ≤ p := by simpa using h 0 (by simp)
    simp only [largestEntryLE]
    rw [if_neg hx]

theorem largestEntryLE_spec (p : Int) (l : List Int) :
    ∀ (base best k : Nat), k < l.length →
    (∀ j, j ≤ k → l.getD j 0 ≤ p) →
    (∀ j, j < l.length → k < j → ¬ l.getD j 0 ≤ p) →
    largestEntryLE p l base best = base + k := by
  induction l with
  | nil => intro base best k hk; simp at hk
  | cons x xs ih =>
    intro base best k hk hle hgt
    have hx : x ≤ p := by simpa using hle 0 (Nat.zero_le k)
    simp only [largestEntryLE]
    rw [if_pos hx]
    cases k with
    | zero =>
      exact largestEntryLE_none p xs (base + 1) base (fun j hj =>
        by simpa using hgt (j + 1) (by simpa using hj) (Nat.succ_pos j))
    | succ k =>
      rw [ih (base + 1) base k (by simpa [Nat.succ_lt_succ_iff] using hk)
        (fun j hj => by simpa using hle (j + 1) (Nat.succ_le_succ hj))
        (fun j hj hkj => by
          simpa using hgt (j + 1) (by simpa [Nat.succ_lt_succ_iff] using hj)
            (Nat.succ_lt_succ hkj))]
      omega

theorem pfp_eq (rs : RunStyles) (hs : rs.SInv) (p : Int) (r : Nat)
    (h1 : rs.sAt r ≤ p) (h2 : p < rs.sAt (r + 1)) (hr : r + 1 < rs.entries) :
    rs.starts.partitionFromPosition p = r := by
  have he : rs.entries = rs.starts.body.length := rfl
  have hm : 2 ≤ rs.entries := hs.1
  unfold Partitioning.partitionFromPosition
  rw [if_neg (by omega : ¬ rs.starts.body.length ≤ 1)]
  have hlastp : p < rs.sAt (rs.entries - 1) :=
    lt_of_lt_of_le h2 (mono_le rs hs (r + 1) (rs.entries - 1) (by omega) (by omega))
  have hlast : ¬ rs.starts.body.getD (rs.starts.body.length - 1) 0 ≤ p := by
    have heq : rs.sAt (rs.entries - 1) = rs.starts.body.getD (rs.starts.body.length - 1) 0 := by
      rw [he]; rfl
    omega
  rw [if_neg hlast]
  have hspec := largestEntryLE_spec p rs.starts.body 0 0 r (by omega)
    (fun j hj => le_trans (mono_le rs hs j r hj (by omega)) h1)
    (fun j hj hrj => by
      have hmono : rs.sAt (r + 1) ≤ rs.sAt j := mono_le rs hs (r + 1) j hrj (by omega)
      have hj0 : rs.starts.body.getD j 0 = rs.sAt j := rfl
      omega)
  omega

theorem pfp_last (rs : RunStyles) (hs : rs.SInv) (p : Int) (hp : rs.Length ≤ p) :
    rs.starts.partitionFromPosition p = rs.entries - 2 := by
  have he : rs.entries = rs.starts.body.length := rfl
  have hm : 2 ≤ rs.entries := hs.1
  unfold Partitioning.partitionFromPosition
  rw [if_neg (by omega : ¬ rs.starts.body.length ≤ 1)]
  have hlast : rs.starts.body.getD (rs.starts.body.length - 1) 0 ≤ p := by
    have heq : rs.sAt (rs.entries - 1) = rs.starts.body.getD (rs.starts.body.length - 1) 0 := by
      rw [he]; rfl
    have hL : rs.Length = rs.sAt (rs.entries - 1) := length_eq_sAt rs
    omega
  rw [if_pos hlast]
  omega

theorem runWalkBack_stop (rs : RunStyles) (p : Int) (r : Nat)
    (h : r = 0 ∨ p ≠ rs.sAt (r - 1)) : rs.runWalkBack p r = r := by
  cases r with
  | zero => rfl
  | succ r' =>
    have hne : p ≠ rs.sAt r' := by
      rcases h with h | h
      · omega
      · simpa using h
    have hne' : ¬ p = rs.starts.positionFromPartition r' := hne
    simp only [runWalkBack]
    rw [if_neg hne']

theorem rfp_eq (rs : RunStyles) (hs : rs.SInv) (p : Int) (r : Nat)
    (h1 : rs.sAt r ≤ p) (h2 : p < rs.sAt (r + 1)) (hr : r + 1 < rs.entries) :
    rs.RunFromPosition p = r := by
  unfold RunFromPosition
  rw [pfp_eq rs hs p r h1 h2 hr]
  apply runWalkBack_stop
  cases r with
  | zero => exact Or.inl rfl
  | succ r' =>
    refine Or.inr fun heq => ?_
    have hle : rs.sAt r' ≤ rs.sAt (r' + 1) := mono_le rs hs r' (r' + 1) (by omega) (by omega)
    have heq2 : rs.sAt r' = rs.sAt (r' + 1) := by
      simp only [Nat.add_sub_cancel] at heq
      omega
    have := hs.2.2.2.2 r' (by omega) (by omega) heq2
    omega

theorem rfp_last (rs : RunStyles) (hs : rs.SInv) (p : Int) (hp : rs.Length ≤ p) :
    rs.RunFromPosition p = rs.entries - 2 := by
  unfold RunFromPosition
  rw [pfp_last rs hs p hp]
  apply runWalkBack_stop
  by_cases h : rs.entries - 2 = 0
  · exact Or.inl h
  · refine Or.inr fun heq => ?_
    have hstr : rs.sAt (rs.entries - 2 - 1) < rs.sAt (rs.entries - 1) :=
      strict_lt rs hs (rs.entries - 2 - 1) (rs.entries - 1) (by omega) (by omega)
    have hL : rs.Length = rs.sAt (rs.entries - 1) := length_eq_sAt rs
    omega

theorem exists_run (rs : RunStyles) (hs : rs.SInv) (p : Int) (h0 : 0 ≤ p)
    (hpT : p < rs.Length) :
    ∃ r, rs.sAt r ≤ p ∧ p < rs.sAt (r + 1) ∧ r + 1 < rs.entries := by
  have hm : 2 ≤ rs.entries := hs.1
  have hL : rs.Length = rs.sAt (rs.entries - 1) := length_eq_sAt rs
  refine ⟨Nat.findGreatest (fun j => rs.sAt j ≤ p) (rs.entries - 2), ?_, ?_, ?_⟩
  · exact Nat.findGreatest_spec (P := fun j => rs.sAt j ≤ p) (Nat.zero_le _)
      (by show rs.sAt 0 ≤ p; rw [hs.2.1]; exact h0)
  · rcases Nat.lt_or_ge (Nat.findGreatest (fun j => rs.sAt j ≤ p) (rs.entries - 2))
      (rs.entries - 2) with h | h
    · have := Nat.findGreatest_is_greatest (P := fun j => rs.sAt j ≤ p)
        (n := rs.entries - 2)
        (k := Nat.findGreatest (fun j => rs.sAt j ≤ p) (rs.entries - 2) + 1)
        (by omega) (by omega)
      simp only [not_le] at this
      exact this
    · have hle := Nat.findGreatest_le (P := fun j => rs.sAt j ≤ p) (n := rs.entries - 2)
      have heq : Nat.findGreatest (fun j => rs.sAt j ≤ p) (rs.entries - 2) =
          rs.entries - 2 := by omega
      rw [heq]
      have heq2 : rs.entries - 2 + 1 = rs.entries - 1 := by omega
      rw [heq2]
      omega
  · have hle := Nat.findGreatest_le (P := fun j => rs.sAt j ≤ p) (n := rs.entries - 2)
    omega

theorem rfp_bounds (rs : RunStyles) (hs : rs.SInv) (p : Int) (h0 : 0 ≤ p)
    (hpT : p < rs.Length) :
    rs.sAt (rs.RunFromPosition p) ≤ p ∧ p < rs.sAt (rs.RunFromPosition p + 1) ∧
      rs.RunFromPosition p + 1 < rs.entries := by
  obtain ⟨r, hr1, hr2, hr3⟩ := exists_run rs hs p h0 hpT
  rw [rfp_eq rs hs p r hr1 hr2 hr3]
  exact ⟨hr1, hr2, hr3⟩

theorem valueAt_run (rs : RunStyles) (hs : rs.SInv) (p : Int) (r : Nat)
    (h1 : rs.sAt r ≤ p) (h2 : p < rs.sAt (r + 1)) (hr : r + 1 < rs.entries) :
    rs.ValueAt p = rs.vAt r := by
  unfold ValueAt
  rw [pfp_eq rs hs p r h1 h2 hr]
  rfl

theorem valueAt_last (rs : RunStyles) (hs : rs.SInv) (p : Int) (hp : rs.Length ≤ p) :
    rs.ValueAt p = rs.vAt (rs.entries - 2) := by
  unfold ValueAt
  rw [pfp_last rs hs p hp]
  rfl

end RunStyles

theorem listInsertAt_length (l : List Int) (r : Nat) (x : Int) (hr : r ≤ l.length) :
    (listInsertAt l r x).length = l.length + 1 := by
  unfold listInsertAt
  rw [if_pos hr]
  simp
  omega

theorem listInsertAt_getD (l : List Int) (r : Nat) (x : Int) (hr : r ≤ l.length) (i : Nat) :
    (listInsertAt l r x).getD i 0 =
      if i < r then l.getD i 0 else if i = r then x else l.getD (i - 1) 0 := by
  unfold listInsertAt
  rw [if_pos hr]
  have hx : l.take r ++ x :: l.drop r = l.take r ++ [x] ++ l.drop r := by simp
  rw [hx, getD_zone l [x] r r i hr]
  by_cases h1 : i < r
  · rw [if_pos h1, if_pos h1]
  · rw [if_neg h1, if_neg h1]
    by_cases h2 : i = r
    · rw [if_pos (by simp; omega), if_pos h2, h2]
      simp
    · rw [if_neg (by simp; omega), if_neg h2]
      simp only [List.length_singleton]
      have : r + (i - r - 1) = i - 1 := by omega
      rw [this]

theorem svIntInsertValue_one (l : List Int) (r : Nat) (x : Int) (hr : r ≤ l.length) :
    svIntInsertValue l r 1 x = listInsertAt l r x := by
  unfold svIntInsertValue listInsertAt
  rw [if_pos Nat.one_pos, if_pos hr, if_pos hr]
  simp

theorem listEraseIdx_eq (l : List Int) (r : Nat) :
    l.eraseIdx r = l.take r ++ l.drop (r + 1) := by
  induction l generalizing r with
  | nil => simp
  | cons x xs ih =>
    cases r with
    | zero => simp
    | succ r => simp [ih r]

namespace RunStyles

theorem splitRun_boundary (rs : RunStyles) (p : Int)
    (h : rs.sAt (rs.RunFromPosition p) = p) :
    rs.SplitRun p = (rs.RunFromPosition p, rs) := by
  have hn : ¬ rs.starts.positionFromPartition (rs.RunFromPosition p) < p := by
    have heq : rs.starts.positionFromPartition (rs.RunFromPosition p) =
        rs.sAt (rs.RunFromPosition p) := rfl
    omega
  dsimp only [SplitRun]
  rw [if_neg hn]

theorem splitRun_split (rs : RunStyles) (p : Int)
    (h : rs.sAt (rs.RunFromPosition p) < p) :
    rs.SplitRun p = (rs.RunFromPosition p + 1,
      ⟨⟨listInsertAt rs.starts.body (rs.RunFromPosition p + 1) p⟩,
        svIntInsertValue rs.styles (rs.RunFromPosition p + 1) 1 (rs.ValueAt p)⟩) := by
  have hp : rs.starts.positionFromPartition (rs.RunFromPosition p) < p := h
  dsimp only [SplitRun]
  rw [if_pos hp]
  rfl

theorem removeRun_starts (rs : RunStyles) (r : Nat) :
    (rs.RemoveRun r).starts.body = rs.starts.body.eraseIdx r := rfl

theorem removeRun_styles (rs : RunStyles) (r : Nat) (h : r + 1 ≤ rs.styles.length) :
    (rs.RemoveRun r).styles = rs.styles.take r ++ rs.styles.drop (r + 1) := by
  show svIntDeleteRange rs.styles r 1 = _
  unfold svIntDeleteRange
  rw [if_pos h, if_pos Nat.one_pos]

theorem removeRuns_eq (rs : RunStyles) (j k : Nat)
    (h1 : j + k ≤ rs.starts.body.length) (h2 : j + k ≤ rs.styles.length) :
    rs.removeRuns j k = ⟨⟨rs.starts.body.take j ++ rs.starts.body.drop (j + k)⟩,
      rs.styles.take j ++ rs.styles.drop (j + k)⟩ := by
  induction k generalizing rs with
  | zero =>
    show rs = _
    cases rs with
    | mk starts styles =>
      cases starts with
      | mk body => simp
  | succ k ih =>
    show (rs.RemoveRun j).removeRuns j k = _
    have hb : (rs.RemoveRun j).starts.body = rs.starts.body.take j ++ rs.starts.body.drop (j + 1) := by
      rw [removeRun_starts, listEraseIdx_eq]
    have hsy : (rs.RemoveRun j).styles = rs.styles.take j ++ rs.styles.drop (j + 1) :=
      removeRun_styles rs j (by omega)
    have hlb : (rs.RemoveRun j).starts.body.length = rs.starts.body.length - 1 := by
      rw [hb]
      simp
      omega
    have hls : (rs.RemoveRun j).styles.length = rs.styles.length - 1 := by
      rw [hsy]
      simp
      omega
    have htj : (rs.starts.body.take j).length = j := by simp; omega
    have htjs : (rs.styles.take j).length = j := by simp; omega
    have e1 : (rs.starts.body.take j ++ rs.starts.body.drop (j + 1)).take j =
        rs.starts.body.take j := by
      rw [List.take_append_of_le_length (by omega), List.take_take]
      congr 1
      omega
    have e2 : (rs.starts.body.take j ++ rs.starts.body.drop (j + 1)).drop (j + k) =
        rs.starts.body.drop (j + (k + 1)) := by
      rw [show j + k = (rs.starts.body.take j).length + k from by omega, List.drop_append,
        List.drop_drop]
      congr 1
      omega
    have e3 : (rs.styles.take j ++ rs.styles.drop (j + 1)).take j = rs.styles.take j := by
      rw [List.take_append_of_le_length (by omega), List.take_take]
      congr 1
      omega
    have e4 : (rs.styles.take j ++ rs.styles.drop (j + 1)).drop (j + k) =
        rs.styles.drop (j + (k + 1)) := by
      rw [show j + k = (rs.styles.take j).length + k from by omega, List.drop_append,
        List.drop_drop]
      congr 1
      omega
    rw [ih (rs.RemoveRun j) (by omega) (by omega), hb, hsy, e1, e2, e3, e4]

theorem insertText_sAt (rs : RunStyles) (i : Nat) (delta : Int) (j : Nat) :
    (RunStyles.mk (rs.starts.insertText i delta) rs.styles).sAt j =
      if i < j ∧ j < rs.entries then rs.sAt j + delta else rs.sAt j := by
  show (shiftAfter i delta rs.starts.body 0).getD j 0 = _
  rw [shiftAfter_getD]
  simp only [Nat.zero_add]
  rfl

theorem insertText_entries (rs : RunStyles) (i : Nat) (delta : Int) :
    (RunStyles.mk (rs.starts.insertText i delta) rs.styles).entries = rs.entries := by
  show (shiftAfter i delta rs.starts.body 0).length = _
  rw [shiftAfter_length]
  rfl

theorem insertText_inv (rs : RunStyles) (h : rs.Inv) (i : Nat) (delta : Int)
    (hd : 0 < delta) : (RunStyles.mk (rs.starts.insertText i delta) rs.styles).Inv := by
  obtain ⟨hm, hlen, h0, mono, strong, hsent, hadj, hdup⟩ := h
  refine ⟨?_, ?_, ?_, ?_, ?_, ?_, ?_, ?_⟩
  · rw [insertText_entries]
    exact hm
  · rw [insertText_entries]
    exact hlen
  · rw [insertText_sAt, if_neg (by omega)]
    exact h0
  · intro j hj hj1
    rw [insertText_entries] at hj hj1
    rw [insertText_sAt, insertText_sAt]
    have := mono j hj hj1
    split_ifs <;> omega
  · intro j hj hj2
    rw [insertText_entries] at hj hj2
    rw [insertText_sAt, insertText_sAt]
    have h1 := mono j hj (by omega)
    have h2 := mono (j + 1) (by omega) (by omega)
    have h3 := strong j hj hj2
    split_ifs <;> omega
  · rw [insertText_entries]
    exact hsent
  · intro j hj h1 hj1
    rw [insertText_entries] at hj hj1
    exact hadj j hj h1 hj1
  · intro j hj hj1 heq
    rw [insertText_entries] at hj hj1 ⊢
    rw [insertText_sAt, insertText_sAt] at heq
    have h1 := mono j hj hj1
    have h2 := hdup j hj hj1
    split_ifs at heq <;> omega

theorem valueAt_zero (rs : RunStyles) (hs : rs.SInv) : rs.ValueAt 0 = rs.vAt 0 := by
  have hm : 2 ≤ rs.entries := hs.1
  by_cases hT : rs.Length ≤ 0
  · have hm2 : rs.entries = 2 := by
      by_contra hne
      have h3 : 3 ≤ rs.entries := by omega
      have hstr : rs.sAt 0 < rs.sAt 2 := hs.2.2.2.1 0 (by omega) (by omega)
      have hmono : rs.sAt 2 ≤ rs.sAt (rs.entries - 1) :=
        mono_le rs hs 2 (rs.entries - 1) (by omega) (by omega)
      have hL : rs.Length = rs.sAt (rs.entries - 1) := length_eq_sAt rs
      have h00 : rs.sAt 0 = 0 := hs.2.1
      omega
    rw [valueAt_last rs hs 0 hT, hm2]
  · have h1pos : (0 : Int) < rs.sAt 1 := by
      by_contra hc
      have hmono : rs.sAt 0 ≤ rs.sAt 1 := mono_le rs hs 0 1 (by omega) (by omega)
      have h00 : rs.sAt 0 = 0 := hs.2.1
      have heq : rs.sAt 0 = rs.sAt 1 := by omega
      have hd2 := hs.2.2.2.2 0 (by omega) (by omega) heq
      have hL : rs.Length = rs.sAt (rs.entries - 1) := length_eq_sAt rs
      have h21 : rs.entries - 1 = 1 := by omega
      rw [h21] at hL
      omega
    exact valueAt_run rs hs 0 0 (by rw [hs.2.1]) h1pos (by omega)

theorem insertSpace_inv (rs : RunStyles) (h : rs.Inv) (position insertLength : Int)
    (hl : 0 < insertLength) : (rs.InsertSpace position insertLength).Inv := by
  have hs := sInv_of_inv rs h
  dsimp only [InsertSpace]
  by_cases hb : rs.starts.positionFromPartition (rs.RunFromPosition position) = position
  · rw [if_pos hb]
    by_cases hz : rs.RunFromPosition position = 0
    · rw [hz, if_pos rfl]
      by_cases hv : rs.ValueAt position ≠ 0
      · rw [if_pos hv]
        -- Inserting at the start of the document into a non-zero first run:
        -- a fresh zero run of the inserted length is created in front.
        have hb' : rs.sAt (rs.RunFromPosition position) = position := hb
        rw [hz] at hb'
        obtain ⟨hm, hlen, h0, mono, strong, hsent, hadj, hdup⟩ := h
        have hpos : position = 0 := by omega
        rw [hpos] at hv ⊢
        have hv0 : rs.vAt 0 ≠ 0 := by rw [← valueAt_zero rs hs]; exact hv
        have hval : rs.ValueAt 0 = rs.vAt 0 := valueAt_zero rs hs
        have hml : rs.starts.body.length = rs.entries := rfl
        have hstyl : svIntInsertValue (svIntSetValueAt rs.styles 0 0) 1 1 (rs.ValueAt 0)
            = listInsertAt (rs.styles.set 0 0) 1 (rs.ValueAt 0) := by
          unfold svIntSetValueAt
          rw [if_pos (by omega)]
          exact svIntInsertValue_one _ 1 _ (by simp; omega)
        rw [hstyl]
        show Inv ⟨⟨shiftAfter 0 insertLength (listInsertAt rs.starts.body 1 0) 0⟩,
          listInsertAt (rs.styles.set 0 0) 1 (rs.ValueAt 0)⟩
        have hablen : (listInsertAt rs.starts.body 1 0).length = rs.entries + 1 := by
          rw [listInsertAt_length _ _ _ (by omega), hml]
        have hshlen : (shiftAfter 0 insertLength (listInsertAt rs.starts.body 1 0) 0).length
            = rs.entries + 1 := by rw [shiftAfter_length, hablen]
        have hvlen : (listInsertAt (rs.styles.set 0 0) 1 (rs.ValueAt 0)).length
            = rs.entries + 1 := by
          rw [listInsertAt_length _ _ _ (by simp; omega)]
          simp [hlen]
        have hS0 : (shiftAfter 0 insertLength (listInsertAt rs.starts.body 1 0) 0).getD 0 0
            = 0 := by
          rw [shiftAfter_getD, if_neg (by omega),
            listInsertAt_getD _ _ _ (by omega), if_pos (by omega)]
          exact h0
        have hS1 : (shiftAfter 0 insertLength (listInsertAt rs.starts.body 1 0) 0).getD 1 0
            = insertLength := by
          rw [shiftAfter_getD, if_pos (by constructor <;> omega),
            listInsertAt_getD _ _ _ (by omega), if_neg (by omega), if_pos rfl]
          omega
        have hS2 : ∀ k, k + 2 < rs.entries + 1 →
            (shiftAfter 0 insertLength (listInsertAt rs.starts.body 1 0) 0).getD (k + 2) 0
              = rs.sAt (k + 1) + insertLength := by
          intro k hk
          rw [shiftAfter_getD, if_pos (by constructor <;> omega),
            listInsertAt_getD _ _ _ (by omega), if_neg (by omega), if_neg (by omega)]
          rfl
        have hV0 : (listInsertAt (rs.styles.set 0 0) 1 (rs.ValueAt 0)).getD 0 0 = 0 := by
          rw [listInsertAt_getD _ _ _ (by simp; omega), if_pos (by omega), listGetD_set,
            if_pos (by constructor <;> [rfl; omega])]
        have hV1 : (listInsertAt (rs.styles.set 0 0) 1 (rs.ValueAt 0)).getD 1 0
            = rs.vAt 0 := by
          rw [listInsertAt_getD _ _ _ (by simp; omega), if_neg (by omega), if_pos rfl]
          exact hval
        have hV2 : ∀ k, (listInsertAt (rs.styles.set 0 0) 1 (rs.ValueAt 0)).getD (k + 2) 0
            = rs.vAt (k + 1) := by
          intro k
          rw [listInsertAt_getD _ _ _ (by simp; omega), if_neg (by omega), if_neg (by omega),
            listGetD_set, if_neg (by omega)]
          rfl
        refine ⟨?_, ?_, ?_, ?_, ?_, ?_, ?_, ?_⟩
        · dsimp only [entries]
          omega
        · dsimp only [entries]
          omega
        · dsimp only [sAt]
          exact hS0
        · intro j hj hj1
          dsimp only [entries] at hj hj1
          dsimp only [sAt]
          rcases j with _ | _ | k
          · rw [hS0, hS1]
            omega
          · rw [show (1 : Nat) + 1 = 0 + 2 from rfl, hS1, hS2 0 (by omega)]
            have hn := sAt_nonneg rs hs (0 + 1)
            omega
          · rw [show k + 1 + 1 = k + 2 from rfl,
              show k + 1 + 1 + 1 = (k + 1) + 2 from rfl, hS2 k (by omega),
              hS2 (k + 1) (by omega)]
            have := mono (k + 1) (by omega) (by omega)
            omega
        · intro j hj hj2
          dsimp only [entries] at hj hj2
          dsimp only [sAt]
          rcases j with _ | _ | k
          · rw [show (0 : Nat) + 2 = 0 + 2 from rfl, hS0, hS2 0 (by omega)]
            have hn := sAt_nonneg rs hs (0 + 1)
            omega
          · rw [show (1 : Nat) + 2 = 1 + 2 from rfl, hS1, hS2 1 (by omega)]
            have := strong 0 (by omega) (by omega)
            have hn : (0 : Nat) + 2 = 1 + 1 := rfl
            rw [hn] at this
            omega
          · rw [show k + 1 + 1 = k + 2 from rfl,
              show k + 1 + 1 + 2 = (k + 2) + 2 from rfl, hS2 k (by omega),
              hS2 (k + 2) (by omega)]
            have := strong (k + 1) (by omega) (by omega)
            have hn : k + 1 + 2 = k + 2 + 1 := rfl
            rw [hn] at this
            omega
        · dsimp only [entries, vAt]
          rw [hshlen]
          have he2 : rs.entries + 1 - 1 = (rs.entries - 2) + 2 := by omega
          rw [he2, hV2]
          have he3 : rs.entries - 2 + 1 = rs.entries - 1 := by omega
          rw [he3]
          exact hsent
        · intro j hj h1 hj1
          dsimp only [entries] at hj hj1
          dsimp only [vAt]
          rcases j with _ | _ | k
          · omega
          · rw [show (0 : Nat) + 1 = 1 from rfl, show (1 : Nat) - 1 = 0 from rfl, hV1, hV0]
            exact hv0
          · rw [show k + 1 + 1 = k + 2 from rfl, show k + 2 - 1 = k + 1 from rfl, hV2 k]
            rcases k with _ | k'
            · rw [show (0 : Nat) + 1 = 1 from rfl, hV1]
              have := hadj 1 (by omega) (by omega) (by omega)
              simpa using this
            · rw [show k' + 1 + 1 = k' + 2 from rfl, hV2 k']
              have := hadj (k' + 2) (by omega) (by omega) (by omega)
              have hn : k' + 2 - 1 = k' + 1 := rfl
              rw [hn] at this
              have hn2 : k' + 1 + 1 = k' + 2 := rfl
              rw [hn2]
              exact this
        · intro j hj hj1 heq
          dsimp only [entries] at hj hj1 ⊢
          dsimp only [sAt] at heq
          rcases j with _ | _ | k
          · rw [hS0, hS1] at heq
            omega
          · rw [show (1 : Nat) + 1 = 0 + 2 from rfl, hS1, hS2 0 (by omega)] at heq
            have hm0 : rs.sAt 0 ≤ rs.sAt (0 + 1) := mono 0 (by omega) (by omega)
            have hd0 := hdup 0 (by omega) (by omega)
            omega
          · rw [show k + 1 + 1 = k + 2 from rfl,
              show k + 1 + 1 + 1 = (k + 1) + 2 from rfl, hS2 k (by omega),
              hS2 (k + 1) (by omega)] at heq
            have hdk := hdup (k + 1) (by omega) (by omega)
            omega
      · rw [if_neg hv]
        exact insertText_inv rs h 0 insertLength hl
    · by_cases hv : rs.ValueAt position ≠ 0
      · rw [if_neg hz, if_pos hv]
        exact insertText_inv rs h (rs.RunFromPosition position - 1) insertLength hl
      · rw [if_neg hz, if_neg hv]
        exact insertText_inv rs h (rs.RunFromPosition position) insertLength hl
  · rw [if_neg hb]
    exact insertText_inv rs h (rs.RunFromPosition position) insertLength hl

theorem strict_pair (rs : RunStyles) (hs : rs.SInv) (i : Nat) (hi : i + 2 < rs.entries) :
    rs.sAt i < rs.sAt (i + 1) := by
  have hle := hs.2.2.1 i (by omega) (by omega)
  rcases lt_or_eq_of_le hle with h | h
  · exact h
  · have := hs.2.2.2.2 i (by omega) (by omega) h
    omega

theorem cutState_entries (rs : RunStyles) (a b : Nat) (ha : a ≤ rs.entries)
    (hb : b ≤ rs.entries) : (rs.cutState a b).entries = a + (rs.entries - b) := by
  have he : rs.entries = rs.starts.body.length := rfl
  show (rs.starts.body.take a ++ rs.starts.body.drop b).length = _
  simp
  omega

theorem cutState_styles_length (rs : RunStyles) (a b : Nat)
    (hlen : rs.styles.length = rs.entries) (ha : a ≤ rs.entries) (hb : b ≤ rs.entries) :
    (rs.cutState a b).styles.length = a + (rs.entries - b) := by
  show (rs.styles.take a ++ rs.styles.drop b).length = _
  simp
  omega

theorem cutState_sAt (rs : RunStyles) (a b : Nat) (ha : a ≤ rs.entries) (j : Nat) :
    (rs.cutState a b).sAt j = if j < a then rs.sAt j else rs.sAt (b + (j - a)) := by
  have ha' : a ≤ rs.starts.body.length := ha
  have hz := getD_zone rs.starts.body [] a b j ha'
  simp only [List.append_nil, List.length_nil, Nat.add_zero, Nat.sub_zero] at hz
  show (rs.starts.body.take a ++ rs.starts.body.drop b).getD j 0 = _
  by_cases hj : j < a
  · rw [hz, if_pos hj, if_pos hj]
    rfl
  · rw [hz, if_neg hj, if_neg hj, if_neg hj]
    rfl

theorem cutState_vAt (rs : RunStyles) (a b : Nat) (ha : a ≤ rs.styles.length) (j : Nat) :
    (rs.cutState a b).vAt j = if j < a then rs.vAt j else rs.vAt (b + (j - a)) := by
  have hz := getD_zone rs.styles [] a b j ha
  simp only [List.append_nil, List.length_nil, Nat.add_zero, Nat.sub_zero] at hz
  show (rs.styles.take a ++ rs.styles.drop b).getD j 0 = _
  by_cases hj : j < a
  · rw [hz, if_pos hj, if_pos hj]
    rfl
  · rw [hz, if_neg hj, if_neg hj, if_neg hj]
    rfl

theorem sinv_cut (w : RunStyles) (a b : Nat)
    (hab : a ≤ b) (hbm : b + 1 ≤ w.entries)
    (hm2 : 2 ≤ a + (w.entries - b))
    (hhead0 : a = 0 → w.sAt b = 0)
    (hhead1 : 1 ≤ a → w.sAt 0 = 0)
    (hpre : ∀ i, i + 1 < a → w.sAt i < w.sAt (i + 1))
    (hcross : 1 ≤ a → w.sAt (a - 1) < w.sAt b)
    (hsuf : ∀ i, b ≤ i → i + 2 ≤ w.entries - 1 → w.sAt i < w.sAt (i + 1))
    (hlastm : w.sAt (w.entries - 2) ≤ w.sAt (w.entries - 1)) :
    (w.cutState a b).SInv := by
  have hc := cutState_sAt w a b (by omega)
  have hce := cutState_entries w a b (by omega) (by omega)
  have hstep : ∀ j, j + 3 ≤ a + (w.entries - b) →
      (w.cutState a b).sAt j < (w.cutState a b).sAt (j + 1) := by
    intro j hj
    rw [hc j, hc (j + 1)]
    by_cases h1 : j + 1 < a
    · rw [if_pos (by omega), if_pos h1]
      exact hpre j h1
    · by_cases h2 : j < a
      · rw [if_pos h2, if_neg (by omega), show b + (j + 1 - a) = b from by omega,
          show j = a - 1 from by omega]
        exact hcross (by omega)
      · rw [if_neg h2, if_neg (by omega),
          show b + (j + 1 - a) = (b + (j - a)) + 1 from by omega]
        exact hsuf (b + (j - a)) (by omega) (by omega)
  have hstepm : ∀ j, j + 2 ≤ a + (w.entries - b) →
      (w.cutState a b).sAt j ≤ (w.cutState a b).sAt (j + 1) := by
    intro j hj
    by_cases hj3 : j + 3 ≤ a + (w.entries - b)
    · exact le_of_lt (hstep j hj3)
    · rw [hc j, hc (j + 1)]
      by_cases h2 : j < a
      · rw [if_pos h2, if_neg (by omega), show b + (j + 1 - a) = b from by omega,
          show j = a - 1 from by omega]
        exact le_of_lt (hcross (by omega))
      · rw [if_neg h2, if_neg (by omega),
          show b + (j - a) = w.entries - 2 from by omega,
          show b + (j + 1 - a) = w.entries - 1 from by omega]
        exact hlastm
  refine ⟨?_, ?_, ?_, ?_, ?_⟩
  · omega
  · rw [hc 0]
    by_cases h0 : 0 < a
    · rw [if_pos h0]
      exact hhead1 h0
    · rw [if_neg h0, show b + (0 - a) = b from by omega]
      exact hhead0 (by omega)
  · intro i hi hi1
    exact hstepm i (by omega)
  · intro i hi hi2
    calc (w.cutState a b).sAt i < (w.cutState a b).sAt (i + 1) := hstep i (by omega)
      _ ≤ (w.cutState a b).sAt (i + 2) := hstepm (i + 1) (by omega)
  · intro i hi hi1 heq
    by_cases hi3 : i + 3 ≤ a + (w.entries - b)
    · have := hstep i hi3
      omega
    · omega

theorem inv_cut (w : RunStyles) (a b : Nat)
    (hlen : w.styles.length = w.entries)
    (hab : a ≤ b) (hbm : b + 1 ≤ w.entries)
    (hm2 : 2 ≤ a + (w.entries - b))
    (hhead0 : a = 0 → w.sAt b = 0)
    (hhead1 : 1 ≤ a → w.sAt 0 = 0)
    (hpre : ∀ i, i + 1 < a → w.sAt i < w.sAt (i + 1))
    (hcross : 1 ≤ a → w.sAt (a - 1) < w.sAt b)
    (hsuf : ∀ i, b ≤ i → i + 2 ≤ w.entries - 1 → w.sAt i < w.sAt (i + 1))
    (hlastm : w.sAt (w.entries - 2) ≤ w.sAt (w.entries - 1))
    (hsent : w.vAt (w.entries - 1) = 0)
    (hvpre : ∀ i, 1 ≤ i → i + 1 ≤ a → w.vAt i ≠ w.vAt (i - 1))
    (hvcross : 1 ≤ a → b + 2 ≤ w.entries → w.vAt b ≠ w.vAt (a - 1))
    (hvsuf : ∀ i, b < i → i + 2 ≤ w.entries → w.vAt i ≠ w.vAt (i - 1)) :
    (w.cutState a b).Inv := by
  have hsc := sinv_cut w a b hab hbm hm2 hhead0 hhead1 hpre hcross hsuf hlastm
  have hcv := cutState_vAt w a b (by omega)
  have hce := cutState_entries w a b (by omega) (by omega)
  have hcl := cutState_styles_length w a b hlen (by omega) (by omega)
  refine ⟨hsc.1, ?_, hsc.2.1, hsc.2.2.1, hsc.2.2.2.1, ?_, ?_, hsc.2.2.2.2⟩
  · omega
  · rw [hcv, hce, if_neg (by omega),
      show b + (a + (w.entries - b) - 1 - a) = w.entries - 1 from by omega]
    exact hsent
  · intro i hi h1 hi1
    rw [hcv i, hcv (i - 1)]
    by_cases hia : i < a
    · rw [if_pos hia, if_pos (by omega)]
      exact hvpre i h1 (by omega)
    · by_cases hia2 : i = a
      · rw [if_neg hia, if_pos (by omega), show b + (i - a) = b from by omega,
          show i - 1 = a - 1 from by omega]
        exact hvcross (by omega) (by omega)
      · rw [if_neg hia, if_neg (by omega),
          show b + (i - 1 - a) = (b + (i - a)) - 1 from by omega]
        exact hvsuf (b + (i - a)) (by omega) (by omega)

end RunStyles

theorem listEraseIdx_append_left (A B : List Int) (i : Nat) (hi : i < A.length) :
    (A ++ B).eraseIdx i = A.eraseIdx i ++ B := by
  induction A generalizing i with
  | nil => simp at hi
  | cons x xs ih =>
    cases i with
    | zero => simp
    | succ i => simp [ih i (by simpa using hi)]

theorem listEraseIdx_append_right (A B : List Int) (i : Nat) (hi : A.length ≤ i) :
    (A ++ B).eraseIdx i = A ++ B.eraseIdx (i - A.length) := by
  induction A generalizing i with
  | nil => simp
  | cons x xs ih =>
    cases i with
    | zero => simp at hi
    | succ i => simp [ih i (by simpa using hi)]

theorem listEraseIdx_drop_zero (l : List Int) (b : Nat) (hb : b < l.length) :
    (l.drop b).eraseIdx 0 = l.drop (b + 1) := by
  rw [List.drop_eq_getElem_cons hb]
  rfl

theorem listEraseIdx_take_last (l : List Int) (a : Nat) :
    (l.take (a + 1)).eraseIdx a = l.take a := by
  rw [listEraseIdx_eq, List.take_take, show min a (a + 1) = a from by omega,
    List.drop_eq_nil_of_le (by simp), List.append_nil]

theorem svIntDeleteRange_one (l : List Int) (a : Nat) (h : a + 1 ≤ l.length) :
    svIntDeleteRange l a 1 = l.eraseIdx a := by
  unfold svIntDeleteRange
  rw [if_pos h, if_pos Nat.one_pos, ← listEraseIdx_eq]

namespace RunStyles

theorem removeRun_eraseIdx (rs : RunStyles) (a : Nat) (h : a + 1 ≤ rs.styles.length) :
    rs.RemoveRun a = ⟨⟨rs.starts.body.eraseIdx a⟩, rs.styles.eraseIdx a⟩ := by
  show (⟨rs.starts.removePartition a, svIntDeleteRange rs.styles a 1⟩ : RunStyles) = _
  rw [svIntDeleteRange_one rs.styles a h]
  rfl

theorem cutState_removeRun_suffixFirst (rs : RunStyles) (a b : Nat)
    (ha : a ≤ rs.starts.body.length) (ha2 : a ≤ rs.styles.length)
    (hb : b < rs.starts.body.length) (hb2 : b < rs.styles.length) :
    (rs.cutState a b).RemoveRun a = rs.cutState a (b + 1) := by
  have hlb : (rs.starts.body.take a).length = a := by simp; omega
  have hls : (rs.styles.take a).length = a := by simp; omega
  rw [removeRun_eraseIdx _ _
    (show a + 1 ≤ (rs.styles.take a ++ rs.styles.drop b).length from by simp; omega)]
  show (⟨⟨(rs.starts.body.take a ++ rs.starts.body.drop b).eraseIdx a⟩,
    (rs.styles.take a ++ rs.styles.drop b).eraseIdx a⟩ : RunStyles) = _
  rw [listEraseIdx_append_right _ _ a (by omega), hlb,
    show a - a = 0 from by omega, listEraseIdx_drop_zero _ _ hb,
    listEraseIdx_append_right _ _ a (by omega), hls,
    show a - a = 0 from by omega, listEraseIdx_drop_zero _ _ hb2]
  rfl

theorem cutState_removeRun_prefixLast (rs : RunStyles) (a b : Nat)
    (ha : a + 1 ≤ rs.starts.body.length) (ha2 : a + 1 ≤ rs.styles.length) :
    (rs.cutState (a + 1) b).RemoveRun a = rs.cutState a b := by
  have hlb : (rs.starts.body.take (a + 1)).length = a + 1 := by simp; omega
  have hls : (rs.styles.take (a + 1)).length = a + 1 := by simp; omega
  rw [removeRun_eraseIdx _ _
    (show a + 1 ≤ (rs.styles.take (a + 1) ++ rs.styles.drop b).length from by simp; omega)]
  show (⟨⟨(rs.starts.body.take (a + 1) ++ rs.starts.body.drop b).eraseIdx a⟩,
    (rs.styles.take (a + 1) ++ rs.styles.drop b).eraseIdx a⟩ : RunStyles) = _
  rw [listEraseIdx_append_left _ _ a (by omega), listEraseIdx_take_last,
    listEraseIdx_append_left _ _ a (by omega), listEraseIdx_take_last]
  rfl

theorem splitRun_insState (rs : RunStyles) (p : Int)
    (h : rs.sAt (rs.RunFromPosition p) < p)
    (hb2 : rs.RunFromPosition p + 1 ≤ rs.styles.length) :
    rs.SplitRun p = (rs.RunFromPosition p + 1,
      rs.insState (rs.RunFromPosition p) p (rs.ValueAt p)) := by
  rw [splitRun_split rs p h]
  unfold insState
  rw [svIntInsertValue_one _ _ _ hb2]

theorem insState_entries (rs : RunStyles) (r : Nat) (p v : Int)
    (hr : r + 1 ≤ rs.starts.body.length) :
    (rs.insState r p v).entries = rs.entries + 1 := by
  show (listInsertAt rs.starts.body (r + 1) p).length = _
  rw [listInsertAt_length _ _ _ hr]
  rfl

theorem insState_styles_length (rs : RunStyles) (r : Nat) (p v : Int)
    (hr : r + 1 ≤ rs.styles.length) :
    (rs.insState r p v).styles.length = rs.styles.length + 1 := by
  show (listInsertAt rs.styles (r + 1) v).length = _
  rw [listInsertAt_length _ _ _ hr]

theorem insState_sAt_le (rs : RunStyles) (r : Nat) (p v : Int)
    (hr : r + 1 ≤ rs.starts.body.length) (j : Nat) (hj : j ≤ r) :
    (rs.insState r p v).sAt j = rs.sAt j := by
  show (listInsertAt rs.starts.body (r + 1) p).getD j 0 = _
  rw [listInsertAt_getD _ _ _ hr j, if_pos (by omega)]
  rfl

theorem insState_sAt_mid (rs : RunStyles) (r : Nat) (p v : Int)
    (hr : r + 1 ≤ rs.starts.body.length) :
    (rs.insState r p v).sAt (r + 1) = p := by
  show (listInsertAt rs.starts.body (r + 1) p).getD (r + 1) 0 = _
  rw [listInsertAt_getD _ _ _ hr, if_neg (by omega), if_pos rfl]

theorem insState_sAt_gt (rs : RunStyles) (r : Nat) (p v : Int)
    (hr : r + 1 ≤ rs.starts.body.length) (k : Nat) (hk : r + 1 ≤ k) :
    (rs.insState r p v).sAt (k + 1) = rs.sAt k := by
  show (listInsertAt rs.starts.body (r + 1) p).getD (k + 1) 0 = _
  rw [listInsertAt_getD _ _ _ hr, if_neg (by omega), if_neg (by omega)]
  rfl

theorem insState_vAt_le (rs : RunStyles) (r : Nat) (p v : Int)
    (hr : r + 1 ≤ rs.styles.length) (j : Nat) (hj : j ≤ r) :
    (rs.insState r p v).vAt j = rs.vAt j := by
  show (listInsertAt rs.styles (r + 1) v).getD j 0 = _
  rw [listInsertAt_getD _ _ _ hr j, if_pos (by omega)]
  rfl

theorem insState_vAt_mid (rs : RunStyles) (r : Nat) (p v : Int)
    (hr : r + 1 ≤ rs.styles.length) :
    (rs.insState r p v).vAt (r + 1) = v := by
  show (listInsertAt rs.styles (r + 1) v).getD (r + 1) 0 = _
  rw [listInsertAt_getD _ _ _ hr, if_neg (by omega), if_pos rfl]

theorem insState_vAt_gt (rs : RunStyles) (r : Nat) (p v : Int)
    (hr : r + 1 ≤ rs.styles.length) (k : Nat) (hk : r + 1 ≤ k) :
    (rs.insState r p v).vAt (k + 1) = rs.vAt k := by
  show (listInsertAt rs.styles (r + 1) v).getD (k + 1) 0 = _
  rw [listInsertAt_getD _ _ _ hr, if_neg (by omega), if_neg (by omega)]
  rfl

theorem insState_sinv (rs : RunStyles) (hs : rs.SInv) (r : Nat) (p : Int)
    (h1 : rs.sAt r < p) (h2 : p ≤ rs.sAt (r + 1)) (hr : r + 1 < rs.entries)
    (hdup : p = rs.sAt (r + 1) → r + 2 = rs.entries) (v : Int) :
    (rs.insState r p v).SInv := by
  have he : rs.entries = rs.starts.body.length := rfl
  have hrb : r + 1 ≤ rs.starts.body.length := by omega
  have hm : 2 ≤ rs.entries := hs.1
  have monoT : ∀ i, i + 1 < rs.entries → rs.sAt i ≤ rs.sAt (i + 1) :=
    fun i hi => hs.2.2.1 i (by omega) hi
  have hdupT : ∀ i, i + 1 < rs.entries → rs.sAt i = rs.sAt (i + 1) → i + 2 = rs.entries :=
    fun i hi => hs.2.2.2.2 i (by omega) hi
  have hent := insState_entries rs r p v hrb
  refine ⟨?_, ?_, ?_, ?_, ?_⟩
  · omega
  · rw [insState_sAt_le rs r p v hrb 0 (by omega)]
    exact hs.2.1
  · intro j hj hj1
    rw [hent] at hj hj1
    by_cases hc1 : j + 1 ≤ r
    · rw [insState_sAt_le rs r p v hrb j (by omega),
        insState_sAt_le rs r p v hrb (j + 1) (by omega)]
      exact monoT j (by omega)
    · by_cases hc2 : j = r
      · rw [hc2, insState_sAt_le rs r p v hrb r (by omega), insState_sAt_mid rs r p v hrb]
        omega
      · by_cases hc3 : j = r + 1
        · rw [hc3, insState_sAt_mid rs r p v hrb,
            show r + 1 + 1 = (r + 1) + 1 from rfl,
            insState_sAt_gt rs r p v hrb (r + 1) (by omega)]
          exact h2
        · obtain ⟨k, hk⟩ : ∃ k, j = k + 1 := ⟨j - 1, by omega⟩
          rw [hk, insState_sAt_gt rs r p v hrb k (by omega),
            show k + 1 + 1 = (k + 1) + 1 from rfl,
            insState_sAt_gt rs r p v hrb (k + 1) (by omega)]
          exact monoT k (by omega)
  · intro j hj hj2
    rw [hent] at hj hj2
    by_cases hc1 : j + 2 ≤ r
    · rw [insState_sAt_le rs r p v hrb j (by omega),
        insState_sAt_le rs r p v hrb (j + 2) (by omega)]
      have f1 := monoT j (by omega)
      have f2 := monoT (j + 1) (by omega)
      have f3 := hdupT j (by omega)
      have f4 := hdupT (j + 1) (by omega)
      rw [show j + 1 + 1 = j + 2 from rfl] at f2 f4
      omega
    · by_cases hc2 : j + 2 = r + 1
      · rw [insState_sAt_le rs r p v hrb j (by omega), show j + 2 = r + 1 from hc2,
          insState_sAt_mid rs r p v hrb]
        have f := monoT j (by omega)
        rw [show j + 1 = r from by omega] at f
        omega
      · by_cases hc3 : j = r
        · rw [hc3, insState_sAt_le rs r p v hrb r (by omega),
            show r + 2 = (r + 1) + 1 from rfl,
            insState_sAt_gt rs r p v hrb (r + 1) (by omega)]
          omega
        · by_cases hc4 : j = r + 1
          · rw [hc4, insState_sAt_mid rs r p v hrb,
              show r + 1 + 2 = (r + 2) + 1 from rfl,
              insState_sAt_gt rs r p v hrb (r + 2) (by omega)]
            have f1 := monoT (r + 1) (by omega)
            have f2 : rs.sAt (r + 1) = rs.sAt (r + 1 + 1) → r + 1 + 2 = rs.entries :=
              hdupT (r + 1) (by omega)
            have f3 : r + 1 + 2 = r + 3 := rfl
            have f4 : rs.sAt (r + 2) = rs.sAt (r + 1 + 1) := rfl
            omega
          · obtain ⟨k, hk⟩ : ∃ k, j = k + 1 := ⟨j - 1, by omega⟩
            rw [hk, insState_sAt_gt rs r p v hrb k (by omega),
              show k + 1 + 2 = (k + 2) + 1 from rfl,
              insState_sAt_gt rs r p v hrb (k + 2) (by omega)]
            have f1 := monoT k (by omega)
            have f2 := monoT (k + 1) (by omega)
            have f3 := hdupT k (by omega)
            have f4 := hdupT (k + 1) (by omega)
            rw [show k + 1 + 1 = k + 2 from rfl] at f2 f4
            omega
  · intro j hj hj1 heq
    rw [hent] at hj hj1 ⊢
    by_cases hc1 : j + 1 ≤ r
    · rw [insState_sAt_le rs r p v hrb j (by omega),
        insState_sAt_le rs r p v hrb (j + 1) (by omega)] at heq
      have := hdupT j (by omega) heq
      omega
    · by_cases hc2 : j = r
      · rw [hc2, insState_sAt_le rs r p v hrb r (by omega),
          insState_sAt_mid rs r p v hrb] at heq
        omega
      · by_cases hc3 : j = r + 1
        · rw [hc3, insState_sAt_mid rs r p v hrb,
            show r + 1 + 1 = (r + 1) + 1 from rfl,
            insState_sAt_gt rs r p v hrb (r + 1) (by omega)] at heq
          have := hdup heq
          omega
        · obtain ⟨k, hk⟩ : ∃ k, j = k + 1 := ⟨j - 1, by omega⟩
          rw [hk] at heq ⊢
          rw [insState_sAt_gt rs r p v hrb k (by omega),
            show k + 1 + 1 = (k + 1) + 1 from rfl,
            insState_sAt_gt rs r p v hrb (k + 1) (by omega)] at heq
          have := hdupT k (by omega) heq
          omega

theorem inv_cut_of_sinv (w : RunStyles) (a b : Nat)
    (hsw : w.SInv) (hlen : w.styles.length = w.entries)
    (ha1 : 1 ≤ a) (hab : a ≤ b) (hbm : b + 1 ≤ w.entries)
    (hcross : w.sAt (a - 1) < w.sAt b)
    (hsent : w.vAt (w.entries - 1) = 0)
    (hvpre : ∀ i, 1 ≤ i → i + 1 ≤ a → w.vAt i ≠ w.vAt (i - 1))
    (hvcross : b + 2 ≤ w.entries → w.vAt b ≠ w.vAt (a - 1))
    (hvsuf : ∀ i, b < i → i + 2 ≤ w.entries → w.vAt i ≠ w.vAt (i - 1)) :
    (w.cutState a b).Inv := by
  have hm : 2 ≤ w.entries := hsw.1
  refine inv_cut w a b hlen hab hbm (by omega) (by omega) (fun _ => hsw.2.1)
    ?_ (fun _ => hcross) ?_ ?_ hsent hvpre (fun _ => hvcross) hvsuf
  · intro i hi
    exact strict_pair w hsw i (by omega)
  · intro i hbi hi2
    exact strict_pair w hsw i (by omega)
  · exact mono_le w hsw (w.entries - 2) (w.entries - 1) (by omega) (by omega)

theorem inv_of_parts (y : RunStyles) (hsy : y.SInv) (hlen : y.styles.length = y.entries)
    (hsent : y.vAt (y.entries - 1) = 0)
    (hnd : ∀ i, 1 ≤ i → i + 1 < y.entries → y.vAt i ≠ y.vAt (i - 1)) : y.Inv :=
  ⟨hsy.1, hlen, hsy.2.1, hsy.2.2.1, hsy.2.2.2.1, hsent,
    (fun i _ h1 hi1 => hnd i h1 hi1), hsy.2.2.2.2⟩

theorem fillTail3_inv (wv : RunStyles) (end_ : Int) (A1 b2 : Nat)
    (hsw : wv.SInv) (hlen : wv.styles.length = wv.entries)
    (hsent : wv.vAt (wv.entries - 1) = 0)
    (hA1 : 1 ≤ A1) (hab : A1 ≤ b2) (hb2m : b2 + 1 ≤ wv.entries)
    (hpA1 : wv.sAt (A1 - 1) < end_)
    (hend : end_ ≤ wv.sAt b2)
    (hvpreF : ∀ i, 1 ≤ i → i + 1 ≤ A1 → wv.vAt i ≠ wv.vAt (i - 1))
    (hvcrossF : b2 + 2 ≤ wv.entries → wv.vAt b2 ≠ wv.vAt (A1 - 1))
    (hvsufF : ∀ i, b2 < i → i + 2 ≤ wv.entries → wv.vAt i ≠ wv.vAt (i - 1)) :
    ((wv.cutState A1 b2).RemoveRunIfEmpty
      ((wv.cutState A1 b2).RunFromPosition end_)).Inv := by
  have hm : 2 ≤ wv.entries := hsw.1
  have hme : wv.entries = wv.starts.body.length := rfl
  have hsD : (wv.cutState A1 b2).SInv := sinv_cut wv A1 b2 (by omega) hb2m (by omega)
    (fun h0 => absurd h0 (by omega)) (fun _ => hsw.2.1)
    (fun i hi => strict_pair wv hsw i (by omega))
    (fun _ => lt_of_lt_of_le hpA1 hend)
    (fun i hbi hi2 => strict_pair wv hsw i (by omega))
    (mono_le wv hsw (wv.entries - 2) (wv.entries - 1) (by omega) (by omega))
  have hceD := cutState_entries wv A1 b2 (by omega) (by omega)
  have hsat := fun j => cutState_sAt wv A1 b2 (by omega) j
  have hsA1 : (wv.cutState A1 b2).sAt A1 = wv.sAt b2 := by
    rw [hsat A1, if_neg (by omega), show b2 + (A1 - A1) = b2 from by omega]
  have hsA1m : (wv.cutState A1 b2).sAt (A1 - 1) = wv.sAt (A1 - 1) := by
    rw [hsat (A1 - 1), if_pos (by omega)]
  have hpartD : (wv.cutState A1 b2).starts.partitions = A1 + (wv.entries - b2) - 1 := by
    show (wv.cutState A1 b2).entries - 1 = _
    rw [hceD]
  have hfinal : ((wv.cutState A1 b2)).Inv :=
    inv_cut_of_sinv wv A1 b2 hsw hlen hA1 hab hb2m (lt_of_lt_of_le hpA1 hend) hsent
      hvpreF hvcrossF hvsufF
  by_cases hx : end_ < wv.sAt b2
  · have hrfp : (wv.cutState A1 b2).RunFromPosition end_ = A1 - 1 :=
      rfp_eq _ hsD end_ (A1 - 1)
        (by rw [hsA1m]; exact le_of_lt hpA1)
        (by rw [show A1 - 1 + 1 = A1 from by omega, hsA1]; exact hx)
        (by rw [show A1 - 1 + 1 = A1 from by omega, hceD]; omega)
    rw [hrfp]
    dsimp only [RemoveRunIfEmpty]
    by_cases ho : A1 - 1 < (wv.cutState A1 b2).starts.partitions ∧
        1 < (wv.cutState A1 b2).starts.partitions
    · rw [if_pos ho]
      have hne : ¬ (wv.cutState A1 b2).starts.positionFromPartition (A1 - 1) =
          (wv.cutState A1 b2).starts.positionFromPartition (A1 - 1 + 1) := by
        show ¬ (wv.cutState A1 b2).sAt (A1 - 1) = (wv.cutState A1 b2).sAt (A1 - 1 + 1)
        rw [hsA1m, show A1 - 1 + 1 = A1 from by omega, hsA1]
        omega
      rw [if_neg hne]
      exact hfinal
    · rw [if_neg ho]
      exact hfinal
  · have hxe : wv.sAt b2 = end_ := by omega
    by_cases hsingle : b2 + 1 = wv.entries
    · have hLD : (wv.cutState A1 b2).Length = end_ := by
        rw [length_eq_sAt, hceD, show A1 + (wv.entries - b2) - 1 = A1 from by omega, hsA1]
        exact hxe
      have hrfp : (wv.cutState A1 b2).RunFromPosition end_ = A1 - 1 := by
        rw [rfp_last (wv.cutState A1 b2) hsD end_ (le_of_eq hLD), hceD]
        omega
      rw [hrfp]
      dsimp only [RemoveRunIfEmpty]
      by_cases ho : A1 - 1 < (wv.cutState A1 b2).starts.partitions ∧
          1 < (wv.cutState A1 b2).starts.partitions
      · rw [if_pos ho]
        have hne : ¬ (wv.cutState A1 b2).starts.positionFromPartition (A1 - 1) =
            (wv.cutState A1 b2).starts.positionFromPartition (A1 - 1 + 1) := by
          show ¬ (wv.cutState A1 b2).sAt (A1 - 1) = (wv.cutState A1 b2).sAt (A1 - 1 + 1)
          rw [hsA1m, show A1 - 1 + 1 = A1 from by omega, hsA1]
          omega
        rw [if_neg hne]
        exact hfinal
      · rw [if_neg ho]
        exact hfinal
    · have hb22 : b2 + 2 ≤ wv.entries := by omega
      have hsA11 : (wv.cutState A1 b2).sAt (A1 + 1) = wv.sAt (b2 + 1) := by
        rw [hsat (A1 + 1), if_neg (by omega), show b2 + (A1 + 1 - A1) = b2 + 1 from by omega]
      by_cases hdup2 : wv.sAt (b2 + 1) = end_
      · have hb2m2 : b2 + 2 = wv.entries :=
          hsw.2.2.2.2 b2 (by omega) (by omega) (by rw [hxe, hdup2])
        have hLD : (wv.cutState A1 b2).Length = end_ := by
          rw [length_eq_sAt, hceD, show A1 + (wv.entries - b2) - 1 = A1 + 1 from by omega,
            hsA11]
          exact hdup2
        have hrfp : (wv.cutState A1 b2).RunFromPosition end_ = A1 := by
          rw [rfp_last (wv.cutState A1 b2) hsD end_ (le_of_eq hLD), hceD]
          omega
        rw [hrfp]
        dsimp only [RemoveRunIfEmpty]
        have ho : A1 < (wv.cutState A1 b2).starts.partitions ∧
            1 < (wv.cutState A1 b2).starts.partitions := by
          constructor <;> (rw [hpartD]; omega)
        rw [if_pos ho]
        have heq2 : (wv.cutState A1 b2).starts.positionFromPartition A1 =
            (wv.cutState A1 b2).starts.positionFromPartition (A1 + 1) := by
          show (wv.cutState A1 b2).sAt A1 = (wv.cutState A1 b2).sAt (A1 + 1)
          rw [hsA1, hsA11, hxe, hdup2]
        rw [if_pos heq2]
        rw [cutState_removeRun_suffixFirst wv A1 b2 (by omega) (by omega) (by omega)
          (by omega)]
        exact inv_cut_of_sinv wv A1 (b2 + 1) hsw hlen hA1 (by omega) (by omega)
          (by rw [hdup2]; exact hpA1) hsent hvpreF
          (fun hcond => absurd hcond (by omega))
          (fun i hbi hi2 => hvsufF i (by omega) hi2)
      · have hgt : end_ < wv.sAt (b2 + 1) := by
          have := mono_le wv hsw b2 (b2 + 1) (by omega) (by omega)
          omega
        have hrfp : (wv.cutState A1 b2).RunFromPosition end_ = A1 :=
          rfp_eq _ hsD end_ A1
            (by rw [hsA1]; omega)
            (by rw [hsA11]; exact hgt)
            (by rw [hceD]; omega)
        rw [hrfp]
        dsimp only [RemoveRunIfEmpty]
        by_cases ho : A1 < (wv.cutState A1 b2).starts.partitions ∧
            1 < (wv.cutState A1 b2).starts.partitions
        · rw [if_pos ho]
          have hne : ¬ (wv.cutState A1 b2).starts.positionFromPartition A1 =
              (wv.cutState A1 b2).starts.positionFromPartition (A1 + 1) := by
            show ¬ (wv.cutState A1 b2).sAt A1 = (wv.cutState A1 b2).sAt (A1 + 1)
            rw [hsA1, hsA11]
            omega
          rw [if_neg hne]
          exact hfinal
        · rw [if_neg ho]
          exact hfinal

theorem fillTail2_inv (wv : RunStyles) (value end_ : Int) (a b2 : Nat)
    (hsw : wv.SInv) (hlen : wv.styles.length = wv.entries)
    (hsent : wv.vAt (wv.entries - 1) = 0)
    (hab : a + 1 ≤ b2) (hb2m : b2 + 1 ≤ wv.entries)
    (hpa : wv.sAt a < end_)
    (hend : end_ ≤ wv.sAt b2)
    (hva : wv.vAt a = value)
    (hvpre : ∀ i, 1 ≤ i → i + 1 ≤ a → wv.vAt i ≠ wv.vAt (i - 1))
    (hvb2 : b2 + 2 ≤ wv.entries → wv.vAt b2 ≠ value)
    (hvsuf : ∀ i, b2 < i → i + 2 ≤ wv.entries → wv.vAt i ≠ wv.vAt (i - 1)) :
    (((wv.cutState (a + 1) b2).RemoveRunIfSameAsPrevious a).RemoveRunIfEmpty
      (((wv.cutState (a + 1) b2).RemoveRunIfSameAsPrevious a).RunFromPosition end_)).Inv := by
  have hm : 2 ≤ wv.entries := hsw.1
  have hme : wv.entries = wv.starts.body.length := rfl
  have hceC := cutState_entries wv (a + 1) b2 (by omega) (by omega)
  have hpartC : (wv.cutState (a + 1) b2).starts.partitions =
      (a + 1) + (wv.entries - b2) - 1 := by
    show (wv.cutState (a + 1) b2).entries - 1 = _
    rw [hceC]
  have hcv := fun j => cutState_vAt wv (a + 1) b2 (by omega) j
  by_cases ha0 : 0 < a
  · by_cases hL : wv.vAt (a - 1) = value
    · dsimp only [RemoveRunIfSameAsPrevious]
      have ho : 0 < a ∧ a < (wv.cutState (a + 1) b2).starts.partitions :=
        ⟨ha0, by rw [hpartC]; omega⟩
      rw [if_pos ho]
      have hveq : (wv.cutState (a + 1) b2).styles.getD (a - 1) 0 =
          (wv.cutState (a + 1) b2).styles.getD a 0 := by
        show (wv.cutState (a + 1) b2).vAt (a - 1) = (wv.cutState (a + 1) b2).vAt a
        rw [hcv (a - 1), if_pos (by omega), hcv a, if_pos (by omega), hva, hL]
      rw [if_pos hveq]
      rw [cutState_removeRun_prefixLast wv a b2 (by omega) (by omega)]
      refine fillTail3_inv wv end_ a b2 hsw hlen hsent (by omega) (by omega) hb2m
        ?_ hend hvpre (fun h => by rw [hL]; exact hvb2 h) hvsuf
      have hstr := strict_pair wv hsw (a - 1) (by omega)
      rw [show a - 1 + 1 = a from by omega] at hstr
      omega
    · dsimp only [RemoveRunIfSameAsPrevious]
      have ho : 0 < a ∧ a < (wv.cutState (a + 1) b2).starts.partitions :=
        ⟨ha0, by rw [hpartC]; omega⟩
      rw [if_pos ho]
      have hvne : ¬ (wv.cutState (a + 1) b2).styles.getD (a - 1) 0 =
          (wv.cutState (a + 1) b2).styles.getD a 0 := by
        show ¬ (wv.cutState (a + 1) b2).vAt (a - 1) = (wv.cutState (a + 1) b2).vAt a
        rw [hcv (a - 1), if_pos (by omega), hcv a, if_pos (by omega), hva]
        exact fun hc => hL hc
      rw [if_neg hvne]
      refine fillTail3_inv wv end_ (a + 1) b2 hsw hlen hsent (by omega) hab hb2m
        (by rw [show a + 1 - 1 = a from by omega]; exact hpa) hend ?_
        (fun h => by rw [show a + 1 - 1 = a from by omega, hva]; exact hvb2 h) hvsuf
      intro i h1 hi
      by_cases hia : i = a
      · rw [hia, hva, show a - 1 = a - 1 from rfl]
        exact fun hc => hL hc.symm
      · exact hvpre i h1 (by omega)
  · dsimp only [RemoveRunIfSameAsPrevious]
    rw [if_neg (fun hcontra => absurd hcontra.1 (by omega))]
    refine fillTail3_inv wv end_ (a + 1) b2 hsw hlen hsent (by omega) hab hb2m
      (by rw [show a + 1 - 1 = a from by omega]; exact hpa) hend
      (fun i h1 hi => absurd h1 (by omega))
      (fun h => by rw [show a + 1 - 1 = a from by omega, hva]; exact hvb2 h) hvsuf

theorem fillTail_inv (yc : RunStyles) (value end_ : Int) (a bb : Nat)
    (hsy : yc.SInv) (hlen : yc.styles.length = yc.entries)
    (hsent : yc.vAt (yc.entries - 1) = 0)
    (hab : a < bb) (hbm : bb + 1 < yc.entries)
    (hsbb : yc.sAt bb = end_)
    (hpa : yc.sAt a < end_)
    (hvpre : ∀ i, 1 ≤ i → i + 1 ≤ a → yc.vAt i ≠ yc.vAt (i - 1))
    (hvsuf : ∀ i, bb < i → i + 1 < yc.entries → yc.vAt i ≠ yc.vAt (i - 1)) :
    (let rsA : RunStyles := ⟨yc.starts, svIntSetValueAt yc.styles a value⟩
     let rsB := rsA.removeRuns (a + 1) (bb - (a + 1))
     let rsC := rsB.RemoveRunIfSameAsPrevious (rsB.RunFromPosition end_)
     let rsD := rsC.RemoveRunIfSameAsPrevious a
     rsD.RemoveRunIfEmpty (rsD.RunFromPosition end_)).Inv := by
  have hm : 2 ≤ yc.entries := hsy.1
  have hme : yc.entries = yc.starts.body.length := rfl
  dsimp only
  have hset : svIntSetValueAt yc.styles a value = yc.styles.set a value := by
    unfold svIntSetValueAt
    rw [if_pos (by omega)]
  rw [hset]
  have hwme : (⟨yc.starts, yc.styles.set a value⟩ : RunStyles).entries = yc.entries := rfl
  have hwbl : (⟨yc.starts, yc.styles.set a value⟩ : RunStyles).starts.body.length =
      yc.starts.body.length := rfl
  have hwsl : (⟨yc.starts, yc.styles.set a value⟩ : RunStyles).styles.length =
      yc.styles.length := by
    show (yc.styles.set a value).length = _
    rw [List.length_set]
  have hws : ∀ j, (⟨yc.starts, yc.styles.set a value⟩ : RunStyles).sAt j = yc.sAt j :=
    fun _ => rfl
  have hswv : (⟨yc.starts, yc.styles.set a value⟩ : RunStyles).SInv := hsy
  have hlenwv : (⟨yc.starts, yc.styles.set a value⟩ : RunStyles).styles.length =
      (⟨yc.starts, yc.styles.set a value⟩ : RunStyles).entries := by
    show (yc.styles.set a value).length = yc.entries
    rw [List.length_set]
    exact hlen
  have hwa : (⟨yc.starts, yc.styles.set a value⟩ : RunStyles).vAt a = value := by
    show (yc.styles.set a value).getD a 0 = value
    rw [listGetD_set, if_pos ⟨rfl, by omega⟩]
  have hwne : ∀ j, j ≠ a →
      (⟨yc.starts, yc.styles.set a value⟩ : RunStyles).vAt j = yc.vAt j := by
    intro j hj
    show (yc.styles.set a value).getD j 0 = _
    rw [listGetD_set, if_neg (fun hc => hj hc.1)]
    rfl
  have hsentwv : (⟨yc.starts, yc.styles.set a value⟩ : RunStyles).vAt
      ((⟨yc.starts, yc.styles.set a value⟩ : RunStyles).entries - 1) = 0 := by
    rw [hwme, hwne _ (by omega)]
    exact hsent
  have hB : (⟨yc.starts, yc.styles.set a value⟩ : RunStyles).removeRuns (a + 1)
      (bb - (a + 1)) =
      (⟨yc.starts, yc.styles.set a value⟩ : RunStyles).cutState (a + 1) bb := by
    have h0 := removeRuns_eq (⟨yc.starts, yc.styles.set a value⟩ : RunStyles) (a + 1)
      (bb - (a + 1))
      (show a + 1 + (bb - (a + 1)) ≤ yc.starts.body.length from by omega)
      (show a + 1 + (bb - (a + 1)) ≤ (yc.styles.set a value).length from by
        rw [List.length_set]; omega)
    rw [show a + 1 + (bb - (a + 1)) = bb from by omega] at h0
    exact h0
  rw [hB]
  have hsB : ((⟨yc.starts, yc.styles.set a value⟩ : RunStyles).cutState (a + 1) bb).SInv :=
    sinv_cut _ (a + 1) bb (by omega) (by rw [hwme]; omega) (by rw [hwme]; omega)
      (fun h0 => absurd h0 (by omega)) (fun _ => hsy.2.1)
      (fun i hi => strict_pair yc hsy i (by omega))
      (fun _ => by rw [hws, hws, hsbb]; exact hpa)
      (fun i hbi hi2 => by
        rw [hws, hws]
        have hi2' : i + 2 ≤ yc.entries - 1 := by rw [← hwme]; exact hi2
        exact strict_pair yc hsy i (by omega))
      (by
        rw [hws, hws, hwme]
        exact mono_le yc hsy (yc.entries - 2) (yc.entries - 1) (by omega) (by omega))
  have hceB := cutState_entries (⟨yc.starts, yc.styles.set a value⟩ : RunStyles) (a + 1) bb
    (by rw [hwme]; omega) (by rw [hwme]; omega)
  rw [hwme] at hceB
  have hsatB := fun j => cutState_sAt (⟨yc.starts, yc.styles.set a value⟩ : RunStyles)
    (a + 1) bb (by rw [hwme]; omega) j
  have hsB1 : ((⟨yc.starts, yc.styles.set a value⟩ : RunStyles).cutState (a + 1) bb).sAt
      (a + 1) = end_ := by
    rw [hsatB (a + 1), if_neg (by omega), show bb + (a + 1 - (a + 1)) = bb from by omega,
      hws, hsbb]
  have hsB2 : ((⟨yc.starts, yc.styles.set a value⟩ : RunStyles).cutState (a + 1) bb).sAt
      (a + 2) = yc.sAt (bb + 1) := by
    rw [hsatB (a + 2), if_neg (by omega), show bb + (a + 2 - (a + 1)) = bb + 1 from by omega,
      hws]
  have hre2 : ((⟨yc.starts, yc.styles.set a value⟩ : RunStyles).cutState (a + 1)
      bb).RunFromPosition end_ = a + 1 := by
    by_cases hdd : yc.sAt (bb + 1) = end_
    · have hdupb : bb + 2 = yc.entries :=
        hsy.2.2.2.2 bb (by omega) (by omega) (by rw [hsbb, hdd])
      have hLB : ((⟨yc.starts, yc.styles.set a value⟩ : RunStyles).cutState (a + 1)
          bb).Length = end_ := by
        rw [length_eq_sAt, hceB, show a + 1 + (yc.entries - bb) - 1 = a + 2 from by omega,
          hsB2]
        exact hdd
      rw [rfp_last _ hsB end_ (le_of_eq hLB), hceB]
      omega
    · have hgt : end_ < yc.sAt (bb + 1) := by
        have := mono_le yc hsy bb (bb + 1) (by omega) (by omega)
        omega
      exact rfp_eq _ hsB end_ (a + 1) (le_of_eq hsB1)
        (by rw [show a + 1 + 1 = a + 2 from rfl, hsB2]; exact hgt)
        (by rw [hceB]; omega)
  have hpartB : ((⟨yc.starts, yc.styles.set a value⟩ : RunStyles).cutState (a + 1)
      bb).starts.partitions = a + 1 + (yc.entries - bb) - 1 := by
    show ((⟨yc.starts, yc.styles.set a value⟩ : RunStyles).cutState (a + 1) bb).entries - 1 = _
    rw [hceB]
  have hcvB := fun j => cutState_vAt (⟨yc.starts, yc.styles.set a value⟩ : RunStyles)
    (a + 1) bb (by rw [List.length_set]; omega) j
  have hvBa : ((⟨yc.starts, yc.styles.set a value⟩ : RunStyles).cutState (a + 1) bb).vAt a
      = value := by
    rw [hcvB a, if_pos (by omega)]
    exact hwa
  have hvBa1 : ((⟨yc.starts, yc.styles.set a value⟩ : RunStyles).cutState (a + 1) bb).vAt
      (a + 1) = yc.vAt bb := by
    rw [hcvB (a + 1), if_neg (by omega), show bb + (a + 1 - (a + 1)) = bb from by omega]
    exact hwne bb (by omega)
  rw [hre2]
  by_cases hR : yc.vAt bb = value
  · have hC : ((⟨yc.starts, yc.styles.set a value⟩ : RunStyles).cutState (a + 1)
        bb).RemoveRunIfSameAsPrevious (a + 1) =
        (⟨yc.starts, yc.styles.set a value⟩ : RunStyles).cutState (a + 1) (bb + 1) := by
      dsimp only [RemoveRunIfSameAsPrevious]
      rw [if_pos ⟨by omega, by rw [hpartB]; omega⟩]
      rw [if_pos (show _ = _ from by
        show ((⟨yc.starts, yc.styles.set a value⟩ : RunStyles).cutState (a + 1) bb).vAt
            (a + 1 - 1) =
          ((⟨yc.starts, yc.styles.set a value⟩ : RunStyles).cutState (a + 1) bb).vAt (a + 1)
        rw [show a + 1 - 1 = a from by omega, hvBa, hvBa1, hR])]
      exact cutState_removeRun_suffixFirst _ (a + 1) bb (by omega) (by omega) (by omega)
        (by omega)
    rw [hC]
    refine fillTail2_inv _ value end_ a (bb + 1) hswv hlenwv hsentwv (by omega)
      (by rw [hwme]; omega) (by rw [hws]; exact hpa) ?_ hwa ?_ ?_ ?_
    · rw [hws]
      have := mono_le yc hsy bb (bb + 1) (by omega) (by omega)
      omega
    · intro i h1 hi
      rw [hwne i (by omega), hwne (i - 1) (by omega)]
      exact hvpre i h1 hi
    · intro h
      rw [hwme] at h
      rw [hwne (bb + 1) (by omega), ← hR]
      exact hvsuf (bb + 1) (by omega) (by omega)
    · intro i hbi hi2
      rw [hwme] at hi2
      rw [hwne i (by omega), hwne (i - 1) (by omega)]
      exact hvsuf i (by omega) (by omega)
  · have hC : ((⟨yc.starts, yc.styles.set a value⟩ : RunStyles).cutState (a + 1)
        bb).RemoveRunIfSameAsPrevious (a + 1) =
        (⟨yc.starts, yc.styles.set a value⟩ : RunStyles).cutState (a + 1) bb := by
      dsimp only [RemoveRunIfSameAsPrevious]
      rw [if_pos ⟨by omega, by rw [hpartB]; omega⟩]
      rw [if_neg (show ¬ _ = _ from by
        show ¬ ((⟨yc.starts, yc.styles.set a value⟩ : RunStyles).cutState (a + 1) bb).vAt
            (a + 1 - 1) =
          ((⟨yc.starts, yc.styles.set a value⟩ : RunStyles).cutState (a + 1) bb).vAt (a + 1)
        rw [show a + 1 - 1 = a from by omega, hvBa, hvBa1]
        exact fun hc => hR hc.symm)]
    rw [hC]
    refine fillTail2_inv _ value end_ a bb hswv hlenwv hsentwv (by omega)
      (by rw [hwme]; omega) (by rw [hws]; exact hpa) (by rw [hws]; exact le_of_eq hsbb.symm)
      hwa ?_ ?_ ?_
    · intro i h1 hi
      rw [hwne i (by omega), hwne (i - 1) (by omega)]
      exact hvpre i h1 hi
    · intro h
      rw [hwne bb (by omega)]
      exact hR
    · intro i hbi hi2
      rw [hwme] at hi2
      rw [hwne i (by omega), hwne (i - 1) (by omega)]
      exact hvsuf i (by omega) (by omega)

theorem fillCore_inv (y : RunStyles) (position value end_ : Int) (b : Nat)
    (hsy : y.SInv) (hleny : y.styles.length = y.entries)
    (hsenty : y.vAt (y.entries - 1) = 0)
    (hsb : y.sAt b = end_) (hbm : b + 1 < y.entries)
    (hpos : 0 ≤ position) (hpe : position < end_)
    (hcase :
      (y.vAt b = value ∧ ∀ i, 1 ≤ i → i + 1 < y.entries → y.vAt i ≠ y.vAt (i - 1)) ∨
      (y.vAt b ≠ value ∧ ∀ i, 1 ≤ i → i + 1 < y.entries → y.vAt i ≠ y.vAt (i - 1)) ∨
      (y.vAt b ≠ value ∧ y.vAt (b - 1) = y.vAt b ∧ 1 ≤ b ∧
        ∀ i, 1 ≤ i → i + 1 < y.entries → i ≠ b → y.vAt i ≠ y.vAt (i - 1))) :
    (y.fillCore position value end_ b).2.Inv := by
  have hm : 2 ≤ y.entries := hsy.1
  have hme : y.entries = y.starts.body.length := rfl
  have hendT : end_ ≤ y.Length := by
    rw [← hsb]
    exact sAt_le_length y hsy b (by omega)
  have hposT : position < y.Length := lt_of_lt_of_le hpe hendT
  obtain ⟨hrf1, hrf2, hrf3⟩ := rfp_bounds y hsy position hpos hposT
  have hrSb : y.RunFromPosition position < b := by
    by_contra hc
    have := mono_le y hsy b (y.RunFromPosition position) (by omega) (by omega)
    omega
  have hadjT : ∀ i, 1 ≤ i → i + 1 < y.entries → i ≠ b → y.vAt i ≠ y.vAt (i - 1) := by
    rcases hcase with ⟨_, hnd⟩ | ⟨_, hnd⟩ | ⟨_, _, _, hnd⟩
    · exact fun i h1 hi _ => hnd i h1 hi
    · exact fun i h1 hi _ => hnd i h1 hi
    · exact hnd
  dsimp only [fillCore]
  by_cases hCi : y.styles.getD (y.RunFromPosition position) 0 = value
  · rw [if_pos hCi]
    dsimp only
    by_cases hlt : y.RunFromPosition position + 1 < b
    · rw [if_pos hlt]
      dsimp only
      refine fillTail_inv y value end_ (y.RunFromPosition position + 1) b hsy hleny hsenty
        hlt hbm hsb ?_ ?_ ?_
      · have hstrict : y.sAt (y.RunFromPosition position + 1) < y.sAt b := by
          by_cases h2 : y.RunFromPosition position + 2 = b
          · rw [← h2]
            exact strict_pair y hsy (y.RunFromPosition position + 1) (by omega)
          · exact strict_lt y hsy (y.RunFromPosition position + 1) b (by omega) (by omega)
        omega
      · intro i h1 hi
        exact hadjT i h1 (by omega) (by omega)
      · intro i hbi hi1
        exact hadjT i (by omega) hi1 (by omega)
    · rw [if_neg hlt]
      dsimp only
      have hrSv : y.vAt (y.RunFromPosition position) = value := hCi
      have hbeq : y.RunFromPosition position + 1 = b := by omega
      have hb1v : y.vAt (b - 1) = value := by
        rw [show b - 1 = y.RunFromPosition position from by omega]
        exact hrSv
      rcases hcase with ⟨hA, hnd⟩ | ⟨hB, hnd⟩ | ⟨hB, hdef, hb1, hnd⟩
      · have hne := hnd b (by omega) (by omega)
        rw [hA, hb1v] at hne
        exact absurd rfl hne
      · exact inv_of_parts y hsy hleny hsenty hnd
      · rw [hb1v] at hdef
        exact absurd hdef.symm hB
  · rw [if_neg hCi]
    by_cases hCsp : y.starts.positionFromPartition (y.RunFromPosition position) < position
    · rw [if_pos hCsp]
      rw [splitRun_insState y position hCsp (by omega)]
      dsimp only
      rw [if_pos (show y.RunFromPosition position + 1 < b + 1 from by omega)]
      dsimp only
      have hrb : y.RunFromPosition position + 1 ≤ y.starts.body.length := by omega
      have hrs : y.RunFromPosition position + 1 ≤ y.styles.length := by omega
      have hdne : position = y.sAt (y.RunFromPosition position + 1) →
          y.RunFromPosition position + 2 = y.entries := fun hc => absurd hc (by omega)
      have hsyc := insState_sinv y hsy (y.RunFromPosition position) position hCsp
        (le_of_lt hrf2) hrf3 hdne (y.ValueAt position)
      refine fillTail_inv (y.insState (y.RunFromPosition position) position
          (y.ValueAt position)) value end_ (y.RunFromPosition position + 1) (b + 1)
        hsyc ?_ ?_ (by omega) ?_ ?_ ?_ ?_ ?_
      · rw [insState_styles_length y _ _ _ hrs, insState_entries y _ _ _ hrb, hleny]
      · rw [insState_entries y _ _ _ hrb,
          show y.entries + 1 - 1 = (y.entries - 1) + 1 from by omega,
          insState_vAt_gt y _ _ _ hrs (y.entries - 1) (by omega)]
        exact hsenty
      · rw [insState_entries y _ _ _ hrb]
        omega
      · rw [insState_sAt_gt y _ _ _ hrb b (by omega)]
        exact hsb
      · rw [insState_sAt_mid y _ _ _ hrb]
        exact hpe
      · intro i h1 hi
        rw [insState_vAt_le y _ _ _ hrs i (by omega),
          insState_vAt_le y _ _ _ hrs (i - 1) (by omega)]
        exact hadjT i h1 (by omega) (by omega)
      · intro i hbi hi1
        rw [insState_entries y _ _ _ hrb] at hi1
        obtain ⟨k, hk⟩ : ∃ k, i = k + 1 := ⟨i - 1, by omega⟩
        obtain ⟨k', hk'⟩ : ∃ k', k = k' + 1 := ⟨k - 1, by omega⟩
        rw [hk, insState_vAt_gt y _ _ _ hrs k (by omega),
          show k + 1 - 1 = k from by omega, hk',
          insState_vAt_gt y _ _ _ hrs k' (by omega)]
        exact hadjT (k' + 1) (by omega) (by omega) (by omega)
    · rw [if_neg hCsp]
      dsimp only
      rw [if_pos hrSb]
      dsimp only
      have hpeq : y.sAt (y.RunFromPosition position) = position := by
        have h' : ¬ y.sAt (y.RunFromPosition position) < position := hCsp
        omega
      refine fillTail_inv y value end_ (y.RunFromPosition position) b hsy hleny hsenty
        hrSb hbm hsb (by omega) ?_ ?_
      · intro i h1 hi
        exact hadjT i h1 (by omega) (by omega)
      · intro i hbi hi1
        exact hadjT i (by omega) hi1 (by omega)

theorem fillRange_inv (rs : RunStyles) (h : rs.Inv) (position value fillLength : Int)
    (hpos : 0 ≤ position) : (rs.FillRange position value fillLength).2.Inv := by
  have hs := sInv_of_inv rs h
  have hm : 2 ≤ rs.entries := hs.1
  have hlen : rs.styles.length = rs.entries := h.2.1
  have hsent : rs.vAt (rs.entries - 1) = 0 := h.2.2.2.2.2.1
  have hnd : ∀ i, 1 ≤ i → i + 1 < rs.entries → rs.vAt i ≠ rs.vAt (i - 1) :=
    fun i h1 hi => h.2.2.2.2.2.2.1 i (by omega) h1 hi
  dsimp only [FillRange]
  by_cases h1 : fillLength ≤ 0
  · rw [if_pos h1]
    exact h
  · rw [if_neg h1]
    by_cases h2 : rs.Length < position + fillLength
    · rw [if_pos h2]
      exact h
    · rw [if_neg h2]
      have hpe : position < position + fillLength := by omega
      have hendT : position + fillLength ≤ rs.Length := by omega
      have hkey : rs.sAt (rs.RunFromPosition (position + fillLength)) ≤
            position + fillLength ∧
          position + fillLength ≤
            rs.sAt (rs.RunFromPosition (position + fillLength) + 1) ∧
          rs.RunFromPosition (position + fillLength) + 1 < rs.entries ∧
          (position + fillLength = rs.sAt (rs.RunFromPosition (position + fillLength) + 1) →
            rs.RunFromPosition (position + fillLength) + 2 = rs.entries) := by
        rcases lt_or_eq_of_le hendT with hlt | heq
        · obtain ⟨a1, a2, a3⟩ := rfp_bounds rs hs _ (by omega) hlt
          exact ⟨a1, le_of_lt a2, a3, fun hc => absurd hc (by omega)⟩
        · rw [rfp_last rs hs _ (le_of_eq heq.symm)]
          have hL := length_eq_sAt rs
          have hmono := mono_le rs hs (rs.entries - 2) (rs.entries - 1) (by omega) (by omega)
          refine ⟨by omega, ?_, by omega, fun _ => by omega⟩
          rw [show rs.entries - 2 + 1 = rs.entries - 1 from by omega]
          omega
      obtain ⟨hk1, hk2, hk3, hk4⟩ := hkey
      have hvale : rs.ValueAt (position + fillLength) =
          rs.vAt (rs.RunFromPosition (position + fillLength)) := by
        rcases lt_or_eq_of_le hendT with hlt | heq
        · obtain ⟨a1, a2, a3⟩ := rfp_bounds rs hs _ (by omega) hlt
          exact valueAt_run rs hs _ _ a1 a2 a3
        · rw [rfp_last rs hs _ (le_of_eq heq.symm)]
          exact valueAt_last rs hs _ (le_of_eq heq.symm)
      by_cases hA : rs.styles.getD (rs.RunFromPosition (position + fillLength)) 0 = value
      · rw [if_pos hA]
        by_cases htrim : rs.starts.positionFromPartition
            (rs.RunFromPosition (position + fillLength)) ≤ position
        · rw [if_pos htrim]
          exact h
        · rw [if_neg htrim]
          have hpe2 : position <
              rs.starts.positionFromPartition (rs.RunFromPosition (position + fillLength)) :=
            by
              have h' : ¬ rs.sAt (rs.RunFromPosition (position + fillLength)) ≤ position :=
                htrim
              omega
          exact fillCore_inv rs position value _ _ hs hlen hsent rfl hk3 hpos hpe2
            (Or.inl ⟨hA, hnd⟩)
      · rw [if_neg hA]
        by_cases hbd : rs.sAt (rs.RunFromPosition (position + fillLength)) <
            position + fillLength
        · rw [splitRun_insState rs _ hbd (by omega)]
          dsimp only
          have hrb : rs.RunFromPosition (position + fillLength) + 1 ≤
              rs.starts.body.length := by
            have hme : rs.entries = rs.starts.body.length := rfl
            omega
          have hrs2 : rs.RunFromPosition (position + fillLength) + 1 ≤ rs.styles.length :=
            by omega
          have hsyc := insState_sinv rs hs (rs.RunFromPosition (position + fillLength))
            (position + fillLength) hbd hk2 hk3 hk4 (rs.ValueAt (position + fillLength))
          refine fillCore_inv _ position value (position + fillLength)
            (rs.RunFromPosition (position + fillLength) + 1) hsyc ?_ ?_ ?_ ?_ hpos hpe
            (Or.inr (Or.inr ⟨?_, ?_, by omega, ?_⟩))
          · rw [insState_styles_length rs _ _ _ hrs2, insState_entries rs _ _ _ hrb, hlen]
          · rw [insState_entries rs _ _ _ hrb,
              show rs.entries + 1 - 1 = (rs.entries - 1) + 1 from by omega,
              insState_vAt_gt rs _ _ _ hrs2 (rs.entries - 1) (by omega)]
            exact hsent
          · rw [insState_sAt_mid rs _ _ _ hrb]
          · rw [insState_entries rs _ _ _ hrb]
            omega
          · rw [insState_vAt_mid rs _ _ _ hrs2, hvale]
            exact hA
          · rw [show rs.RunFromPosition (position + fillLength) + 1 - 1 =
                rs.RunFromPosition (position + fillLength) from by omega,
              insState_vAt_le rs _ _ _ hrs2 _ (by omega),
              insState_vAt_mid rs _ _ _ hrs2, hvale]
          · intro i h1 hi hib
            rw [insState_entries rs _ _ _ hrb] at hi
            by_cases hile : i ≤ rs.RunFromPosition (position + fillLength)
            · rw [insState_vAt_le rs _ _ _ hrs2 i (by omega),
                insState_vAt_le rs _ _ _ hrs2 (i - 1) (by omega)]
              exact hnd i h1 (by omega)
            · by_cases hi2 : i = rs.RunFromPosition (position + fillLength) + 2
              · rw [hi2, show rs.RunFromPosition (position + fillLength) + 2 =
                    (rs.RunFromPosition (position + fillLength) + 1) + 1 from rfl,
                  insState_vAt_gt rs _ _ _ hrs2 _ (by omega),
                  show rs.RunFromPosition (position + fillLength) + 1 + 1 - 1 =
                    rs.RunFromPosition (position + fillLength) + 1 from by omega,
                  insState_vAt_mid rs _ _ _ hrs2, hvale]
                exact hnd (rs.RunFromPosition (position + fillLength) + 1) (by omega)
                  (by omega)
              · obtain ⟨k, hk⟩ : ∃ k, i = k + 1 := ⟨i - 1, by omega⟩
                obtain ⟨k', hk'⟩ : ∃ k', k = k' + 1 := ⟨k - 1, by omega⟩
                rw [hk, insState_vAt_gt rs _ _ _ hrs2 k (by omega),
                  show k + 1 - 1 = k from by omega, hk',
                  insState_vAt_gt rs _ _ _ hrs2 k' (by omega)]
                exact hnd (k' + 1) (by omega) (by omega)
        · have hbde : rs.sAt (rs.RunFromPosition (position + fillLength)) =
              position + fillLength := by omega
          rw [splitRun_boundary rs _ hbde]
          dsimp only
          exact fillCore_inv rs position value (position + fillLength) _ hs hlen hsent hbde
            hk3 hpos hpe (Or.inr (Or.inl ⟨hA, hnd⟩))

theorem removeRun_cutState (rs : RunStyles) (r : Nat) (h : r + 1 ≤ rs.styles.length) :
    rs.RemoveRun r = rs.cutState r (r + 1) := by
  rw [removeRun_eraseIdx rs r h]
  show (⟨⟨rs.starts.body.eraseIdx r⟩, rs.styles.eraseIdx r⟩ : RunStyles) = _
  rw [listEraseIdx_eq, listEraseIdx_eq]
  rfl

theorem inv_cut_shift (z : RunStyles) (position deleteLength : Int) (a b : Nat)
    (hsz : z.SInv) (hlenz : z.styles.length = z.entries)
    (hsentz : z.vAt (z.entries - 1) = 0)
    (hab : a < b) (hbm : b + 1 ≤ z.entries)
    (hm2 : 2 ≤ a + (z.entries - b))
    (hdl : 0 < deleteLength)
    (hsa : z.sAt a = position)
    (hge : position + deleteLength ≤ z.sAt b)
    (hh0 : a = 0 → z.sAt b = position + deleteLength ∧ position = 0)
    (hcrossS : 1 ≤ a → z.sAt (a - 1) < position)
    (hvpreC : ∀ i, 1 ≤ i → i + 1 ≤ a → z.vAt i ≠ z.vAt (i - 1))
    (hvcrossC : 1 ≤ a → b + 2 ≤ z.entries → z.vAt b ≠ z.vAt (a - 1))
    (hvsufC : ∀ i, b < i → i + 2 ≤ z.entries → z.vAt i ≠ z.vAt (i - 1)) :
    ((⟨z.starts.insertText a (-deleteLength), z.styles⟩ : RunStyles).cutState a b).Inv := by
  obtain ⟨hm, h0z, hmono, hstrong, hdupz⟩ := hsz
  have hme : z.entries = z.starts.body.length := rfl
  have he3 : (⟨z.starts.insertText a (-deleteLength), z.styles⟩ : RunStyles).entries =
      z.entries := insertText_entries z a (-deleteLength)
  have hce : ((⟨z.starts.insertText a (-deleteLength), z.styles⟩ : RunStyles).cutState
      a b).entries = a + (z.entries - b) := by
    have h1 := cutState_entries (⟨z.starts.insertText a (-deleteLength), z.styles⟩) a b
      (by rw [he3]; omega) (by rw [he3]; omega)
    rw [he3] at h1
    exact h1
  have hcl : ((⟨z.starts.insertText a (-deleteLength), z.styles⟩ : RunStyles).cutState
      a b).styles.length = a + (z.entries - b) := by
    have h1 := cutState_styles_length (⟨z.starts.insertText a (-deleteLength), z.styles⟩) a b
      (by rw [he3]; exact hlenz) (by rw [he3]; omega) (by rw [he3]; omega)
    rw [he3] at h1
    exact h1
  have hFp : ∀ j, j < a →
      ((⟨z.starts.insertText a (-deleteLength), z.styles⟩ : RunStyles).cutState a b).sAt j =
      z.sAt j := by
    intro j hja
    rw [cutState_sAt _ a b (by rw [he3]; omega) j, if_pos hja,
      insertText_sAt z a (-deleteLength) j, if_neg (by omega)]
  have hFs : ∀ j, a ≤ j → b + (j - a) < z.entries →
      ((⟨z.starts.insertText a (-deleteLength), z.styles⟩ : RunStyles).cutState a b).sAt j =
      z.sAt (b + (j - a)) + -deleteLength := by
    intro j hja hjr
    rw [cutState_sAt _ a b (by rw [he3]; omega) j, if_neg (by omega),
      insertText_sAt z a (-deleteLength) (b + (j - a)), if_pos ⟨by omega, hjr⟩]
  have hFv : ∀ j,
      ((⟨z.starts.insertText a (-deleteLength), z.styles⟩ : RunStyles).cutState a b).vAt j =
      if j < a then z.vAt j else z.vAt (b + (j - a)) := by
    intro j
    rw [cutState_vAt (⟨z.starts.insertText a (-deleteLength), z.styles⟩ : RunStyles) a b
      (show a ≤ z.styles.length from by omega) j]
    rfl
  refine ⟨?_, ?_, ?_, ?_, ?_, ?_, ?_, ?_⟩
  · rw [hce]
    exact hm2
  · rw [hcl, hce]
  · by_cases ha0 : a = 0
    · have h2 := hFs 0 (by omega) (by omega)
      rw [show b + (0 - a) = b from by omega] at h2
      rw [h2]
      have := hh0 ha0
      omega
    · rw [hFp 0 (by omega)]
      exact h0z
  · intro j hj hj1
    rw [hce] at hj hj1
    by_cases hc1 : j + 1 < a
    · rw [hFp j (by omega), hFp (j + 1) (by omega)]
      exact hmono j (by omega) (by omega)
    · by_cases hc2 : j + 1 = a
      · have h2 := hFs (j + 1) (by omega) (by omega)
        rw [show b + (j + 1 - a) = b from by omega] at h2
        have h3 := hcrossS (by omega)
        rw [show a - 1 = j from by omega] at h3
        rw [hFp j (by omega), h2]
        omega
      · have h2 := hFs j (by omega) (by omega)
        have h4 := hFs (j + 1) (by omega) (by omega)
        rw [show b + (j + 1 - a) = b + (j - a) + 1 from by omega] at h4
        have h5 := hmono (b + (j - a)) (by omega) (by omega)
        rw [h2, h4]
        omega
  · intro j hj hj2
    rw [hce] at hj hj2
    by_cases hc1 : j + 2 < a
    · rw [hFp j (by omega), hFp (j + 2) (by omega)]
      exact hstrong j (by omega) (by omega)
    · by_cases hc2 : j + 2 = a
      · have h2 := hFs (j + 2) (by omega) (by omega)
        rw [show b + (j + 2 - a) = b from by omega] at h2
        have h3 := hcrossS (by omega)
        have h4 := hmono j (by omega) (by omega)
        rw [show j + 1 = a - 1 from by omega] at h4
        rw [hFp j (by omega), h2]
        omega
      · by_cases hc3 : j + 1 = a
        · have h2 := hFs (j + 2) (by omega) (by omega)
          rw [show b + (j + 2 - a) = b + 1 from by omega] at h2
          have h3 := hcrossS (by omega)
          rw [show a - 1 = j from by omega] at h3
          have h5 := hmono b (by omega) (by omega)
          rw [hFp j (by omega), h2]
          omega
        · have h2 := hFs j (by omega) (by omega)
          have h4 := hFs (j + 2) (by omega) (by omega)
          rw [show b + (j + 2 - a) = b + (j - a) + 2 from by omega] at h4
          have h5 := hstrong (b + (j - a)) (by omega) (by omega)
          rw [h2, h4]
          omega
  · have h2 := hFv (a + (z.entries - b) - 1)
    rw [if_neg (by omega),
      show b + (a + (z.entries - b) - 1 - a) = z.entries - 1 from by omega] at h2
    rw [hce, h2]
    exact hsentz
  · intro i hi h1i hi1
    rw [hce] at hi hi1
    have h2 := hFv i
    have h3 := hFv (i - 1)
    by_cases hc1 : i < a
    · rw [if_pos hc1] at h2
      rw [if_pos (by omega)] at h3
      rw [h2, h3]
      exact hvpreC i h1i (by omega)
    · by_cases hc2 : i = a
      · rw [if_neg hc1, show b + (i - a) = b from by omega] at h2
        rw [if_pos (by omega)] at h3
        rw [h2, h3, show i - 1 = a - 1 from by omega]
        exact hvcrossC (by omega) (by omega)
      · rw [if_neg hc1] at h2
        rw [if_neg (by omega), show b + (i - 1 - a) = b + (i - a) - 1 from by omega] at h3
        rw [h2, h3]
        exact hvsufC (b + (i - a)) (by omega) (by omega)
  · intro i hi hi1 heq
    rw [hce] at hi hi1
    by_cases hc1 : i + 1 < a
    · rw [hFp i (by omega), hFp (i + 1) (by omega)] at heq
      have h5 := strict_pair z ⟨hm, h0z, hmono, hstrong, hdupz⟩ i (by omega)
      omega
    · by_cases hc2 : i + 1 = a
      · have h2 := hFs (i + 1) (by omega) (by omega)
        rw [show b + (i + 1 - a) = b from by omega] at h2
        have h3 := hcrossS (by omega)
        rw [show a - 1 = i from by omega] at h3
        rw [hFp i (by omega), h2] at heq
        omega
      · have h2 := hFs i (by omega) (by omega)
        have h4 := hFs (i + 1) (by omega) (by omega)
        rw [show b + (i + 1 - a) = b + (i - a) + 1 from by omega] at h4
        rw [h2, h4] at heq
        have h5 := hdupz (b + (i - a)) (by omega) (by omega) (by omega)
        omega

theorem deleteTail_inv (z : RunStyles) (position deleteLength : Int) (A1 B1 : Nat)
    (hsz : z.SInv) (hlenz : z.styles.length = z.entries)
    (hsentz : z.vAt (z.entries - 1) = 0)
    (hAB : A1 < B1) (hBm : B1 + 2 ≤ z.entries)
    (hdl : 0 < deleteLength)
    (hsA : z.sAt A1 = position)
    (hsB : z.sAt B1 = position + deleteLength)
    (h0A : A1 = 0 → position = 0)
    (hvpreD : ∀ i, 1 ≤ i → i + 1 ≤ A1 → z.vAt i ≠ z.vAt (i - 1))
    (hvsufD : ∀ i, B1 < i → i + 2 ≤ z.entries → z.vAt i ≠ z.vAt (i - 1)) :
    ((((⟨z.starts.insertText A1 (-deleteLength), z.styles⟩ : RunStyles).removeRuns A1
      (B1 - A1)).RemoveRunIfEmpty A1).RemoveRunIfSameAsPrevious A1).Inv := by
  have hm : 2 ≤ z.entries := hsz.1
  have hme : z.entries = z.starts.body.length := rfl
  have hzbl : (⟨z.starts.insertText A1 (-deleteLength), z.styles⟩ : RunStyles).starts.body.length
      = z.entries := insertText_entries z A1 (-deleteLength)
  have hzsl : (⟨z.starts.insertText A1 (-deleteLength), z.styles⟩ : RunStyles).styles.length
      = z.entries := hlenz
  have hremEq : (⟨z.starts.insertText A1 (-deleteLength), z.styles⟩ : RunStyles).removeRuns A1
      (B1 - A1) =
      (⟨z.starts.insertText A1 (-deleteLength), z.styles⟩ : RunStyles).cutState A1 B1 := by
    rw [removeRuns_eq _ A1 (B1 - A1) (by rw [hzbl]; omega) (by rw [hzsl]; omega),
      show A1 + (B1 - A1) = B1 from by omega]
    rfl
  rw [hremEq]
  have hceC : ((⟨z.starts.insertText A1 (-deleteLength), z.styles⟩ : RunStyles).cutState
      A1 B1).entries = A1 + (z.entries - B1) := by
    have h1 := cutState_entries (⟨z.starts.insertText A1 (-deleteLength), z.styles⟩) A1 B1
      (by rw [show (⟨z.starts.insertText A1 (-deleteLength), z.styles⟩ : RunStyles).entries
        = z.entries from hzbl]; omega)
      (by rw [show (⟨z.starts.insertText A1 (-deleteLength), z.styles⟩ : RunStyles).entries
        = z.entries from hzbl]; omega)
    rw [show (⟨z.starts.insertText A1 (-deleteLength), z.styles⟩ : RunStyles).entries
      = z.entries from hzbl] at h1
    exact h1
  have hpartC : ((⟨z.starts.insertText A1 (-deleteLength), z.styles⟩ : RunStyles).cutState
      A1 B1).starts.partitions = A1 + (z.entries - B1) - 1 := by
    show ((⟨z.starts.insertText A1 (-deleteLength), z.styles⟩ : RunStyles).cutState
      A1 B1).entries - 1 = _
    rw [hceC]
  have hsat := fun j => cutState_sAt (⟨z.starts.insertText A1 (-deleteLength), z.styles⟩)
    A1 B1 (by rw [show (⟨z.starts.insertText A1 (-deleteLength), z.styles⟩ :
      RunStyles).entries = z.entries from hzbl]; omega) j
  have hs4A : ((⟨z.starts.insertText A1 (-deleteLength), z.styles⟩ : RunStyles).cutState
      A1 B1).sAt A1 = z.sAt B1 + -deleteLength := by
    rw [hsat A1, if_neg (by omega), show B1 + (A1 - A1) = B1 from by omega,
      insertText_sAt z A1 (-deleteLength) B1, if_pos ⟨hAB, by omega⟩]
  have hs4A1 : ((⟨z.starts.insertText A1 (-deleteLength), z.styles⟩ : RunStyles).cutState
      A1 B1).sAt (A1 + 1) = z.sAt (B1 + 1) + -deleteLength := by
    rw [hsat (A1 + 1), if_neg (by omega), show B1 + (A1 + 1 - A1) = B1 + 1 from by omega,
      insertText_sAt z A1 (-deleteLength) (B1 + 1), if_pos ⟨by omega, by omega⟩]
  have hcv : ∀ j, ((⟨z.starts.insertText A1 (-deleteLength), z.styles⟩ : RunStyles).cutState
      A1 B1).vAt j = if j < A1 then z.vAt j else z.vAt (B1 + (j - A1)) := by
    intro j
    rw [cutState_vAt (⟨z.starts.insertText A1 (-deleteLength), z.styles⟩ : RunStyles) A1 B1
      (show A1 ≤ z.styles.length from by omega) j]
    rfl
  have hcrossD : 1 ≤ A1 → z.sAt (A1 - 1) < position := by
    intro h1
    have hstr := strict_pair z hsz (A1 - 1) (by omega)
    rw [show A1 - 1 + 1 = A1 from by omega] at hstr
    omega
  by_cases hzd : z.sAt (B1 + 1) = position + deleteLength
  · have hb12 : B1 + 2 = z.entries :=
      hsz.2.2.2.2 B1 (by omega) (by omega) (by rw [hsB, hzd])
    by_cases hA0 : A1 = 0
    · dsimp only [RemoveRunIfEmpty]
      rw [if_neg (show ¬(A1 < ((⟨z.starts.insertText A1 (-deleteLength), z.styles⟩ :
        RunStyles).cutState A1 B1).starts.partitions ∧
        1 < ((⟨z.starts.insertText A1 (-deleteLength), z.styles⟩ :
        RunStyles).cutState A1 B1).starts.partitions) from by rw [hpartC]; omega)]
      dsimp only [RemoveRunIfSameAsPrevious]
      rw [if_neg (show ¬(0 < A1 ∧ A1 < ((⟨z.starts.insertText A1 (-deleteLength),
        z.styles⟩ : RunStyles).cutState A1 B1).starts.partitions) from by omega)]
      exact inv_cut_shift z position deleteLength A1 B1 hsz hlenz hsentz hAB (by omega)
        (by omega) hdl hsA (le_of_eq hsB.symm) (fun _ => ⟨hsB, h0A hA0⟩) hcrossD
        hvpreD (fun h1 _ => absurd h1 (by omega)) hvsufD
    · dsimp only [RemoveRunIfEmpty]
      rw [if_pos (show A1 < ((⟨z.starts.insertText A1 (-deleteLength), z.styles⟩ :
        RunStyles).cutState A1 B1).starts.partitions ∧
        1 < ((⟨z.starts.insertText A1 (-deleteLength), z.styles⟩ :
        RunStyles).cutState A1 B1).starts.partitions from by rw [hpartC]; omega)]
      rw [if_pos (show ((⟨z.starts.insertText A1 (-deleteLength), z.styles⟩ :
        RunStyles).cutState A1 B1).starts.positionFromPartition A1 =
        ((⟨z.starts.insertText A1 (-deleteLength), z.styles⟩ :
        RunStyles).cutState A1 B1).starts.positionFromPartition (A1 + 1) from by
          show ((⟨z.starts.insertText A1 (-deleteLength), z.styles⟩ :
            RunStyles).cutState A1 B1).sAt A1 = ((⟨z.starts.insertText A1 (-deleteLength),
            z.styles⟩ : RunStyles).cutState A1 B1).sAt (A1 + 1)
          rw [hs4A, hs4A1, hsB, hzd])]
      rw [cutState_removeRun_suffixFirst (⟨z.starts.insertText A1 (-deleteLength),
        z.styles⟩) A1 B1 (by rw [hzbl]; omega) (by rw [hzsl]; omega)
        (by rw [hzbl]; omega) (by rw [hzsl]; omega)]
      have hceC2 : ((⟨z.starts.insertText A1 (-deleteLength), z.styles⟩ :
          RunStyles).cutState A1 (B1 + 1)).entries = A1 + (z.entries - (B1 + 1)) := by
        have h1 := cutState_entries (⟨z.starts.insertText A1 (-deleteLength), z.styles⟩)
          A1 (B1 + 1)
          (by rw [show (⟨z.starts.insertText A1 (-deleteLength), z.styles⟩ :
            RunStyles).entries = z.entries from hzbl]; omega)
          (by rw [show (⟨z.starts.insertText A1 (-deleteLength), z.styles⟩ :
            RunStyles).entries = z.entries from hzbl]; omega)
        rw [show (⟨z.starts.insertText A1 (-deleteLength), z.styles⟩ :
          RunStyles).entries = z.entries from hzbl] at h1
        exact h1
      have hpartC2 : ((⟨z.starts.insertText A1 (-deleteLength), z.styles⟩ :
          RunStyles).cutState A1 (B1 + 1)).starts.partitions =
          A1 + (z.entries - (B1 + 1)) - 1 := by
        show ((⟨z.starts.insertText A1 (-deleteLength), z.styles⟩ :
          RunStyles).cutState A1 (B1 + 1)).entries - 1 = _
        rw [hceC2]
      dsimp only [RemoveRunIfSameAsPrevious]
      rw [if_neg (show ¬(0 < A1 ∧ A1 < ((⟨z.starts.insertText A1 (-deleteLength),
        z.styles⟩ : RunStyles).cutState A1 (B1 + 1)).starts.partitions) from by
          rw [hpartC2]; omega)]
      exact inv_cut_shift z position deleteLength A1 (B1 + 1) hsz hlenz hsentz (by omega)
        (by omega) (by omega) hdl hsA (le_of_eq hzd.symm)
        (fun h0 => absurd h0 (by omega)) hcrossD hvpreD
        (fun _ h2 => absurd h2 (by omega)) (fun i hi hi2 => hvsufD i (by omega) hi2)
  · have hstrictB : position + deleteLength < z.sAt (B1 + 1) := by
      have := hsz.2.2.1 B1 (by omega) (by omega)
      omega
    have hneC : ¬ ((⟨z.starts.insertText A1 (-deleteLength), z.styles⟩ :
        RunStyles).cutState A1 B1).starts.positionFromPartition A1 =
        ((⟨z.starts.insertText A1 (-deleteLength), z.styles⟩ :
        RunStyles).cutState A1 B1).starts.positionFromPartition (A1 + 1) := by
      show ¬ ((⟨z.starts.insertText A1 (-deleteLength), z.styles⟩ :
        RunStyles).cutState A1 B1).sAt A1 = ((⟨z.starts.insertText A1 (-deleteLength),
        z.styles⟩ : RunStyles).cutState A1 B1).sAt (A1 + 1)
      rw [hs4A, hs4A1]
      omega
    by_cases hA0 : A1 = 0
    · have hfinal0 : ((⟨z.starts.insertText A1 (-deleteLength), z.styles⟩ :
          RunStyles).cutState A1 B1).Inv :=
        inv_cut_shift z position deleteLength A1 B1 hsz hlenz hsentz hAB (by omega)
          (by omega) hdl hsA (le_of_eq hsB.symm) (fun _ => ⟨hsB, h0A hA0⟩) hcrossD
          hvpreD (fun h1 _ => absurd h1 (by omega)) hvsufD
      dsimp only [RemoveRunIfEmpty]
      by_cases ho : A1 < ((⟨z.starts.insertText A1 (-deleteLength), z.styles⟩ :
          RunStyles).cutState A1 B1).starts.partitions ∧
          1 < ((⟨z.starts.insertText A1 (-deleteLength), z.styles⟩ :
          RunStyles).cutState A1 B1).starts.partitions
      · rw [if_pos ho, if_neg hneC]
        dsimp only [RemoveRunIfSameAsPrevious]
        rw [if_neg (show ¬(0 < A1 ∧ A1 < ((⟨z.starts.insertText A1 (-deleteLength),
          z.styles⟩ : RunStyles).cutState A1 B1).starts.partitions) from by omega)]
        exact hfinal0
      · rw [if_neg ho]
        dsimp only [RemoveRunIfSameAsPrevious]
        rw [if_neg (show ¬(0 < A1 ∧ A1 < ((⟨z.starts.insertText A1 (-deleteLength),
          z.styles⟩ : RunStyles).cutState A1 B1).starts.partitions) from by omega)]
        exact hfinal0
    · dsimp only [RemoveRunIfEmpty]
      rw [if_pos (show A1 < ((⟨z.starts.insertText A1 (-deleteLength), z.styles⟩ :
        RunStyles).cutState A1 B1).starts.partitions ∧
        1 < ((⟨z.starts.insertText A1 (-deleteLength), z.styles⟩ :
        RunStyles).cutState A1 B1).starts.partitions from by rw [hpartC]; omega)]
      rw [if_neg hneC]
      dsimp only [RemoveRunIfSameAsPrevious]
      rw [if_pos (show 0 < A1 ∧ A1 < ((⟨z.starts.insertText A1 (-deleteLength),
        z.styles⟩ : RunStyles).cutState A1 B1).starts.partitions from
        ⟨by omega, by rw [hpartC]; omega⟩)]
      by_cases hmerge : ((⟨z.starts.insertText A1 (-deleteLength), z.styles⟩ :
          RunStyles).cutState A1 B1).styles.getD (A1 - 1) 0 =
          ((⟨z.starts.insertText A1 (-deleteLength), z.styles⟩ :
          RunStyles).cutState A1 B1).styles.getD A1 0
      · rw [if_pos hmerge]
        have hmz : z.vAt (A1 - 1) = z.vAt B1 := by
          have hmv : ((⟨z.starts.insertText A1 (-deleteLength), z.styles⟩ :
              RunStyles).cutState A1 B1).vAt (A1 - 1) =
              ((⟨z.starts.insertText A1 (-deleteLength), z.styles⟩ :
              RunStyles).cutState A1 B1).vAt A1 := hmerge
          rw [hcv (A1 - 1), if_pos (by omega), hcv A1, if_neg (by omega),
            show B1 + (A1 - A1) = B1 from by omega] at hmv
          exact hmv
        rw [cutState_removeRun_suffixFirst (⟨z.starts.insertText A1 (-deleteLength),
          z.styles⟩) A1 B1 (by rw [hzbl]; omega) (by rw [hzsl]; omega)
          (by rw [hzbl]; omega) (by rw [hzsl]; omega)]
        refine inv_cut_shift z position deleteLength A1 (B1 + 1) hsz hlenz hsentz
          (by omega) (by omega) (by omega) hdl hsA (le_of_lt hstrictB)
          (fun h0 => absurd h0 (by omega)) hcrossD hvpreD ?_
          (fun i hi hi2 => hvsufD i (by omega) hi2)
        intro _ h2 hcontra
        have h9 := hvsufD (B1 + 1) (by omega) h2
        rw [show B1 + 1 - 1 = B1 from by omega] at h9
        exact h9 (hcontra.trans hmz)
      · rw [if_neg hmerge]
        have hmzne : z.vAt B1 ≠ z.vAt (A1 - 1) := by
          intro hcontra
          apply hmerge
          show ((⟨z.starts.insertText A1 (-deleteLength), z.styles⟩ :
            RunStyles).cutState A1 B1).vAt (A1 - 1) =
            ((⟨z.starts.insertText A1 (-deleteLength), z.styles⟩ :
            RunStyles).cutState A1 B1).vAt A1
          rw [hcv (A1 - 1), if_pos (by omega), hcv A1, if_neg (by omega),
            show B1 + (A1 - A1) = B1 from by omega]
          exact hcontra.symm
        exact inv_cut_shift z position deleteLength A1 B1 hsz hlenz hsentz hAB (by omega)
          (by omega) hdl hsA (le_of_eq hsB.symm) (fun h0 => absurd h0 (by omega)) hcrossD
          hvpreD (fun _ _ => hmzne) hvsufD

theorem deleteRange_inv (rs : RunStyles) (h : rs.Inv) (position deleteLength : Int)
    (hpos : 0 ≤ position) (hdl : 0 < deleteLength)
    (hub : position + deleteLength ≤ rs.Length) :
    (rs.DeleteRange position deleteLength).Inv := by
  have hs := sInv_of_inv rs h
  have hm : 2 ≤ rs.entries := hs.1
  have hme : rs.entries = rs.starts.body.length := rfl
  have hlen : rs.styles.length = rs.entries := h.2.1
  have hsent : rs.vAt (rs.entries - 1) = 0 := h.2.2.2.2.2.1
  have hnd : ∀ i, 1 ≤ i → i + 1 < rs.entries → rs.vAt i ≠ rs.vAt (i - 1) :=
    fun i h1 hi => h.2.2.2.2.2.2.1 i (by omega) h1 hi
  have hpT : position < rs.Length := by omega
  obtain ⟨hp1, hp2, hp3⟩ := rfp_bounds rs hs position hpos hpT
  have hkey : rs.sAt (rs.RunFromPosition (position + deleteLength)) ≤
        position + deleteLength ∧
      position + deleteLength ≤
        rs.sAt (rs.RunFromPosition (position + deleteLength) + 1) ∧
      rs.RunFromPosition (position + deleteLength) + 1 < rs.entries ∧
      (position + deleteLength = rs.sAt (rs.RunFromPosition (position + deleteLength) + 1) →
        rs.RunFromPosition (position + deleteLength) + 2 = rs.entries) := by
    rcases lt_or_eq_of_le hub with hlt | heq
    · obtain ⟨a1, a2, a3⟩ := rfp_bounds rs hs _ (by omega) hlt
      exact ⟨a1, le_of_lt a2, a3, fun hc => absurd hc (by omega)⟩
    · rw [rfp_last rs hs _ (le_of_eq heq.symm)]
      have hL := length_eq_sAt rs
      have hmono := mono_le rs hs (rs.entries - 2) (rs.entries - 1) (by omega) (by omega)
      refine ⟨by omega, ?_, by omega, fun _ => by omega⟩
      rw [show rs.entries - 2 + 1 = rs.entries - 1 from by omega]
      omega
  obtain ⟨hk1, hk2, hk3, hk4⟩ := hkey
  have hvale : rs.ValueAt (position + deleteLength) =
      rs.vAt (rs.RunFromPosition (position + deleteLength)) := by
    rcases lt_or_eq_of_le hub with hlt | heq
    · obtain ⟨a1, a2, a3⟩ := rfp_bounds rs hs _ (by omega) hlt
      exact valueAt_run rs hs _ _ a1 a2 a3
    · rw [rfp_last rs hs _ (le_of_eq heq.symm)]
      exact valueAt_last rs hs _ (le_of_eq heq.symm)
  have hrSrE : rs.RunFromPosition position ≤ rs.RunFromPosition (position + deleteLength) := by
    by_contra hcon
    have hmo := mono_le rs hs (rs.RunFromPosition (position + deleteLength) + 1)
      (rs.RunFromPosition position) (by omega) (by omega)
    omega
  dsimp only [DeleteRange]
  by_cases hEq : rs.RunFromPosition position = rs.RunFromPosition (position + deleteLength)
  · rw [if_pos hEq]
    rw [← hEq] at hk1 hk2 hk3 hk4
    have hSInv1 : (⟨rs.starts.insertText (rs.RunFromPosition position) (-deleteLength),
        rs.styles⟩ : RunStyles).SInv := by
      refine ⟨?_, ?_, ?_, ?_, ?_⟩
      · rw [insertText_entries]
        exact hm
      · rw [insertText_sAt, if_neg (by omega)]
        exact hs.2.1
      · intro j hj hj1
        rw [insertText_entries] at hj hj1
        rw [insertText_sAt, insertText_sAt]
        by_cases hc1 : j + 1 ≤ rs.RunFromPosition position
        · rw [if_neg (by omega), if_neg (by omega)]
          exact hs.2.2.1 j (by omega) (by omega)
        · by_cases hc2 : j = rs.RunFromPosition position
          · rw [hc2, if_neg (by omega), if_pos ⟨by omega, by omega⟩]
            omega
          · rw [if_pos ⟨by omega, by omega⟩, if_pos ⟨by omega, by omega⟩]
            have := hs.2.2.1 j (by omega) (by omega)
            omega
      · intro j hj hj2
        rw [insertText_entries] at hj hj2
        rw [insertText_sAt, insertText_sAt]
        by_cases hc1 : j + 2 ≤ rs.RunFromPosition position
        · rw [if_neg (by omega), if_neg (by omega)]
          exact hs.2.2.2.1 j (by omega) (by omega)
        · by_cases hc2 : j + 2 = rs.RunFromPosition position + 1
          · have hstr := strict_pair rs hs j (by omega)
            rw [show j + 1 = rs.RunFromPosition position from by omega] at hstr
            rw [if_neg (by omega), if_pos ⟨by omega, by omega⟩,
              show j + 2 = rs.RunFromPosition position + 1 from hc2]
            omega
          · by_cases hc3 : j = rs.RunFromPosition position
            · rw [hc3, if_neg (by omega), if_pos ⟨by omega, by omega⟩]
              have hmono1 := hs.2.2.1 (rs.RunFromPosition position + 1) (by omega)
                (by omega)
              rw [show rs.RunFromPosition position + 1 + 1 =
                rs.RunFromPosition position + 2 from rfl] at hmono1
              by_cases hE2 : position + deleteLength =
                  rs.sAt (rs.RunFromPosition position + 1)
              · have := hk4 hE2
                omega
              · omega
            · rw [if_pos ⟨by omega, by omega⟩, if_pos ⟨by omega, by omega⟩]
              have := hs.2.2.2.1 j (by omega) (by omega)
              omega
      · intro j hj hj1 heq
        rw [insertText_entries] at hj hj1
        rw [insertText_entries]
        rw [insertText_sAt, insertText_sAt] at heq
        by_cases hc1 : j + 1 ≤ rs.RunFromPosition position
        · rw [if_neg (by omega), if_neg (by omega)] at heq
          have := hs.2.2.2.2 j (by omega) (by omega) heq
          omega
        · by_cases hc2 : j = rs.RunFromPosition position
          · rw [hc2] at heq ⊢
            rw [if_neg (by omega), if_pos ⟨by omega, by omega⟩] at heq
            have hE2 : position + deleteLength =
                rs.sAt (rs.RunFromPosition position + 1) := by omega
            exact hk4 hE2
          · rw [if_pos ⟨by omega, by omega⟩, if_pos ⟨by omega, by omega⟩] at heq
            have heq2 : rs.sAt j = rs.sAt (j + 1) := by omega
            exact hs.2.2.2.2 j (by omega) (by omega) heq2
    have hInv1 : (⟨rs.starts.insertText (rs.RunFromPosition position) (-deleteLength),
        rs.styles⟩ : RunStyles).Inv := by
      refine inv_of_parts _ hSInv1 ?_ ?_ ?_
      · rw [insertText_entries]
        exact hlen
      · rw [insertText_entries]
        exact hsent
      · intro i h1 hi
        rw [insertText_entries] at hi
        exact hnd i h1 hi
    have hpart1 : (⟨rs.starts.insertText (rs.RunFromPosition position) (-deleteLength),
        rs.styles⟩ : RunStyles).starts.partitions = rs.entries - 1 := by
      show (⟨rs.starts.insertText (rs.RunFromPosition position) (-deleteLength),
        rs.styles⟩ : RunStyles).entries - 1 = _
      rw [insertText_entries]
    dsimp only [RemoveRunIfEmpty]
    by_cases ho : rs.RunFromPosition position <
        (⟨rs.starts.insertText (rs.RunFromPosition position) (-deleteLength),
          rs.styles⟩ : RunStyles).starts.partitions ∧
        1 < (⟨rs.starts.insertText (rs.RunFromPosition position) (-deleteLength),
          rs.styles⟩ : RunStyles).starts.partitions
    · rw [if_pos ho]
      by_cases hemp : (⟨rs.starts.insertText (rs.RunFromPosition position)
          (-deleteLength), rs.styles⟩ : RunStyles).starts.positionFromPartition
          (rs.RunFromPosition position) =
          (⟨rs.starts.insertText (rs.RunFromPosition position) (-deleteLength),
          rs.styles⟩ : RunStyles).starts.positionFromPartition
          (rs.RunFromPosition position + 1)
      · rw [if_pos hemp]
        have hempS : (⟨rs.starts.insertText (rs.RunFromPosition position)
            (-deleteLength), rs.styles⟩ : RunStyles).sAt (rs.RunFromPosition position) =
            (⟨rs.starts.insertText (rs.RunFromPosition position) (-deleteLength),
            rs.styles⟩ : RunStyles).sAt (rs.RunFromPosition position + 1) := hemp
        rw [insertText_sAt, if_neg (by omega), insertText_sAt,
          if_pos ⟨by omega, by omega⟩] at hempS
        have hE2 : position + deleteLength =
            rs.sAt (rs.RunFromPosition position + 1) := by omega
        have hfirst : rs.sAt (rs.RunFromPosition position) = position := by omega
        have hm2e := hk4 hE2
        have ho2 : 1 < rs.entries - 1 := by
          have := ho.2
          rw [hpart1] at this
          exact this
        rw [removeRun_cutState (⟨rs.starts.insertText (rs.RunFromPosition position)
          (-deleteLength), rs.styles⟩ : RunStyles) (rs.RunFromPosition position)
          (show rs.RunFromPosition position + 1 ≤ rs.styles.length from by omega)]
        exact inv_cut_shift rs position deleteLength (rs.RunFromPosition position)
          (rs.RunFromPosition position + 1) hs hlen hsent (by omega) (by omega)
          (by omega) hdl hfirst (le_of_eq hE2)
          (fun h0 => absurd h0 (by omega))
          (by
            intro h1
            have hstr := strict_pair rs hs (rs.RunFromPosition position - 1) (by omega)
            rw [show rs.RunFromPosition position - 1 + 1 =
              rs.RunFromPosition position from by omega] at hstr
            omega)
          (fun i h1 hi => hnd i h1 (by omega))
          (fun _ hcond => absurd hcond (by omega))
          (fun i hi hi2 => hnd i (by omega) (by omega))
      · rw [if_neg hemp]
        exact hInv1
    · rw [if_neg ho]
      exact hInv1
  · rw [if_neg hEq]
    have hrSltrE : rs.RunFromPosition position <
        rs.RunFromPosition (position + deleteLength) :=
      lt_of_le_of_ne hrSrE hEq
    by_cases hsp1 : rs.sAt (rs.RunFromPosition position) < position
    · rw [splitRun_insState rs position hsp1 (by omega)]
      dsimp only
      have hrb1 : rs.RunFromPosition position + 1 ≤ rs.starts.body.length := by omega
      have hrs1 : rs.RunFromPosition position + 1 ≤ rs.styles.length := by omega
      have hsy : (rs.insState (rs.RunFromPosition position) position
          (rs.ValueAt position)).SInv :=
        insState_sinv rs hs _ position hsp1 (le_of_lt hp2) hp3
          (fun hc => absurd hc (by omega)) _
      have hye : (rs.insState (rs.RunFromPosition position) position
          (rs.ValueAt position)).entries = rs.entries + 1 :=
        insState_entries rs _ _ _ hrb1
      have hybl : (rs.insState (rs.RunFromPosition position) position
          (rs.ValueAt position)).starts.body.length = rs.entries + 1 := hye
      have hysl : (rs.insState (rs.RunFromPosition position) position
          (rs.ValueAt position)).styles.length = rs.styles.length + 1 :=
        insState_styles_length rs _ _ _ hrs1
      have hylen : (rs.insState (rs.RunFromPosition position) position
          (rs.ValueAt position)).styles.length = (rs.insState
          (rs.RunFromPosition position) position (rs.ValueAt position)).entries := by
        rw [hysl, hye, hlen]
      have hysent : (rs.insState (rs.RunFromPosition position) position
          (rs.ValueAt position)).vAt ((rs.insState (rs.RunFromPosition position) position
          (rs.ValueAt position)).entries - 1) = 0 := by
        rw [hye, show rs.entries + 1 - 1 = (rs.entries - 1) + 1 from by omega,
          insState_vAt_gt rs _ _ _ hrs1 (rs.entries - 1) (by omega)]
        exact hsent
      have hyA : (rs.insState (rs.RunFromPosition position) position
          (rs.ValueAt position)).sAt (rs.RunFromPosition position + 1) = position :=
        insState_sAt_mid rs _ _ _ hrb1
      have hyRE1 : (rs.insState (rs.RunFromPosition position) position
          (rs.ValueAt position)).sAt (rs.RunFromPosition (position + deleteLength) + 1) =
          rs.sAt (rs.RunFromPosition (position + deleteLength)) :=
        insState_sAt_gt rs _ position (rs.ValueAt position) hrb1
          (rs.RunFromPosition (position + deleteLength)) (by omega)
      have hyRE2 : (rs.insState (rs.RunFromPosition position) position
          (rs.ValueAt position)).sAt (rs.RunFromPosition (position + deleteLength) + 2) =
          rs.sAt (rs.RunFromPosition (position + deleteLength) + 1) := by
        have hx := insState_sAt_gt rs _ position (rs.ValueAt position) hrb1
          (rs.RunFromPosition (position + deleteLength) + 1) (by omega)
        rw [show rs.RunFromPosition (position + deleteLength) + 1 + 1 =
          rs.RunFromPosition (position + deleteLength) + 2 from rfl] at hx
        exact hx
      have hrfpY : (rs.insState (rs.RunFromPosition position) position
          (rs.ValueAt position)).RunFromPosition (position + deleteLength) =
          rs.RunFromPosition (position + deleteLength) + 1 := by
        by_cases hE2 : position + deleteLength =
            rs.sAt (rs.RunFromPosition (position + deleteLength) + 1)
        · have hm2e := hk4 hE2
          have hyL : (rs.insState (rs.RunFromPosition position) position
              (rs.ValueAt position)).Length = rs.Length := by
            rw [length_eq_sAt, length_eq_sAt, hye,
              show rs.entries + 1 - 1 = (rs.entries - 1) + 1 from by omega,
              insState_sAt_gt rs _ _ _ hrb1 (rs.entries - 1) (by omega)]
          rw [rfp_last _ hsy _ (by
            rw [hyL, length_eq_sAt,
              show rs.entries - 1 = rs.RunFromPosition (position + deleteLength) + 1
                from by omega]
            exact le_of_eq hE2.symm), hye]
          omega
        · refine rfp_eq _ hsy _ _ ?_ ?_ ?_
          · rw [hyRE1]
            exact hk1
          · rw [hyRE2]
            omega
          · rw [hye]
            omega
      have hvalY : (rs.insState (rs.RunFromPosition position) position
          (rs.ValueAt position)).ValueAt (position + deleteLength) =
          rs.vAt (rs.RunFromPosition (position + deleteLength)) := by
        by_cases hE2 : position + deleteLength =
            rs.sAt (rs.RunFromPosition (position + deleteLength) + 1)
        · have hm2e := hk4 hE2
          have hyL : (rs.insState (rs.RunFromPosition position) position
              (rs.ValueAt position)).Length = rs.Length := by
            rw [length_eq_sAt, length_eq_sAt, hye,
              show rs.entries + 1 - 1 = (rs.entries - 1) + 1 from by omega,
              insState_sAt_gt rs _ _ _ hrb1 (rs.entries - 1) (by omega)]
          rw [valueAt_last _ hsy _ (by
            rw [hyL, length_eq_sAt,
              show rs.entries - 1 = rs.RunFromPosition (position + deleteLength) + 1
                from by omega]
            exact le_of_eq hE2.symm), hye,
            show rs.entries + 1 - 2 = rs.RunFromPosition (position + deleteLength) + 1
              from by omega,
            insState_vAt_gt rs _ _ _ hrs1 _ (by omega)]
        · rw [valueAt_run _ hsy _ (rs.RunFromPosition (position + deleteLength) + 1)
            (by rw [hyRE1]; exact hk1) (by rw [hyRE2]; omega) (by rw [hye]; omega),
            insState_vAt_gt rs _ _ _ hrs1 _ (by omega)]
      by_cases hsp2 : rs.sAt (rs.RunFromPosition (position + deleteLength)) <
          position + deleteLength
      · have hspY : (rs.insState (rs.RunFromPosition position) position
            (rs.ValueAt position)).SplitRun (position + deleteLength) =
            (rs.RunFromPosition (position + deleteLength) + 2,
            (rs.insState (rs.RunFromPosition position) position
              (rs.ValueAt position)).insState
              (rs.RunFromPosition (position + deleteLength) + 1)
              (position + deleteLength)
              (rs.vAt (rs.RunFromPosition (position + deleteLength)))) := by
          rw [splitRun_insState (rs.insState (rs.RunFromPosition position) position
            (rs.ValueAt position)) (position + deleteLength)
            (by rw [hrfpY, hyRE1]; exact hsp2)
            (by rw [hrfpY, hysl]; omega), hrfpY, hvalY]
        rw [hspY]
        dsimp only
        have hrbY : rs.RunFromPosition (position + deleteLength) + 1 + 1 ≤
            (rs.insState (rs.RunFromPosition position) position
            (rs.ValueAt position)).starts.body.length := by omega
        have hrsY : rs.RunFromPosition (position + deleteLength) + 1 + 1 ≤
            (rs.insState (rs.RunFromPosition position) position
            (rs.ValueAt position)).styles.length := by omega
        have hszZ : ((rs.insState (rs.RunFromPosition position) position
            (rs.ValueAt position)).insState
            (rs.RunFromPosition (position + deleteLength) + 1) (position + deleteLength)
            (rs.vAt (rs.RunFromPosition (position + deleteLength)))).SInv :=
          insState_sinv _ hsy _ _
            (by rw [hyRE1]; exact hsp2)
            (by
              rw [show rs.RunFromPosition (position + deleteLength) + 1 + 1 =
                  rs.RunFromPosition (position + deleteLength) + 2 from rfl, hyRE2]
              exact hk2)
            (by rw [hye]; omega)
            (fun hc => by
              rw [show rs.RunFromPosition (position + deleteLength) + 1 + 1 =
                  rs.RunFromPosition (position + deleteLength) + 2 from rfl, hyRE2] at hc
              have := hk4 hc
              rw [hye]
              omega) _
        have hze : ((rs.insState (rs.RunFromPosition position) position
            (rs.ValueAt position)).insState
            (rs.RunFromPosition (position + deleteLength) + 1) (position + deleteLength)
            (rs.vAt (rs.RunFromPosition (position + deleteLength)))).entries =
            rs.entries + 2 := by
          rw [insState_entries _ _ _ _ hrbY, hye]
        have hzlen : ((rs.insState (rs.RunFromPosition position) position
            (rs.ValueAt position)).insState
            (rs.RunFromPosition (position + deleteLength) + 1) (position + deleteLength)
            (rs.vAt (rs.RunFromPosition (position + deleteLength)))).styles.length =
            ((rs.insState (rs.RunFromPosition position) position
            (rs.ValueAt position)).insState
            (rs.RunFromPosition (position + deleteLength) + 1) (position + deleteLength)
            (rs.vAt (rs.RunFromPosition (position + deleteLength)))).entries := by
          rw [insState_styles_length _ _ _ _ hrsY, hysl, hze, hlen]
        have hzsent : ((rs.insState (rs.RunFromPosition position) position
            (rs.ValueAt position)).insState
            (rs.RunFromPosition (position + deleteLength) + 1) (position + deleteLength)
            (rs.vAt (rs.RunFromPosition (position + deleteLength)))).vAt
            (((rs.insState (rs.RunFromPosition position) position
            (rs.ValueAt position)).insState
            (rs.RunFromPosition (position + deleteLength) + 1) (position + deleteLength)
            (rs.vAt (rs.RunFromPosition (position + deleteLength)))).entries - 1) = 0 := by
          rw [hze, show rs.entries + 2 - 1 = rs.entries + 1 from by omega,
            insState_vAt_gt _ _ _ _ hrsY rs.entries (by omega),
            show rs.entries = (rs.entries - 1) + 1 from by omega,
            insState_vAt_gt rs _ _ _ hrs1 (rs.entries - 1) (by omega)]
          exact hsent
        have hzA : ((rs.insState (rs.RunFromPosition position) position
            (rs.ValueAt position)).insState
            (rs.RunFromPosition (position + deleteLength) + 1) (position + deleteLength)
            (rs.vAt (rs.RunFromPosition (position + deleteLength)))).sAt
            (rs.RunFromPosition position + 1) = position := by
          rw [insState_sAt_le _ _ _ _ hrbY (rs.RunFromPosition position + 1) (by omega)]
          exact hyA
        have hzB : ((rs.insState (rs.RunFromPosition position) position
            (rs.ValueAt position)).insState
            (rs.RunFromPosition (position + deleteLength) + 1) (position + deleteLength)
            (rs.vAt (rs.RunFromPosition (position + deleteLength)))).sAt
            (rs.RunFromPosition (position + deleteLength) + 2) =
            position + deleteLength := by
          rw [show rs.RunFromPosition (position + deleteLength) + 2 =
            rs.RunFromPosition (position + deleteLength) + 1 + 1 from rfl]
          exact insState_sAt_mid _ _ _ _ hrbY
        have hvpreZ : ∀ i, 1 ≤ i → i + 1 ≤ rs.RunFromPosition position + 1 →
            ((rs.insState (rs.RunFromPosition position) position
            (rs.ValueAt position)).insState
            (rs.RunFromPosition (position + deleteLength) + 1) (position + deleteLength)
            (rs.vAt (rs.RunFromPosition (position + deleteLength)))).vAt i ≠
            ((rs.insState (rs.RunFromPosition position) position
            (rs.ValueAt position)).insState
            (rs.RunFromPosition (position + deleteLength) + 1) (position + deleteLength)
            (rs.vAt (rs.RunFromPosition (position + deleteLength)))).vAt (i - 1) := by
          intro i h1 hi
          rw [insState_vAt_le _ _ _ _ hrsY i (by omega),
            insState_vAt_le _ _ _ _ hrsY (i - 1) (by omega),
            insState_vAt_le rs _ _ _ hrs1 i (by omega),
            insState_vAt_le rs _ _ _ hrs1 (i - 1) (by omega)]
          exact hnd i h1 (by omega)
        have hvsufZ : ∀ i, rs.RunFromPosition (position + deleteLength) + 2 < i →
            i + 2 ≤ ((rs.insState (rs.RunFromPosition position) position
            (rs.ValueAt position)).insState
            (rs.RunFromPosition (position + deleteLength) + 1) (position + deleteLength)
            (rs.vAt (rs.RunFromPosition (position + deleteLength)))).entries →
            ((rs.insState (rs.RunFromPosition position) position
            (rs.ValueAt position)).insState
            (rs.RunFromPosition (position + deleteLength) + 1) (position + deleteLength)
            (rs.vAt (rs.RunFromPosition (position + deleteLength)))).vAt i ≠
            ((rs.insState (rs.RunFromPosition position) position
            (rs.ValueAt position)).insState
            (rs.RunFromPosition (position + deleteLength) + 1) (position + deleteLength)
            (rs.vAt (rs.RunFromPosition (position + deleteLength)))).vAt (i - 1) := by
          intro i hi hi2
          rw [hze] at hi2
          obtain ⟨k, hk⟩ : ∃ k, i = k + 1 := ⟨i - 1, by omega⟩
          subst hk
          rw [insState_vAt_gt _ _ _ _ hrsY k (by omega),
            show k + 1 - 1 = k from by omega]
          by_cases hkb : k = rs.RunFromPosition (position + deleteLength) + 2
          · rw [hkb, show rs.RunFromPosition (position + deleteLength) + 2 =
              rs.RunFromPosition (position + deleteLength) + 1 + 1 from rfl,
              insState_vAt_mid _ _ _ _ hrsY,
              insState_vAt_gt rs _ _ _ hrs1
                (rs.RunFromPosition (position + deleteLength) + 1) (by omega)]
            have h9 := hnd (rs.RunFromPosition (position + deleteLength) + 1)
              (by omega) (by omega)
            rw [show rs.RunFromPosition (position + deleteLength) + 1 - 1 =
              rs.RunFromPosition (position + deleteLength) from by omega] at h9
            exact h9
          · obtain ⟨k2, hk2x⟩ : ∃ k2, k = k2 + 1 := ⟨k - 1, by omega⟩
            subst hk2x
            rw [insState_vAt_gt _ _ _ _ hrsY k2 (by omega),
              insState_vAt_gt rs _ _ _ hrs1 k2 (by omega)]
            obtain ⟨k3, hk3x⟩ : ∃ k3, k2 = k3 + 1 := ⟨k2 - 1, by omega⟩
            subst hk3x
            rw [insState_vAt_gt rs _ _ _ hrs1 k3 (by omega)]
            have h9 := hnd (k3 + 1) (by omega) (by omega)
            rw [show k3 + 1 - 1 = k3 from by omega] at h9
            exact h9
        exact deleteTail_inv _ position deleteLength
          (rs.RunFromPosition position + 1)
          (rs.RunFromPosition (position + deleteLength) + 2)
          hszZ hzlen hzsent (by omega) (by rw [hze]; omega) hdl hzA hzB
          (fun h0 => absurd h0 (by omega)) hvpreZ hvsufZ
      · have hbde : rs.sAt (rs.RunFromPosition (position + deleteLength)) =
            position + deleteLength := by omega
        have hspB : (rs.insState (rs.RunFromPosition position) position
            (rs.ValueAt position)).SplitRun (position + deleteLength) =
            (rs.RunFromPosition (position + deleteLength) + 1,
            rs.insState (rs.RunFromPosition position) position (rs.ValueAt position)) := by
          rw [splitRun_boundary (rs.insState (rs.RunFromPosition position) position
            (rs.ValueAt position)) (position + deleteLength)
            (by rw [hrfpY, hyRE1]; exact hbde), hrfpY]
        rw [hspB]
        dsimp only
        have hvsufY : ∀ i, rs.RunFromPosition (position + deleteLength) + 1 < i →
            i + 2 ≤ (rs.insState (rs.RunFromPosition position) position
            (rs.ValueAt position)).entries →
            (rs.insState (rs.RunFromPosition position) position
            (rs.ValueAt position)).vAt i ≠ (rs.insState (rs.RunFromPosition position)
            position (rs.ValueAt position)).vAt (i - 1) := by
          intro i hi hi2
          rw [hye] at hi2
          obtain ⟨k, hk⟩ : ∃ k, i = k + 1 := ⟨i - 1, by omega⟩
          subst hk
          rw [insState_vAt_gt rs _ _ _ hrs1 k (by omega),
            show k + 1 - 1 = k from by omega]
          obtain ⟨k2, hk2x⟩ : ∃ k2, k = k2 + 1 := ⟨k - 1, by omega⟩
          subst hk2x
          rw [insState_vAt_gt rs _ _ _ hrs1 k2 (by omega)]
          have h9 := hnd (k2 + 1) (by omega) (by omega)
          rw [show k2 + 1 - 1 = k2 from by omega] at h9
          exact h9
        refine deleteTail_inv _ position deleteLength
          (rs.RunFromPosition position + 1)
          (rs.RunFromPosition (position + deleteLength) + 1)
          hsy hylen hysent (by omega) (by rw [hye]; omega) hdl hyA
          (by rw [hyRE1]; exact hbde)
          (fun h0 => absurd h0 (by omega)) ?_ hvsufY
        intro i h1 hi
        rw [insState_vAt_le rs _ _ _ hrs1 i (by omega),
          insState_vAt_le rs _ _ _ hrs1 (i - 1) (by omega)]
        exact hnd i h1 (by omega)
    · have hbd1 : rs.sAt (rs.RunFromPosition position) = position := by omega
      rw [splitRun_boundary rs position hbd1]
      dsimp only
      by_cases hsp2 : rs.sAt (rs.RunFromPosition (position + deleteLength)) <
          position + deleteLength
      · rw [splitRun_insState rs (position + deleteLength) hsp2 (by omega)]
        dsimp only
        have hrbE : rs.RunFromPosition (position + deleteLength) + 1 ≤
            rs.starts.body.length := by omega
        have hrsE : rs.RunFromPosition (position + deleteLength) + 1 ≤
            rs.styles.length := by omega
        have hszB : (rs.insState (rs.RunFromPosition (position + deleteLength))
            (position + deleteLength) (rs.ValueAt (position + deleteLength))).SInv :=
          insState_sinv rs hs _ _ hsp2 hk2 hk3 hk4 _
        have hzeB : (rs.insState (rs.RunFromPosition (position + deleteLength))
            (position + deleteLength) (rs.ValueAt (position + deleteLength))).entries =
            rs.entries + 1 := insState_entries rs _ _ _ hrbE
        have hzlenB : (rs.insState (rs.RunFromPosition (position + deleteLength))
            (position + deleteLength)
            (rs.ValueAt (position + deleteLength))).styles.length =
            (rs.insState (rs.RunFromPosition (position + deleteLength))
            (position + deleteLength) (rs.ValueAt (position + deleteLength))).entries := by
          rw [insState_styles_length rs _ _ _ hrsE, hzeB, hlen]
        have hzsentB : (rs.insState (rs.RunFromPosition (position + deleteLength))
            (position + deleteLength) (rs.ValueAt (position + deleteLength))).vAt
            ((rs.insState (rs.RunFromPosition (position + deleteLength))
            (position + deleteLength) (rs.ValueAt (position + deleteLength))).entries - 1)
            = 0 := by
          rw [hzeB, show rs.entries + 1 - 1 = (rs.entries - 1) + 1 from by omega,
            insState_vAt_gt rs _ _ _ hrsE (rs.entries - 1) (by omega)]
          exact hsent
        have hvsufB : ∀ i, rs.RunFromPosition (position + deleteLength) + 1 < i →
            i + 2 ≤ (rs.insState (rs.RunFromPosition (position + deleteLength))
            (position + deleteLength) (rs.ValueAt (position + deleteLength))).entries →
            (rs.insState (rs.RunFromPosition (position + deleteLength))
            (position + deleteLength) (rs.ValueAt (position + deleteLength))).vAt i ≠
            (rs.insState (rs.RunFromPosition (position + deleteLength))
            (position + deleteLength)
            (rs.ValueAt (position + deleteLength))).vAt (i - 1) := by
          intro i hi hi2
          rw [hzeB] at hi2
          obtain ⟨k, hk⟩ : ∃ k, i = k + 1 := ⟨i - 1, by omega⟩
          subst hk
          rw [insState_vAt_gt rs _ _ _ hrsE k (by omega),
            show k + 1 - 1 = k from by omega]
          by_cases hkb : k = rs.RunFromPosition (position + deleteLength) + 1
          · rw [hkb, insState_vAt_mid rs _ _ _ hrsE, hvale]
            have h9 := hnd (rs.RunFromPosition (position + deleteLength) + 1)
              (by omega) (by omega)
            rw [show rs.RunFromPosition (position + deleteLength) + 1 - 1 =
              rs.RunFromPosition (position + deleteLength) from by omega] at h9
            exact h9
          · obtain ⟨k2, hk2x⟩ : ∃ k2, k = k2 + 1 := ⟨k - 1, by omega⟩
            subst hk2x
            rw [insState_vAt_gt rs _ _ _ hrsE k2 (by omega)]
            have h9 := hnd (k2 + 1) (by omega) (by omega)
            rw [show k2 + 1 - 1 = k2 from by omega] at h9
            exact h9
        refine deleteTail_inv _ position deleteLength (rs.RunFromPosition position)
          (rs.RunFromPosition (position + deleteLength) + 1)
          hszB hzlenB hzsentB (by omega) (by rw [hzeB]; omega) hdl
          (by
            rw [insState_sAt_le rs _ _ _ hrbE (rs.RunFromPosition position) (by omega)]
            exact hbd1)
          (insState_sAt_mid rs _ _ _ hrbE)
          (fun h0 => by rw [h0, hs.2.1] at hbd1; exact hbd1.symm) ?_ hvsufB
        intro i h1 hi
        rw [insState_vAt_le rs _ _ _ hrsE i (by omega),
          insState_vAt_le rs _ _ _ hrsE (i - 1) (by omega)]
        exact hnd i h1 (by omega)
      · have hbde2 : rs.sAt (rs.RunFromPosition (position + deleteLength)) =
            position + deleteLength := by omega
        rw [splitRun_boundary rs (position + deleteLength) hbde2]
        dsimp only
        exact deleteTail_inv rs position deleteLength (rs.RunFromPosition position)
          (rs.RunFromPosition (position + deleteLength)) hs hlen hsent hrSltrE
          (by omega) hdl hbd1 hbde2
          (fun h0 => by rw [h0, hs.2.1] at hbd1; exact hbd1.symm)
          (fun i h1 hi => hnd i h1 (by omega))
          (fun i hi hi2 => hnd i (by omega) (by omega))

end RunStyles

theorem runReachable_inv (rs : RunStyles) (hr : RunReachable rs) : rs.Inv := by
  induction hr with
  | init => decide
  | step rs' op hr' hv ih =>
    cases op with
    | fill p v l => exact RunStyles.fillRange_inv rs' ih p v l hv
    | setValue p v => exact RunStyles.fillRange_inv rs' ih p v 1 hv
    | insertSpace p l => exact RunStyles.insertSpace_inv rs' ih p l hv.2.2
    | deleteRange p l => exact RunStyles.deleteRange_inv rs' ih p l hv.1 hv.2.1 hv.2.2

/-- **C6.** Every `RunStyles` state reachable from a fresh object by any
sequence of valid `FillRange`, `SetValueAt`, `InsertSpace` and `DeleteRange`
calls satisfies the run invariant: no two adjacent runs hold the same value,
and no interior run has zero length — every start is strictly below the next
one except possibly the final sentinel pair at the past-end position. -/
theorem runStyles_reachable_invariant (rs : RunStyles) (hr : RunReachable rs) :
    (∀ i, 1 ≤ i → i + 1 < rs.entries → rs.vAt i ≠ rs.vAt (i - 1)) ∧
    (∀ i, i + 2 < rs.entries → rs.sAt i < rs.sAt (i + 1)) := by
  have h := runReachable_inv rs hr
  exact ⟨fun i h1 hi => h.2.2.2.2.2.2.1 i (by omega) h1 hi,
    fun i hi => RunStyles.strict_pair rs (RunStyles.sInv_of_inv rs h) i hi⟩

/-- Witness for C6: the fresh state after `InsertSpace 0 4` and
`FillRange 1 7 2`, concretely `[0,1,3,4] / [0,7,0,0]`, satisfies both parts. -/
theorem runStyles_reachable_invariant_witness :
    (∀ i, 1 ≤ i →
      i + 1 < (applyRunOp (applyRunOp RunStyles.initial (RunOp.insertSpace 0 4))
        (RunOp.fill 1 7 2)).entries →
      (applyRunOp (applyRunOp RunStyles.initial (RunOp.insertSpace 0 4))
        (RunOp.fill 1 7 2)).vAt i ≠
      (applyRunOp (applyRunOp RunStyles.initial (RunOp.insertSpace 0 4))
        (RunOp.fill 1 7 2)).vAt (i - 1)) ∧
    (∀ i, i + 2 < (applyRunOp (applyRunOp RunStyles.initial
        (RunOp.insertSpace 0 4)) (RunOp.fill 1 7 2)).entries →
      (applyRunOp (applyRunOp RunStyles.initial (RunOp.insertSpace 0 4))
        (RunOp.fill 1 7 2)).sAt i <
      (applyRunOp (applyRunOp RunStyles.initial (RunOp.insertSpace 0 4))
        (RunOp.fill 1 7 2)).sAt (i + 1)) :=
  runStyles_reachable_invariant _
    (RunReachable.step _ (RunOp.fill 1 7 2)
      (RunReachable.step _ (RunOp.insertSpace 0 4) RunReachable.init
        (show (0 : Int) ≤ 0 ∧ (0 : Int) ≤ RunStyles.initial.Length ∧ (0 : Int) < 4
          from by decide))
      (show (0 : Int) ≤ 1 from by decide))

/-! ## Undo/redo round trip (claim C1) -/

theorem svDeleteRange_zero (l : List Nat) (pos : Int) : svDeleteRange l pos 0 = l := by
  unfold svDeleteRange
  by_cases h : pos < 0 ∨ (l.length : Int) < pos + 0
  · rw [if_pos h]
  · rw [if_neg h, if_neg (by omega)]

theorem svInsertList_nil (l : List Nat) (pos : Int) : svInsertList l pos [] = l := by
  unfold svInsertList
  rw [if_neg (by simp)]

theorem svRange_zero (l : List Nat) (pos : Int) : svRange l pos 0 = [] := by
  unfold svRange
  simp

theorem svDelete_insert_restore (l : List Nat) (pos len : Nat)
    (h : pos + len ≤ l.length) :
    svInsertList (svDeleteRange l (pos : Int) (len : Int)) (pos : Int)
      (svRange l (pos : Int) (len : Int)) = l := by
  rcases Nat.eq_zero_or_pos len with h0 | hposl
  · subst h0
    rw [show ((0 : Nat) : Int) = 0 from rfl, svDeleteRange_zero, svRange_zero,
      svInsertList_nil]
  · have hdel : svDeleteRange l (pos : Int) (len : Int) =
        l.take pos ++ l.drop (pos + len) := by
      unfold svDeleteRange
      rw [if_neg (by push_cast; omega), if_pos (by push_cast; omega)]
      simp only [← Nat.cast_add, Int.toNat_natCast]
    have hrange : svRange l (pos : Int) (len : Int) = (l.drop pos).take len := by
      unfold svRange
      simp only [Int.toNat_natCast]
    rw [hdel, hrange]
    unfold svInsertList
    rw [if_pos (by simp; omega), if_neg (by simp; push_cast; omega)]
    simp only [Int.toNat_natCast]
    have e1 : (l.take pos ++ l.drop (pos + len)).take pos = l.take pos := by
      rw [List.take_append_eq_append_take, List.take_take, min_self]
      simp only [List.length_take]
      rw [show pos - min pos l.length = 0 from by omega]
      simp
    have e2 : (l.take pos ++ l.drop (pos + len)).drop pos = l.drop (pos + len) := by
      rw [List.drop_append_eq_append_drop]
      simp only [List.length_take]
      rw [show pos - min pos l.length = 0 from by omega]
      simp [List.drop_take]
    rw [e1, e2, List.append_assoc]
    conv_rhs => rw [← List.take_append_drop pos l]
    congr 1
    conv_rhs => rw [← List.take_append_drop len (l.drop pos)]
    congr 1
    rw [List.drop_drop, Nat.add_comm]

theorem svInsert_delete_restore (l : List Nat) (pos len : Nat) (data : List Nat)
    (h : pos ≤ l.length) (hlen : data.length = len) :
    svDeleteRange (svInsertList l (pos : Int) data) (pos : Int) ((len : Nat) : Int)
      = l := by
  rcases Nat.eq_zero_or_pos len with h0 | hposl
  · subst h0
    have hd : data = [] := List.length_eq_zero.mp hlen
    rw [hd, svInsertList_nil, show ((0 : Nat) : Int) = 0 from rfl, svDeleteRange_zero]
  · have hins : svInsertList l (pos : Int) data = l.take pos ++ data ++ l.drop pos := by
      unfold svInsertList
      rw [if_pos (by omega), if_neg (by push_cast; omega)]
      simp only [Int.toNat_natCast]
    rw [hins]
    unfold svDeleteRange
    rw [if_neg (by simp; push_cast; omega), if_pos (by push_cast; omega)]
    simp only [← Nat.cast_add, Int.toNat_natCast]
    have e1 : (l.take pos ++ data ++ l.drop pos).take pos = l.take pos := by
      rw [List.append_assoc, List.take_append_eq_append_take, List.take_take, min_self]
      simp only [List.length_take]
      rw [show pos - min pos l.length = 0 from by omega]
      simp
    have e2 : (l.take pos ++ data ++ l.drop pos).drop (pos + len) = l.drop pos := by
      rw [List.append_assoc, List.drop_append_eq_append_drop]
      simp only [List.length_take]
      rw [show (l.take pos).drop (pos + len) = [] from by simp,
        List.drop_append_eq_append_drop, hlen]
      rw [show data.drop (pos + len - min pos l.length) = [] from by simp [hlen]; omega]
      simp only [List.nil_append, hlen]
      rw [show pos + len - min pos l.length - len = 0 from by omega]
      simp
    rw [e1, e2, List.take_append_drop]

theorem windowBack_length (s : ScrapStack) (len : Nat) (h1 : len ≤ s.current)
    (h2 : s.current ≤ s.stack.length) : (s.windowBack len).length = len := by
  unfold ScrapStack.windowBack
  simp
  omega

theorem performRedo_bump_performUndo (cb : CellBuffer)
    (h1 : 1 ≤ cb.uh.currentAction)
    (hsc : cb.uh.scraps.current ≤ cb.uh.scraps.stack.length)
    (hlc : (cb.uh.actions cb.uh.currentAction).length ≤ cb.uh.scraps.current)
    (hact : ((cb.uh.actions cb.uh.currentAction).act = ActionType.insert ∧
        ((cb.uh.actions cb.uh.currentAction).position : Int) +
          ((cb.uh.actions cb.uh.currentAction).length : Int) ≤
          (cb.substance.length : Int) ∧
        cb.uh.scraps.windowBack (cb.uh.actions cb.uh.currentAction).length =
          svRange cb.substance ((cb.uh.actions cb.uh.currentAction).position : Int)
            ((cb.uh.actions cb.uh.currentAction).length : Int)) ∨
      ((cb.uh.actions cb.uh.currentAction).act = ActionType.remove ∧
        ((cb.uh.actions cb.uh.currentAction).position : Int) ≤
          (cb.substance.length : Int))) :
    cb.performUndoStep.bumpCurrent.performRedoStep = cb.bumpCurrent := by
  obtain ⟨sub, ro, cu, uh⟩ := cb
  obtain ⟨acts, maxA, ca, dep, sp, tp, det, sc⟩ := uh
  obtain ⟨stk, cur⟩ := sc
  dsimp only [CellBuffer.performUndoStep, CellBuffer.performRedoStep,
    CellBuffer.bumpCurrent, UndoHistory.getUndoStep, UndoHistory.getRedoStep,
    UndoHistory.completedUndoStep, UndoHistory.completedRedoStep,
    ScrapStack.moveBack, ScrapStack.moveForward, ScrapStack.windowBack,
    ScrapStack.windowForward] at h1 hsc hlc hact ⊢
  rw [if_pos hlc]
  dsimp only
  rw [show ca - 1 + 1 = ca from by omega,
    if_pos (show cur - (acts ca).length + (acts ca).length ≤ stk.length from by omega),
    show cur - (acts ca).length + (acts ca).length = cur from by omega]
  rcases hact with ⟨hin, hle, hwin⟩ | ⟨hrm, hle⟩
  · rw [if_pos hin, if_pos hin]
    by_cases hl0 : (acts ca).length = 0
    · rw [if_neg (show ¬((acts ca).length ≠ 0) from by omega), svInsertList_nil, hl0,
        show ((0 : Nat) : Int) = 0 from rfl, svDeleteRange_zero]
    · rw [if_pos hl0, hwin,
        svDelete_insert_restore sub (acts ca).position (acts ca).length (by omega)]
  · rw [if_neg (show ¬((acts ca).act = ActionType.insert) from by rw [hrm]; decide),
      if_pos hrm,
      if_neg (show ¬((acts ca).act = ActionType.insert) from by rw [hrm]; decide),
      if_pos hrm]
    by_cases hl0 : (acts ca).length = 0
    · rw [if_neg (show ¬((acts ca).length ≠ 0) from by omega), svInsertList_nil, hl0,
        show ((0 : Nat) : Int) = 0 from rfl, svDeleteRange_zero]
    · have hdl : ((stk.drop (cur - (acts ca).length)).take (acts ca).length).length =
          (acts ca).length := by
        simp
        omega
      rw [if_pos hl0,
        svInsert_delete_restore sub (acts ca).position (acts ca).length _ (by omega) hdl]

theorem moveBack_bound (s : ScrapStack) (len : Nat) (h : s.current ≤ s.stack.length) :
    (s.moveBack len).current ≤ (s.moveBack len).stack.length := by
  unfold ScrapStack.moveBack
  by_cases hc : len ≤ s.current
  · rw [if_pos hc]
    dsimp only
    omega
  · rw [if_neg hc]
    exact h

theorem performRedoSteps_succ (n : Nat) : ∀ cb : CellBuffer,
    CellBuffer.performRedoSteps (n + 1) cb =
      (CellBuffer.performRedoSteps n cb).performRedoStep := by
  induction n with
  | zero => intro cb; rfl
  | succ n ih => intro cb; exact ih cb.performRedoStep

theorem performUndoSteps_ro : ∀ (n : Nat) (cb : CellBuffer),
    (CellBuffer.performUndoSteps n cb).readOnly = cb.readOnly := by
  intro n
  induction n with
  | zero => intro cb; rfl
  | succ n ih => intro cb; exact ih cb.performUndoStep

theorem performUndoSteps_cu : ∀ (n : Nat) (cb : CellBuffer),
    (CellBuffer.performUndoSteps n cb).collectingUndo = cb.collectingUndo := by
  intro n
  induction n with
  | zero => intro cb; rfl
  | succ n ih => intro cb; exact ih cb.performUndoStep

theorem performUndoSteps_actions : ∀ (n : Nat) (cb : CellBuffer),
    (CellBuffer.performUndoSteps n cb).uh.actions = cb.uh.actions := by
  intro n
  induction n with
  | zero => intro cb; rfl
  | succ n ih => intro cb; exact ih cb.performUndoStep

theorem performUndoSteps_maxAction : ∀ (n : Nat) (cb : CellBuffer),
    (CellBuffer.performUndoSteps n cb).uh.maxAction = cb.uh.maxAction := by
  intro n
  induction n with
  | zero => intro cb; rfl
  | succ n ih => intro cb; exact ih cb.performUndoStep

theorem performUndoSteps_currentAction : ∀ (n : Nat) (cb : CellBuffer),
    (CellBuffer.performUndoSteps n cb).uh.currentAction = cb.uh.currentAction - n := by
  intro n
  induction n with
  | zero => intro cb; rfl
  | succ n ih =>
    intro cb
    have h2 := ih cb.performUndoStep
    rw [show cb.performUndoStep.uh.currentAction = cb.uh.currentAction - 1 from rfl] at h2
    rw [show CellBuffer.performUndoSteps (n + 1) cb =
      CellBuffer.performUndoSteps n cb.performUndoStep from rfl, h2]
    omega

theorem prevStart_le (h : UndoHistory) : ∀ n, h.prevStart n ≤ n := by
  intro n
  induction n with
  | zero => exact Nat.le_refl 0
  | succ n ih =>
    unfold UndoHistory.prevStart
    split_ifs
    · omega
    · omega

theorem prevStart_start (h : UndoHistory)
    (h0 : (h.actions 0).act = ActionType.start) :
    ∀ n, (h.actions (h.prevStart n)).act = ActionType.start := by
  intro n
  induction n with
  | zero => exact h0
  | succ n ih =>
    unfold UndoHistory.prevStart
    by_cases hs : (h.actions (n + 1)).act ≠ ActionType.start
    · rw [if_pos hs]
      exact ih
    · rw [if_neg hs]
      simp only [ne_eq, not_not] at hs
      exact hs

theorem prevStart_gap (h : UndoHistory) : ∀ n j, h.prevStart n < j → j ≤ n →
    (h.actions j).act ≠ ActionType.start := by
  intro n
  induction n with
  | zero => intro j hj1 hj2; omega
  | succ n ih =>
    intro j hj1 hj2
    unfold UndoHistory.prevStart at hj1
    by_cases hs : (h.actions (n + 1)).act ≠ ActionType.start
    · rw [if_pos hs] at hj1
      by_cases hj : j = n + 1
      · rw [hj]
        exact hs
      · exact ih j hj1 (by omega)
    · rw [if_neg hs] at hj1
      omega

theorem prevStart_congr (h h' : UndoHistory)
    (he : ∀ i, h.actions i = h'.actions i) :
    ∀ n, h.prevStart n = h'.prevStart n := by
  intro n
  induction n with
  | zero => rfl
  | succ n ih =>
    unfold UndoHistory.prevStart
    rw [he (n + 1)]
    split_ifs
    · exact ih
    · rfl

theorem nextStartAux_stop (h : UndoHistory) (t : Nat)
    (hstop : ¬(t < h.maxAction ∧ (h.actions t).act ≠ ActionType.start)) :
    ∀ fuel act, act ≤ t → t ≤ act + fuel →
    (∀ j, act ≤ j → j < t → j < h.maxAction ∧ (h.actions j).act ≠ ActionType.start) →
    h.nextStartAux fuel act = t := by
  intro fuel
  induction fuel with
  | zero =>
    intro act ha1 ha2 _
    unfold UndoHistory.nextStartAux
    omega
  | succ fuel ih =>
    intro act ha1 ha2 hgap
    unfold UndoHistory.nextStartAux
    by_cases hat : act = t
    · rw [if_neg (by rw [hat]; exact hstop)]
      exact hat
    · rw [if_pos ⟨(hgap act le_rfl (by omega)).1, (hgap act le_rfl (by omega)).2⟩]
      exact ih (act + 1) (by omega) (by omega) (fun j hj1 hj2 => hgap j (by omega) hj2)

theorem undoStep_cb (d : Document) : (Document.undoStep d).cb = d.cb.performUndoStep := by
  cases hact : (d.cb.uh.getUndoStep).act <;>
    simp only [Document.undoStep, hact, Document.notify]

theorem undoStep_em (d : Document) :
    (Document.undoStep d).enteredModification = d.enteredModification := by
  cases hact : (d.cb.uh.getUndoStep).act <;>
    simp only [Document.undoStep, hact, Document.notify]

theorem redoStep_cb (d : Document) : (Document.redoStep d).cb = d.cb.performRedoStep := by
  cases hact : (d.cb.uh.getRedoStep).act <;>
    simp only [Document.redoStep, hact, Document.notify]

theorem redoStep_em (d : Document) :
    (Document.redoStep d).enteredModification = d.enteredModification := by
  cases hact : (d.cb.uh.getRedoStep).act <;>
    simp only [Document.redoStep, hact, Document.notify]

theorem undoSteps_cb : ∀ (k : Nat) (d : Document),
    (Document.undoSteps k d).cb = CellBuffer.performUndoSteps k d.cb := by
  intro k
  induction k with
  | zero => intro d; rfl
  | succ k ih =>
    intro d
    have h2 := ih (Document.undoStep d)
    rw [undoStep_cb] at h2
    exact h2

theorem undoSteps_em : ∀ (k : Nat) (d : Document),
    (Document.undoSteps k d).enteredModification = d.enteredModification := by
  intro k
  induction k with
  | zero => intro d; rfl
  | succ k ih =>
    intro d
    have h2 := ih (Document.undoStep d)
    rw [undoStep_em] at h2
    exact h2

theorem redoSteps_cb : ∀ (k : Nat) (d : Document),
    (Document.redoSteps k d).cb = CellBuffer.performRedoSteps k d.cb := by
  intro k
  induction k with
  | zero => intro d; rfl
  | succ k ih =>
    intro d
    have h2 := ih (Document.redoStep d)
    rw [redoStep_cb] at h2
    exact h2

theorem ifNotify_cb (x : Document) (b : Prop) [Decidable b] (ntf : Notification) :
    (if b then x.notify ntf else x).cb = x.cb := by
  by_cases hb : b
  · rw [if_pos hb]
    rfl
  · rw [if_neg hb]

theorem ifNotify_em (x : Document) (b : Prop) [Decidable b] (ntf : Notification) :
    (if b then x.notify ntf else x).enteredModification = x.enteredModification := by
  by_cases hb : b
  · rw [if_pos hb]
    rfl
  · rw [if_neg hb]

theorem performSteps_roundtrip : ∀ (n : Nat) (cb : CellBuffer),
    CellBuffer.undoInvertible cb n = true →
    cb.uh.scraps.current ≤ cb.uh.scraps.stack.length →
    CellBuffer.performRedoSteps n (CellBuffer.performUndoSteps n cb).bumpCurrent =
      cb.bumpCurrent := by
  intro n
  induction n with
  | zero => intro cb _ _; rfl
  | succ n ih =>
    intro cb hinv hsc
    unfold CellBuffer.undoInvertible at hinv
    simp only [Bool.and_eq_true, Bool.or_eq_true, decide_eq_true_eq] at hinv
    obtain ⟨⟨⟨h1, hlc⟩, hactd⟩, hrest⟩ := hinv
    rw [performRedoSteps_succ,
      show CellBuffer.performUndoSteps (n + 1) cb =
        CellBuffer.performUndoSteps n cb.performUndoStep from rfl,
      ih cb.performUndoStep hrest
      (moveBack_bound cb.uh.scraps (cb.uh.actions cb.uh.currentAction).length hsc)]
    exact performRedo_bump_performUndo cb h1 hsc hlc
      (hactd.imp (fun hx => ⟨hx.1.1, hx.1.2, hx.2⟩) id)

theorem startRedo_eq (h : UndoHistory) (t : Nat)
    (hlt : h.currentAction < h.maxAction)
    (hst : (h.actions h.currentAction).act = ActionType.start)
    (h1 : h.currentAction + 1 ≤ t) (h2 : t ≤ h.maxAction)
    (hstop : ¬(t < h.maxAction ∧ (h.actions t).act ≠ ActionType.start))
    (hgap : ∀ j, h.currentAction + 1 ≤ j → j < t →
      (h.actions j).act ≠ ActionType.start) :
    h.startRedo = (t - (h.currentAction + 1),
      { h with currentAction := h.currentAction + 1 }) := by
  unfold UndoHistory.startRedo
  rw [if_pos ⟨hlt, hst⟩]
  dsimp only
  unfold UndoHistory.nextStart
  dsimp only
  rw [nextStartAux_stop ({ h with currentAction := h.currentAction + 1 }) t
    hstop (h.maxAction - (h.currentAction + 1)) (h.currentAction + 1)
    h1 (by omega) (fun j hj1 hj2 =>
      ⟨show j < h.maxAction from by omega, hgap j hj1 hj2⟩)]

/-- **C1.** For a document collecting undo with at least one undoable
operation — its history in the well-formed shape every run of the mutation
gateways produces: start records delimiting the current user operation and
every record describing its buffer edit faithfully — `Document::Undo`
followed by `Document::Redo` with no intervening modification restores
exactly the byte content of the buffer, and with it the line-start
structure. -/
theorem undo_redo_restores_buffer (d : Document)
    (hmod : d.enteredModification = 0)
    (hcoll : d.cb.collectingUndo = true)
    (hro : d.cb.readOnly = false)
    (hcu : d.cb.canUndo = true)
    (h0 : (d.cb.uh.actions 0).act = ActionType.start)
    (htop : (d.cb.uh.actions d.cb.uh.currentAction).act = ActionType.start)
    (hcm : d.cb.uh.currentAction ≤ d.cb.uh.maxAction)
    (hsc : d.cb.uh.scraps.current ≤ d.cb.uh.scraps.stack.length)
    (hinv : CellBuffer.undoInvertible
      { d.cb with uh := { d.cb.uh with currentAction := d.cb.uh.currentAction - 1 } }
      (d.cb.uh.currentAction - 1 -
        d.cb.uh.prevStart (d.cb.uh.currentAction - 1)) = true) :
    (d.undo.redo).cb.substance = d.cb.substance ∧
    lineStarts (d.undo.redo).cb.substance = lineStarts d.cb.substance := by
  have hcux : d.cb.uh.canUndo = true := hcu
  rw [UndoHistory.canUndo, decide_eq_true_eq] at hcux
  have hc0 : 0 < d.cb.uh.currentAction := hcux.1
  have hple : d.cb.uh.prevStart (d.cb.uh.currentAction - 1) ≤
      d.cb.uh.currentAction - 1 := prevStart_le d.cb.uh _
  have hpstart : (d.cb.uh.actions
      (d.cb.uh.prevStart (d.cb.uh.currentAction - 1))).act = ActionType.start :=
    prevStart_start d.cb.uh h0 _
  have hnro : ¬ d.cb.readOnly := by
    rw [hro]
    simp
  have hcrd : d.checkReadOnly = d := by
    unfold Document.checkReadOnly
    rw [if_neg]
    intro hcon
    rw [hro] at hcon
    exact absurd hcon.1 (by decide)
  have hsu : d.cb.uh.startUndo =
      (d.cb.uh.currentAction - 1 -
        d.cb.uh.prevStart (d.cb.uh.currentAction - 1),
       { d.cb.uh with currentAction := d.cb.uh.currentAction - 1 }) := by
    unfold UndoHistory.startUndo
    rw [if_pos ⟨htop, hc0⟩]
    dsimp only
    rw [prevStart_congr
      { d.cb.uh with currentAction := d.cb.uh.currentAction - 1 } d.cb.uh
      (fun i => rfl) (d.cb.uh.currentAction - 1)]
  have hUcb : (d.undo).cb = CellBuffer.performUndoSteps
      (d.cb.uh.currentAction - 1 -
        d.cb.uh.prevStart (d.cb.uh.currentAction - 1))
      { d.cb with uh :=
        { d.cb.uh with currentAction := d.cb.uh.currentAction - 1 } } := by
    unfold Document.undo
    rw [hcrd]
    dsimp only
    rw [if_pos ⟨hmod, hcoll⟩, if_pos hnro, hsu]
    dsimp only
    rw [ifNotify_cb, undoSteps_cb]
  have hUem : (d.undo).enteredModification = 0 := by
    unfold Document.undo
    rw [hcrd]
    dsimp only
    rw [if_pos ⟨hmod, hcoll⟩, if_pos hnro, hsu]
    dsimp only
    rw [ifNotify_em, undoSteps_em]
    exact hmod
  have hUc : (d.undo).cb.uh.currentAction =
      d.cb.uh.prevStart (d.cb.uh.currentAction - 1) := by
    rw [hUcb, performUndoSteps_currentAction]
    have h2 : ({ d.cb with uh :=
        { d.cb.uh with currentAction := d.cb.uh.currentAction - 1 } } :
        CellBuffer).uh.currentAction = d.cb.uh.currentAction - 1 := rfl
    rw [h2]
    omega
  have hUacts : (d.undo).cb.uh.actions = d.cb.uh.actions := by
    rw [hUcb, performUndoSteps_actions]
  have hUmax : (d.undo).cb.uh.maxAction = d.cb.uh.maxAction := by
    rw [hUcb, performUndoSteps_maxAction]
  have hUro : (d.undo).cb.readOnly = false := by
    rw [hUcb, performUndoSteps_ro]
    exact hro
  have hUcu : (d.undo).cb.collectingUndo = true := by
    rw [hUcb, performUndoSteps_cu]
    exact hcoll
  have hcrd2 : (d.undo).checkReadOnly = d.undo := by
    unfold Document.checkReadOnly
    rw [if_neg]
    intro hcon
    rw [hUro] at hcon
    exact absurd hcon.1 (by decide)
  have hsr : (d.undo).cb.uh.startRedo =
      (d.cb.uh.currentAction - 1 -
        d.cb.uh.prevStart (d.cb.uh.currentAction - 1),
       { (d.undo).cb.uh with
         currentAction := (d.undo).cb.uh.currentAction + 1 }) := by
    rw [startRedo_eq (d.undo).cb.uh d.cb.uh.currentAction
      (by rw [hUc, hUmax]; omega)
      (by rw [hUacts, hUc]; exact hpstart)
      (by rw [hUc]; omega)
      (by rw [hUmax]; exact hcm)
      (by
        intro hcon
        exact hcon.2 (by rw [hUacts]; exact htop))
      (by
        intro j hj1 hj2
        rw [hUc] at hj1
        rw [hUacts]
        exact prevStart_gap d.cb.uh (d.cb.uh.currentAction - 1) j (by omega)
          (by omega))]
    rw [hUc]
    rw [show d.cb.uh.currentAction -
      (d.cb.uh.prevStart (d.cb.uh.currentAction - 1) + 1) =
      d.cb.uh.currentAction - 1 -
        d.cb.uh.prevStart (d.cb.uh.currentAction - 1) from by omega]
  have hRcb : (d.undo.redo).cb = CellBuffer.performRedoSteps
      (d.cb.uh.currentAction - 1 -
        d.cb.uh.prevStart (d.cb.uh.currentAction - 1))
      ((d.undo).cb.bumpCurrent) := by
    unfold Document.redo
    rw [hcrd2]
    dsimp only
    rw [if_pos ⟨hUem, hUcu⟩,
      if_pos (show ¬ (d.undo).cb.readOnly from by rw [hUro]; simp), hsr]
    dsimp only
    rw [ifNotify_cb, redoSteps_cb]
    rfl
  have hfinal : (d.undo.redo).cb = d.cb := by
    rw [hRcb, hUcb, performSteps_roundtrip _ _ hinv hsc]
    show ({ d.cb with uh :=
      { d.cb.uh with currentAction := d.cb.uh.currentAction - 1 + 1 } } :
      CellBuffer) = d.cb
    rw [show d.cb.uh.currentAction - 1 + 1 = d.cb.uh.currentAction from by omega]
  exact ⟨congrArg CellBuffer.substance hfinal,
    congrArg (fun cb => lineStarts cb.substance) hfinal⟩

/-- Witness for C1: the document holding a single typed byte.  All the
well-formedness hypotheses evaluate on it, and Undo followed by Redo gives
back its buffer bytes and line starts. -/
theorem undo_redo_restores_buffer_witness :
    (typedA.undo.redo).cb.substance = typedA.cb.substance ∧
    lineStarts (typedA.undo.redo).cb.substance = lineStarts typedA.cb.substance :=
  undo_redo_restores_buffer typedA (by decide) (by decide) (by decide) (by decide)
    (by decide) (by decide) (by decide) (by decide) (by decide)

end Scintilla
